import Mathlib

set_option maxRecDepth 4000

/-!
Verification of the JSON-Formatter repository (Vue 3 + Monaco JSON tool).

This file shallowly embeds the JSON processing engine
(`src/composables/useJsonFormatter.js`, `src/utils/jsonProcessing.js`), the
toast queue (`src/composables/useToast.js`), the editor session manager
(`src/composables/useMonacoEditor.js`, second variant, the one the claims
cite), and the throttle helper (`src/components/AppContextMenu.vue`).

Modelling conventions:
* JSON values are `Json` below; JavaScript objects are ordered association
  lists kept in JS own-property enumeration order: integer-like keys
  (canonical decimal strings below `2^32 - 1`) first in ascending numeric
  order, then the other string keys in insertion order
  (`OrdinaryOwnPropertyKeys`).  `jsAssign` models property assignment,
  including JS duplicate-key semantics (first position, last value) when
  parsing.
* Machine numbers are restricted to integers (`Int`): JSON texts with
  fraction or exponent parts denote IEEE doubles, which are out of scope of
  this embedding; the embedded parser rejects them, so theorems quantified
  over parsed values never see them.
* `JSON.parse` / `JSON.stringify` are the host platform's standard
  functions; they are embedded below (`jsonParse`, `serializeChars`)
  following the ECMA-404 / ECMA-262 algorithms (whitespace, escapes, the
  `space` gap clamped to 10, replacer application at every node).
* Recursive functions over `Json` are written with an explicit fuel
  argument so that they compute by kernel reduction; wrappers derive the
  fuel from the input text length, which is proved sufficient where a
  theorem needs it (`jsize` is the proof-level measure).
* Timers and async suspension are modelled by explicit interleaving points:
  a `setTimeout` callback becomes a separate step function that the
  environment may run at its scheduled time.
-/

/-! ## JSON data model -/

/-- JSON values as produced by `JSON.parse`: numbers restricted to integers,
objects as insertion-ordered association lists. -/
inductive Json where
  | null
  | bool (b : Bool)
  | num (n : Int)
  | str (s : String)
  | arr (xs : List Json)
  | obj (fs : List (String × Json))

/-! ## JavaScript primitive semantics -/

/-- The left-brace character, code point 123. -/
def lbraceChar : Char := Char.ofNat 123

/-- The right-brace character, code point 125. -/
def rbraceChar : Char := Char.ofNat 125

/-- JS `typeof` on a parsed JSON value.  Note `typeof null` and `typeof`
of any array or object are all the string `"object"`. -/
def jsTypeof : Json → String
  | .null => "object"
  | .bool _ => "boolean"
  | .num _ => "number"
  | .str _ => "string"
  | .arr _ => "object"
  | .obj _ => "object"

/-- JS strict equality `===` between two values originating from two
separately parsed JSON documents: primitives compare by value, while two
containers are distinct heap references and therefore never strictly
equal. -/
def jsStrictEq : Json → Json → Bool
  | .null, .null => true
  | .bool a, .bool b => a == b
  | .num a, .num b => a == b
  | .str a, .str b => a == b
  | _, _ => false

/-- UTF-16 code units of a character (surrogate pair for astral values),
used for JS string ordering and `String.prototype.length`. -/
def utf16Units (c : Char) : List Nat :=
  if c.toNat < 0x10000 then [c.toNat]
  else [0xD800 + (c.toNat - 0x10000) / 0x400, 0xDC00 + (c.toNat - 0x10000) % 0x400]

/-- The UTF-16 code unit sequence of a string. -/
def utf16Key (s : String) : List Nat := s.data.flatMap utf16Units

/-- JS `String.prototype.length` (UTF-16 code unit count). -/
def jsUtf16Length (s : String) : Nat := (utf16Key s).length

/-- JS default string comparison (`Array.prototype.sort` without a
comparator sorts strings by UTF-16 code units, lexicographically). -/
def jsStrLe (a b : String) : Bool := decide (utf16Key a ≤ utf16Key b)

/-- Characters stripped by `String.prototype.trim` (WhiteSpace and
LineTerminator code points). -/
def isJsTrimWs (c : Char) : Bool :=
  let n := c.toNat
  n = 9 || n = 10 || n = 11 || n = 12 || n = 13 || n = 32 ||
  n = 0xA0 || n = 0x1680 || (0x2000 ≤ n && n ≤ 0x200A) ||
  n = 0x2028 || n = 0x2029 || n = 0x202F || n = 0x205F || n = 0x3000 || n = 0xFEFF

/-- JS `String.prototype.trim`. -/
def jsTrim (s : String) : String :=
  String.mk (((s.data.dropWhile isJsTrimWs).reverse.dropWhile isJsTrimWs).reverse)

/-- `Object.keys`: own enumerable keys of an object or array (array keys
are the decimal indices). -/
def jsKeys : Json → List String
  | .obj fs => fs.map (·.1)
  | .arr xs => (List.range xs.length).map (fun i => toString i)
  | _ => []

/-- JS property lookup `v[k]` on an object or array. -/
def jsGet : Json → String → Option Json
  | .obj fs, k => fs.lookup k
  | .arr xs, k =>
      match (List.range xs.length).find? (fun i => toString i == k) with
      | some i => xs[i]?
      | none => none
  | _, _ => none

/-- JS `k in v` membership test. -/
def jsHasKey (v : Json) (k : String) : Bool := (jsKeys v).contains k

/-! ## Decimal digits (for number printing/parsing) -/

/-- Decimal digit character for `n < 10`. -/
def digitChr (n : Nat) : Char := Char.ofNat (48 + n)

/-- Decimal digits of `n`, most significant first; `fuel > n` suffices. -/
def natDigitsF : Nat → Nat → List Char
  | 0, _ => []
  | fuel+1, n => if n < 10 then [digitChr n] else natDigitsF fuel (n / 10) ++ [digitChr (n % 10)]

/-- Decimal digits of a natural number, most significant first. -/
def natDigits (n : Nat) : List Char := natDigitsF (n + 1) n

/-- JS `String(n)` for an integer: optional minus sign then digits. -/
def intChars (n : Int) : List Char :=
  if n < 0 then '-' :: natDigits n.natAbs else natDigits n.toNat

/-- Numeric value of a decimal digit character. -/
def digitVal (c : Char) : Nat := c.toNat - 48

/-- Value of a digit string, most significant first. -/
def digitsToNat (ds : List Char) : Nat := ds.foldl (fun acc c => acc * 10 + digitVal c) 0

/-- The numeric value of an integer-like property key (ECMAScript array
index): a canonical decimal string, no leading zero except `"0"` itself,
whose value is below `2^32 - 1`.  Such keys enumerate before all other own
keys, in ascending numeric order (`OrdinaryOwnPropertyKeys`). -/
def keyIdx? (k : String) : Option Nat :=
  match k.data with
  | [] => none
  | d :: ds =>
    if (d :: ds).all Char.isDigit && (!(d == '0') || ds.isEmpty) &&
        digitsToNat (d :: ds) < 4294967295 then
      some (digitsToNat (d :: ds))
    else none

/-- Place a fresh integer-like key after every integer-like key of smaller
value (keys are distinct, so `≤` and `<` agree) and before everything
else, as JS own-property enumeration does. -/
def idxInsert (n : Nat) (kv : String × Json) : List (String × Json) → List (String × Json)
  | [] => [kv]
  | q :: rest =>
    match keyIdx? q.1 with
    | some m => if m ≤ n then q :: idxInsert n kv rest else kv :: q :: rest
    | none => kv :: q :: rest

/-- JS property assignment `o[k] = v` on an object in own-property
enumeration order: overwrite in place when the key exists; otherwise an
integer-like key is placed in ascending numeric position among the
integer-like keys (which precede all other keys), and any other key is
appended. -/
def jsAssign (fs : List (String × Json)) (kv : String × Json) : List (String × Json) :=
  if fs.any (fun p => p.1 == kv.1) then
    fs.map (fun p => if p.1 == kv.1 then (p.1, kv.2) else p)
  else
    match keyIdx? kv.1 with
    | some n => idxInsert n kv fs
    | none => fs ++ [kv]

/-- Adjacent-key constraint of JS own-property enumeration order: an
integer-like key may only follow an integer-like key of no larger value;
anything may precede a non-integer-like key. -/
def jsOrdPairB (a b : String) : Bool :=
  match keyIdx? a, keyIdx? b with
  | some i, some j => decide (i ≤ j)
  | some _, none => true
  | none, some _ => false
  | none, none => true

/-- Adjacent-key constraint of the `sortKeys` output order: integer-like
keys ascending numerically first, then the remaining keys in UTF-16
lexicographic order. -/
def jsKeyLeB (a b : String) : Bool :=
  match keyIdx? a, keyIdx? b with
  | some i, some j => decide (i ≤ j)
  | some _, none => true
  | none, some _ => false
  | none, none => jsStrLe a b

/-! ## String escaping (JSON.stringify QuoteJSONString) -/

/-- Lowercase hexadecimal digit character for `n < 16`. -/
def hexDigitChr (n : Nat) : Char := if n < 10 then Char.ofNat (48 + n) else Char.ofNat (87 + n)

/-- Escape one character as `JSON.stringify` does: two-character escapes
for quote, backslash and the common control characters, `\u00xx` for the
remaining control characters, everything else verbatim. -/
def escChar (c : Char) : List Char :=
  if c = '"' then ['\\', '"']
  else if c = '\\' then ['\\', '\\']
  else if c = '\x08' then ['\\', 'b']
  else if c = '\x09' then ['\\', 't']
  else if c = '\x0a' then ['\\', 'n']
  else if c = '\x0c' then ['\\', 'f']
  else if c = '\x0d' then ['\\', 'r']
  else if c.toNat < 0x20 then ['\\', 'u', '0', '0', hexDigitChr (c.toNat / 16), hexDigitChr (c.toNat % 16)]
  else [c]

/-- The characters of a quoted JSON string literal for `s`. -/
def quoteChars (s : String) : List Char := '"' :: s.data.flatMap escChar ++ ['"']

/-! ## Serialization (JSON.stringify) -/

/-- Join character lists with a separator. -/
def joinSep (sep : List Char) : List (List Char) → List Char
  | [] => []
  | [x] => x
  | x :: xs => x ++ sep ++ joinSep sep xs

/-- Indentation for nesting level `depth` with a gap of `gap` spaces. -/
def indentChars (gap depth : Nat) : List Char := List.replicate (gap * depth) ' '

/-- `JSON.stringify(value, replacer, space)` body on characters: the
replacer (when present) is applied to every node before serializing it;
`gap = 0` produces the compact form, `gap > 0` the pretty-printed form
with newline-separated, indented entries and `": "` after object keys.
Fuel bounds the recursion depth; `sizeOf v` always suffices. -/
def serializeCharsF : Nat → Option (Json → Json) → Nat → Nat → Json → List Char
  | 0, _, _, _, _ => []
  | fuel+1, repl, gap, depth, v =>
    let v := match repl with
      | some f => f v
      | none => v
    match v with
    | .null => ['n', 'u', 'l', 'l']
    | .bool b => if b then ['t', 'r', 'u', 'e'] else ['f', 'a', 'l', 's', 'e']
    | .num n => intChars n
    | .str s => quoteChars s
    | .arr [] => ['[', ']']
    | .arr xs =>
      if gap = 0 then
        '[' :: joinSep [','] (xs.map (serializeCharsF fuel repl gap (depth+1))) ++ [']']
      else
        '[' :: '\n' ::
          joinSep (',' :: '\n' :: [])
            (xs.map (fun x => indentChars gap (depth+1) ++ serializeCharsF fuel repl gap (depth+1) x)) ++
          '\n' :: indentChars gap depth ++ [']']
    | .obj [] => [lbraceChar, rbraceChar]
    | .obj fs =>
      if gap = 0 then
        lbraceChar ::
          joinSep [',']
            (fs.map (fun kv => quoteChars kv.1 ++ ':' :: serializeCharsF fuel repl gap (depth+1) kv.2)) ++
          [rbraceChar]
      else
        lbraceChar :: '\n' ::
          joinSep (',' :: '\n' :: [])
            (fs.map (fun kv =>
              indentChars gap (depth+1) ++ quoteChars kv.1 ++ ':' :: ' ' :: serializeCharsF fuel repl gap (depth+1) kv.2)) ++
          '\n' :: indentChars gap depth ++ [rbraceChar]

/-- `JSON.stringify(v, replacer, space)` at a given recursion fuel: the gap
is `min space 10` spaces (ECMA-262 clamps the numeric `space` argument to
10). -/
def jsonStringifyF (fuel : Nat) (repl : Option (Json → Json)) (space : Nat) (v : Json) : String :=
  String.mk (serializeCharsF fuel repl (min space 10) 0 v)

mutual

/-- Proof-level size measure of a JSON value; it dominates both the
recursion depth of the serializer and the fuel the parser consumes, and
every value produced by parsing a text of `n` characters has `jsize ≤ n`. -/
def jsize : Json → Nat
  | .null => 1
  | .bool _ => 1
  | .num _ => 1
  | .str _ => 1
  | .arr xs => 1 + jsizeList xs
  | .obj fs => 1 + jsizeFields fs

def jsizeList : List Json → Nat
  | [] => 0
  | x :: xs => 1 + jsize x + jsizeList xs

def jsizeFields : List (String × Json) → Nat
  | [] => 0
  | kv :: fs => 1 + jsize kv.2 + jsizeFields fs

end

/-! ## Parsing (JSON.parse) -/

/-- JSON whitespace (the only characters `JSON.parse` skips). -/
def isJsonWs (c : Char) : Bool := c = ' ' || c = '\x09' || c = '\x0a' || c = '\x0d'

/-- Skip leading JSON whitespace. -/
def skipWs : List Char → List Char
  | [] => []
  | c :: cs => if isJsonWs c then skipWs cs else c :: cs

/-- Hexadecimal digit value, case-insensitive. -/
def hexVal? (c : Char) : Option Nat :=
  if '0' ≤ c ∧ c ≤ '9' then some (c.toNat - 48)
  else if 'a' ≤ c ∧ c ≤ 'f' then some (c.toNat - 87)
  else if 'A' ≤ c ∧ c ≤ 'F' then some (c.toNat - 55)
  else none

/-- Value of a four-digit hexadecimal escape body. -/
def parseHex4 (c1 c2 c3 c4 : Char) : Option Nat :=
  match hexVal? c1, hexVal? c2, hexVal? c3, hexVal? c4 with
  | some h1, some h2, some h3, some h4 => some (h1 * 4096 + h2 * 256 + h3 * 16 + h4)
  | _, _, _, _ => none

/-- Decode the low-surrogate half `\\uXXXX` following a high surrogate of
value `n`, combining the pair into one astral character. -/
def readLowSurrogate (n : Nat) : List Char → Option (Char × List Char)
  | b1 :: b2 :: d1 :: d2 :: d3 :: d4 :: cs5 =>
    if b1 = '\\' && b2 = 'u' then
      match parseHex4 d1 d2 d3 d4 with
      | some m =>
        if 0xDC00 ≤ m && m < 0xE000 then
          some (Char.ofNat (0x10000 + (n - 0xD800) * 0x400 + (m - 0xDC00)), cs5)
        else none
      | none => none
    else none
  | _ => none

/-- Decode the four hex digits of a `\\uXXXX` escape: a BMP scalar value
directly, a high surrogate via `readLowSurrogate`, and a lone low
surrogate as a failure (the embedding's characters are Unicode scalar
values). -/
def readUnicodeEscape : List Char → Option (Char × List Char)
  | c1 :: c2 :: c3 :: c4 :: cs3 =>
    match parseHex4 c1 c2 c3 c4 with
    | some n =>
      if n < 0xD800 || 0xE000 ≤ n then some (Char.ofNat n, cs3)
      else if n < 0xDC00 then readLowSurrogate n cs3
      else none
    | none => none
  | _ => none

/-- Decode one escape sequence (input begins after the backslash). -/
def readEscape : List Char → Option (Char × List Char)
  | [] => none
  | e :: cs2 =>
    if e = '"' then some ('"', cs2)
    else if e = '\\' then some ('\\', cs2)
    else if e = '/' then some ('/', cs2)
    else if e = 'b' then some ('\x08', cs2)
    else if e = 'f' then some ('\x0c', cs2)
    else if e = 'n' then some ('\x0a', cs2)
    else if e = 'r' then some ('\x0d', cs2)
    else if e = 't' then some ('\x09', cs2)
    else if e = 'u' then readUnicodeEscape cs2
    else none

/-- Decode one character of a JSON string literal body: a plain character
(not quote, backslash or a raw control character, which `JSON.parse`
rejects), or one escape sequence.  The closing quote is handled by the
caller and yields `none` here. -/
def readStringChar : List Char → Option (Char × List Char)
  | [] => none
  | c :: cs1 =>
    if c = '"' then none
    else if c = '\\' then readEscape cs1
    else if c.toNat < 0x20 then none
    else some (c, cs1)

/-- Parse the body of a JSON string literal (after the opening quote),
returning the decoded characters and the input after the closing quote;
fuelled loop over `readStringChar`. -/
def parseStringBodyF : Nat → List Char → Option (List Char × List Char)
  | 0, _ => none
  | fuel+1, cs =>
    match cs with
    | [] => none
    | c :: cs1 =>
      if c = '"' then some ([], cs1)
      else
        match readStringChar (c :: cs1) with
        | some (ch, cs2) => (parseStringBodyF fuel cs2).map (fun p => (ch :: p.1, p.2))
        | none => none

/-- String-literal body parser with sufficient fuel (each step consumes at
least one character). -/
def parseStringBody (cs : List Char) : Option (List Char × List Char) :=
  parseStringBodyF (cs.length + 1) cs

/-- Maximal run of decimal digits at the front of the input. -/
def takeDigits : List Char → List Char × List Char
  | [] => ([], [])
  | c :: cs =>
    if c.isDigit then
      let p := takeDigits cs
      (c :: p.1, p.2)
    else ([], c :: cs)

/-- Does the input continue with a fraction or exponent part? -/
def startsFracOrExp : List Char → Bool
  | r :: _ => r = '.' || r = 'e' || r = 'E'
  | [] => false

/-- Split an optional leading minus sign off a number literal. -/
def numSign (cs : List Char) : Bool × List Char :=
  match cs with
  | c :: rest => if c = '-' then (true, rest) else (false, cs)
  | [] => (false, cs)

/-- Parse a JSON number restricted to the integer grammar
`-? (0 | [1-9][0-9]*)`.  A leading zero followed by more digits is a JSON
syntax error; a fraction or exponent part is rejected because the embedding
models numbers as integers (see the header). -/
def parseNumber (cs : List Char) : Option (Int × List Char) :=
  let signed := numSign cs
  let p := takeDigits signed.2
  if p.1.isEmpty then none
  else if p.1.length ≥ 2 && p.1.headD ' ' = '0' then none
  else if startsFracOrExp p.2 then none
  else some (if signed.1 then -(digitsToNat p.1 : Int) else (digitsToNat p.1 : Int), p.2)

mutual

/-- Parse one JSON value; returns the value and the unconsumed input.
Fuel bounds the recursion; the wrapper supplies the input length, which is
always sufficient (each unit of fuel consumes input). -/
def parseValueF : Nat → List Char → Option (Json × List Char)
  | 0, _ => none
  | fuel+1, cs =>
    match skipWs cs with
    | [] => none
    | c :: rest =>
      if c = lbraceChar then parseObjectF fuel rest
      else if c = '[' then parseArrayF fuel rest
      else if c = '"' then (parseStringBody rest).map (fun p => (Json.str (String.mk p.1), p.2))
      else if c = 't' then
        match rest with
        | 'r' :: 'u' :: 'e' :: rs => some (Json.bool true, rs)
        | _ => none
      else if c = 'f' then
        match rest with
        | 'a' :: 'l' :: 's' :: 'e' :: rs => some (Json.bool false, rs)
        | _ => none
      else if c = 'n' then
        match rest with
        | 'u' :: 'l' :: 'l' :: rs => some (Json.null, rs)
        | _ => none
      else (parseNumber (c :: rest)).map (fun p => (Json.num p.1, p.2))

/-- Parse an array body (input begins after `[`). -/
def parseArrayF : Nat → List Char → Option (Json × List Char)
  | 0, _ => none
  | fuel+1, cs =>
    match skipWs cs with
    | [] => none
    | c :: rest =>
      if c = ']' then some (Json.arr [], rest)
      else (parseArrayItemsF fuel (c :: rest)).map (fun p => (Json.arr p.1, p.2))

/-- Parse one or more comma-separated array elements up to `]`. -/
def parseArrayItemsF : Nat → List Char → Option (List Json × List Char)
  | 0, _ => none
  | fuel+1, cs =>
    match parseValueF fuel cs with
    | none => none
    | some (v, rest) =>
      match skipWs rest with
      | [] => none
      | c :: rs =>
        if c = ',' then
          match parseArrayItemsF fuel rs with
          | some (vs, rest2) => some (v :: vs, rest2)
          | none => none
        else if c = ']' then some ([v], rs)
        else none

/-- Parse an object body (input begins after the opening brace). -/
def parseObjectF : Nat → List Char → Option (Json × List Char)
  | 0, _ => none
  | fuel+1, cs =>
    match skipWs cs with
    | [] => none
    | c :: rest =>
      if c = rbraceChar then some (Json.obj [], rest)
      else
        (parseObjectItemsF fuel (c :: rest)).map
          (fun p => (Json.obj (p.1.foldl jsAssign []), p.2))

/-- Parse one or more comma-separated `"key": value` members up to the
closing brace, in textual order (the wrapper folds JS assignment over them,
giving first-position/last-value duplicate semantics). -/
def parseObjectItemsF : Nat → List Char → Option (List (String × Json) × List Char)
  | 0, _ => none
  | fuel+1, cs =>
    match skipWs cs with
    | [] => none
    | c :: rest =>
      if c = '"' then
        match parseStringBody rest with
        | none => none
        | some (keyChars, rest1) =>
          match skipWs rest1 with
          | [] => none
          | c2 :: rest2 =>
            if c2 = ':' then
              match parseValueF fuel rest2 with
              | none => none
              | some (v, rest3) =>
                match skipWs rest3 with
                | [] => none
                | c3 :: rest4 =>
                  if c3 = ',' then
                    match parseObjectItemsF fuel rest4 with
                    | some (fs, rest5) => some ((String.mk keyChars, v) :: fs, rest5)
                    | none => none
                  else if c3 = rbraceChar then some ([(String.mk keyChars, v)], rest4)
                  else none
            else none
      else none

end

/-- `JSON.parse`: parse a complete JSON text (only surrounding JSON
whitespace may remain after the value). -/
def jsonParse (s : String) : Option Json :=
  match parseValueF (3 * s.data.length + 1) s.data with
  | some (v, rest) => if skipWs rest = [] then some v else none
  | none => none

/-! ## Validation and the formatter API (`useJsonFormatter.js`) -/

/-- `JSON_FORMAT_CONFIG.MAX_FILE_SIZE` (10 MB) from `constants/editorConfig.js`. -/
def MAX_FILE_SIZE : Nat := 10 * 1024 * 1024

/-- `JSON_FORMAT_CONFIG.INDENT_SIZE` from `constants/editorConfig.js`. -/
def INDENT_SIZE : Nat := 4

/-- The error produced on each failing branch of `validateJson`
(`new Error(...)` with the quoted message in the source). -/
inductive ValidationError where
  /-- "Input must be a non-empty string" (falsy or non-string input). -/
  | inputNotNonEmptyString
  /-- "File size exceeds limit of ...MB". -/
  | sizeExceeded
  /-- "JSON content cannot be empty" (blank after trimming). -/
  | emptyContent
  /-- the exception thrown by `JSON.parse`. -/
  | syntaxErr
deriving DecidableEq

/-- Which `validateJson` errors signal empty input (the spec's `EmptyInput`
kind): both the falsy-input rejection hit by the empty string and the
blank-after-trim rejection. -/
def ValidationError.isEmptyInputKind : ValidationError → Bool
  | .inputNotNonEmptyString => true
  | .emptyContent => true
  | _ => false

/-- Result of `validateJson`: `{ isValid, error, data }`. -/
structure JsonValidationResult where
  isValid : Bool
  error : Option ValidationError
  data : Option Json

/-- `validateJson` from `useJsonFormatter.js` (lines 44-85): reject falsy or
non-string input (`none` models a non-string such as `null`/`undefined`),
then the size limit on the UTF-16 length, then blank-after-trim, then
delegate to `JSON.parse` on the trimmed text. -/
def validateJson (jsonString : Option String) : JsonValidationResult :=
  match jsonString with
  | none => ⟨false, some .inputNotNonEmptyString, none⟩
  | some s =>
    if s = "" then ⟨false, some .inputNotNonEmptyString, none⟩
    else if jsUtf16Length s > MAX_FILE_SIZE then ⟨false, some .sizeExceeded, none⟩
    else
      let trimmed := jsTrim s
      if trimmed = "" then ⟨false, some .emptyContent, none⟩
      else
        match jsonParse trimmed with
        | some v => ⟨true, none, some v⟩
        | none => ⟨false, some .syntaxErr, none⟩

/-- `sortObjectKeys` from `useJsonFormatter.js` (lines 335-344): the
`JSON.stringify` replacer that returns a copy of each non-null, non-array
object with its keys sorted by the default (UTF-16 lexicographic) string
order; all other values pass through unchanged.  Insertion sort models the
stable `Array.prototype.sort`. -/
def insertByKey (kv : String × Json) : List (String × Json) → List (String × Json)
  | [] => [kv]
  | kv2 :: rest => if jsStrLe kv.1 kv2.1 then kv :: kv2 :: rest else kv2 :: insertByKey kv rest

/-- Stable sort of object fields by key (JS default string order). -/
def sortFieldsByKey (fs : List (String × Json)) : List (String × Json) :=
  fs.foldr insertByKey []

/-- The `sortObjectKeys` replacer itself: assigning the fields of the new
object in sorted key order; the object then enumerates its integer-like
keys numerically first, like every JS ordinary object. -/
def sortObjectKeys : Json → Json
  | .obj fs => .obj ((sortFieldsByKey fs).foldl jsAssign [])
  | v => v

/-- Fuel large enough for every serializer/parser recursion on data parsed
from `s` (see `jsize` lemmas below). -/
def textFuel (s : String) : Nat := (jsTrim s).data.length + 1

/-- `formatJson` from `useJsonFormatter.js` (lines 95-140): validate, then
`JSON.stringify(data, sortKeys ? sortObjectKeys : null, indentSize)`.
Errors are rethrown and turned into `null` by `createSafeAsyncWrapper`,
modelled as `none`.  (The reactive bookkeeping and timing stats have no
bearing on the returned string and are not modelled.) -/
def formatJson (jsonString : Option String) (indentSize : Nat := INDENT_SIZE)
    (sortKeys : Bool := false) : Option String :=
  match jsonString, validateJson jsonString with
  | some s, ⟨true, _, some data⟩ =>
    if sortKeys then some (jsonStringifyF (textFuel s) (some sortObjectKeys) indentSize data)
    else some (jsonStringifyF (textFuel s) none indentSize data)
  | _, _ => none

/-- `minifyJson` from `useJsonFormatter.js` (lines 148-181) /
`minifyJsonData` from `utils/jsonProcessing.js`: validate, then
`JSON.stringify(data)` (no replacer, no gap — key order untouched). -/
def minifyJson (jsonString : Option String) : Option String :=
  match jsonString, validateJson jsonString with
  | some s, ⟨true, _, some data⟩ => some (jsonStringifyF (textFuel s) none 0 data)
  | _, _ => none

/-! ## Structural diff (`findJsonDifferences`, lines 354-431) -/

/-- The `type` field of a difference entry. -/
inductive DiffType where
  | added
  | removed
  | modified
deriving DecidableEq

/-- One entry of the flat difference list (`oldValue`/`newValue` are absent
on the JS objects when not applicable). -/
structure JsonDifference where
  path : String
  type : DiffType
  oldValue : Option Json
  newValue : Option Json

/-- `findJsonDifferences(obj1, obj2, path)`, fuelled.  Branch order follows
the source: (1) values not strictly equal and at least one side not of
`typeof` `"object"` gives one `modified` entry; (2) a `null` on either side
gives a `modified` entry when unequal; (3) two arrays compare index by
index up to the longer length; (4) two `typeof`-`"object"` values (which
here includes an array paired with a non-array object) compare over the
union of their key sets; (5) anything else yields no entries. -/
def findJsonDifferencesF : Nat → Json → Json → String → List JsonDifference
  | 0, _, _, _ => []
  | fuel+1, obj1, obj2, path =>
    if !jsStrictEq obj1 obj2 && (jsTypeof obj1 != "object" || jsTypeof obj2 != "object") then
      [⟨path, .modified, some obj1, some obj2⟩]
    else if jsStrictEq obj1 Json.null || jsStrictEq obj2 Json.null then
      if !jsStrictEq obj1 obj2 then [⟨path, .modified, some obj1, some obj2⟩] else []
    else
      match obj1, obj2 with
      | .arr xs, .arr ys =>
        (List.range (max xs.length ys.length)).flatMap (fun i =>
          let currentPath := path ++ "[" ++ toString i ++ "]"
          match xs[i]?, ys[i]? with
          | none, some y => [⟨currentPath, .added, none, some y⟩]
          | some x, none => [⟨currentPath, .removed, some x, none⟩]
          | some x, some y => findJsonDifferencesF fuel x y currentPath
          | none, none => [])
      | o1, o2 =>
        if jsTypeof o1 == "object" && jsTypeof o2 == "object" then
          (jsKeys o1 ++ (jsKeys o2).filter (fun k => !(jsKeys o1).contains k)).flatMap (fun key =>
            let currentPath := if path = "" then key else path ++ "." ++ key
            if !jsHasKey o1 key then
              [⟨currentPath, .added, none, jsGet o2 key⟩]
            else if !jsHasKey o2 key then
              [⟨currentPath, .removed, jsGet o1 key, none⟩]
            else
              match jsGet o1 key, jsGet o2 key with
              | some x, some y => findJsonDifferencesF fuel x y currentPath
              | _, _ => [])
        else []

/-- `findJsonDifferences` with fuel sufficient for both arguments. -/
def findJsonDifferences (obj1 obj2 : Json) (path : String := "") : List JsonDifference :=
  findJsonDifferencesF (jsize obj1 + jsize obj2) obj1 obj2 path

/-! ## Toast queue (`useToast.js`) -/

/-- Configuration entries of `DEFAULT_CONFIG` relevant to the queue logic. -/
structure ToastConfig where
  duration : Int := 3000
  maxToasts : Nat := 5

/-- One toast object (the fields the queue logic reads; `timestamp`,
`closable`, `actions` and `metadata` never influence the queue and are
omitted). -/
structure ToastItem where
  id : Nat
  message : String
  ttype : String
  visible : Bool
  duration : Int
  persistent : Bool
deriving DecidableEq

/-- Options accepted by `addToast` (`toastOptions.duration ?? config.duration`,
`toastOptions.persistent ?? false`). -/
structure ToastOptions where
  duration : Option Int := none
  persistent : Option Bool := none

/-- The queue state: the reactive `toasts` array, the `nextId` counter, the
`activeTimers` map (keys only — each value is a host timer handle), and the
ids whose 300 ms removal-transition `setTimeout` callbacks are still
outstanding. -/
structure ToastState where
  toasts : List ToastItem
  nextId : Nat
  activeTimers : List Nat
  pendingRemovals : List Nat
deriving DecidableEq

/-- The initial state of `useToast`. -/
def initialToastState : ToastState := ⟨[], 1, [], []⟩

/-- `createToast` (lines 70-86): assign the next id and build the object. -/
def createToast (cfg : ToastConfig) (message ttype : String) (opts : ToastOptions)
    (id : Nat) : ToastItem :=
  { id := id
    message := message
    ttype := ttype
    visible := true
    duration := opts.duration.getD cfg.duration
    persistent := opts.persistent.getD false }

/-- `clearTimer` (lines 173-179). -/
def clearTimer (id : Nat) (s : ToastState) : ToastState :=
  { s with activeTimers := s.activeTimers.erase id }

/-- `removeToast` (lines 129-147): if the id is present, clear its timer,
mark it invisible, and schedule the actual splice 300 ms later (the CSS
transition grace period); the splice itself is `spliceToast` below. -/
def removeToast (id : Nat) (s : ToastState) : ToastState :=
  if (s.toasts.filter (fun t => t.id == id)).length != 0 then
    let s := clearTimer id s
    { s with
      toasts := s.toasts.map (fun t => if t.id == id then { t with visible := false } else t)
      pendingRemovals := s.pendingRemovals ++ [id] }
  else s

/-- The body of the 300 ms `setTimeout` inside `removeToast`: splice the
toast out of the array if it is still there. -/
def spliceToast (id : Nat) (s : ToastState) : ToastState :=
  { s with
    toasts := s.toasts.filter (fun t => t.id != id)
    pendingRemovals := s.pendingRemovals.erase id }

/-- `addToast` (lines 96-122): reject a falsy or non-string message
(`none` models a non-string); otherwise create the toast (incrementing
`nextId`), evict `toasts[0]` via `removeToast` when the array is at or
above `maxToasts`, push the new toast, and start its auto-dismiss timer
unless persistent or non-positive duration. -/
def addToast (cfg : ToastConfig) (message : Option String) (ttype : String := "info")
    (opts : ToastOptions := {}) (s : ToastState) : Option Nat × ToastState :=
  match message with
  | none => (none, s)
  | some m =>
    if m = "" then (none, s)
    else
      let toast := createToast cfg m ttype opts s.nextId
      let s := { s with nextId := s.nextId + 1 }
      let s :=
        if s.toasts.length ≥ cfg.maxToasts then
          match s.toasts.head? with
          | some oldest => removeToast oldest.id s
          | none => s
        else s
      let s := { s with toasts := s.toasts ++ [toast] }
      let s :=
        if !toast.persistent && toast.duration > 0 then
          { s with activeTimers := s.activeTimers ++ [toast.id] }
        else s
      (some toast.id, s)

/-- Run every outstanding 300 ms splice callback (the state reached once
the transition delay has elapsed with no intervening calls). -/
def settleToasts (s : ToastState) : ToastState :=
  s.pendingRemovals.foldl (fun st id => spliceToast id st) s

/-- One `addToast` call followed by the elapse of all transition timers. -/
def settledAdd (cfg : ToastConfig) (input : Option String × ToastOptions) (s : ToastState) :
    ToastState :=
  settleToasts (addToast cfg input.1 "info" input.2 s).2

/-- A sequence of spaced-out `addToast` calls (each one's transition
completes before the next call). -/
def runSettledAdds (cfg : ToastConfig) (inputs : List (Option String × ToastOptions))
    (s : ToastState) : ToastState :=
  inputs.foldl (fun st i => settledAdd cfg i st) s

/-- A sequence of back-to-back `addToast` calls (all within the 300 ms
transition window, so no splice callback runs in between). -/
def runRapidAdds (cfg : ToastConfig) (inputs : List (Option String × ToastOptions))
    (s : ToastState) : ToastState :=
  inputs.foldl (fun st i => (addToast cfg i.1 "info" i.2 st).2) s

/-! ## Editor session manager (`useMonacoEditor.js`, second variant) -/

/-- `DEFAULT_JSON_CONTENT` from `constants/editorConfig.js`. -/
def DEFAULT_JSON_CONTENT : String := "\x7b\n  \"example\": \"json\"\n\x7d"

/-- The session state: reactive flags plus the editor handles, with each
editor's text standing in for the widget instance (`none` = not created).
The diff editor owns the `(original, modified)` model pair. -/
structure EditorSession where
  isLoading : Bool
  isInitialized : Bool
  isDiffMode : Bool
  monacoLoaded : Bool
  normalContainer : Bool
  diffContainer : Bool
  normalEditor : Option String
  diffEditor : Option (String × String)
deriving DecidableEq

/-- The session state before `initialize` runs. -/
def initialEditorSession : EditorSession :=
  ⟨false, false, false, false, false, false, none, none⟩

/-- `ensureDiffEditor(content)` (lines 552-570): no-op without a container
or Monaco; otherwise lazily create the diff editor with both models seeded
from `content`, or reset both existing models to `content`.  (Creation and
reuse coincide in the model: both leave the pair `(content, content)`.) -/
def ensureDiffEditor (content : String) (s : EditorSession) : EditorSession :=
  if !s.diffContainer || !s.monacoLoaded then s
  else
    match s.diffEditor with
    | none => { s with diffEditor := some (content, content) }
    | some _ => { s with diffEditor := some (content, content) }

/-- `toggleDiffMode` (lines 605-627): guarded by `isLoading`/`isInitialized`;
in diff mode, push the modified pane's text into the normal editor and
leave diff mode; in single mode, seed the diff editor from the normal
editor's text (default content if absent) and enter diff mode.  The body
holds `isLoading` only inside its own synchronous run, so the net effect is
a pure state update. -/
def toggleDiffMode (s : EditorSession) : EditorSession :=
  if s.isLoading || !s.isInitialized then s
  else if s.isDiffMode then
    let content := (s.diffEditor.map (fun d => d.2)).getD ""
    { s with
      normalEditor := s.normalEditor.map (fun _ => content)
      isDiffMode := false }
  else
    let currentValue := s.normalEditor.getD DEFAULT_JSON_CONTENT
    let s := ensureDiffEditor currentValue s
    { s with isDiffMode := true }

/-- `getCurrentContent` (lines 597-603). -/
def getCurrentContent (s : EditorSession) : String :=
  if s.isDiffMode && s.diffEditor.isSome then
    (s.diffEditor.map (fun d => d.2)).getD ""
  else
    s.normalEditor.getD ""

/-- `formatContent` (lines 629-645): no in-flight guard; run the built-in
format action (`fmt`, supplied by the external Monaco collaborator) on the
live editor(s) and return the resulting text, or `""` when no editor
exists. -/
def formatContent (fmt : String → String) (s : EditorSession) :
    EditorSession × Option String :=
  if s.isDiffMode && s.diffEditor.isSome then
    let d := (s.diffEditor.getD ("", ""))
    ({ s with diffEditor := some (fmt d.1, fmt d.2) }, some (fmt d.2))
  else
    match s.normalEditor with
    | none => (s, some "")
    | some t => ({ s with normalEditor := some (fmt t) }, some (fmt t))

/-- The synchronous prefix of `initialize` (lines 572-595) up to the
`await initMonaco()` suspension point: container check, `isLoading := true`,
container refs stored. -/
def initEditorStart (hasNormalContainer hasDiffContainer : Bool) (s : EditorSession) :
    EditorSession :=
  if !hasNormalContainer || !hasDiffContainer then s
  else
    { s with
      isLoading := true
      normalContainer := true
      diffContainer := true }

/-- The continuation of `initialize` after the `await`: Monaco is loaded,
the normal editor is (re)created with the initial value, and the
`isInitialized`/`isLoading` flags settle. -/
def initEditorFinish (initialValue : String) (s : EditorSession) : EditorSession :=
  let s := { s with monacoLoaded := true }
  let s :=
    if s.normalContainer then { s with normalEditor := some initialValue } else s
  { s with isInitialized := true, isLoading := false }

/-- The user typing in the modified pane of the diff editor (an action of
the external editor widget, not of the composable). -/
def editModifiedPane (u : String) (s : EditorSession) : EditorSession :=
  { s with diffEditor := s.diffEditor.map (fun d => (d.1, u)) }

/-! ## Throttle (`AppContextMenu.vue`, lines 143-165) -/

/-- Closure state of `throttle(func, delay)`: `lastCall`, and the pending
`setTimeout` as `(fire time, captured now, captured args)` — note
`callFunction` closes over the *scheduling* call's `now` and writes it to
`lastCall` when the timer fires. -/
structure ThrottleState (α : Type) where
  lastCall : Nat
  pending : Option (Nat × Nat × α)
deriving DecidableEq

/-- One call of the throttled wrapper at time `t` (the host runs a due
timer callback before the call): fire the pending timer if its time has
come, then either invoke immediately (`now - lastCall ≥ delay`) or
(re)schedule the trailing timer for `lastCall + delay` — that is,
`delay - (now - lastCall)` after `now` — clearing any previous one.  The
second component accumulates the invocation log `(time, args)`. -/
def throttleStep (delay : Nat) (st : ThrottleState α × List (Nat × α)) (ev : Nat × α) :
    ThrottleState α × List (Nat × α) :=
  let s := st.1
  let log := st.2
  let fired : ThrottleState α × List (Nat × α) :=
    match s.pending with
    | some (ft, cap, args) =>
      if ft ≤ ev.1 then ({ lastCall := cap, pending := none }, log ++ [(ft, args)])
      else (s, log)
    | none => (s, log)
  let s1 := fired.1
  let log1 := fired.2
  if delay ≤ ev.1 - s1.lastCall then
    ({ lastCall := ev.1, pending := s1.pending }, log1 ++ [ev])
  else
    ({ s1 with pending := some (s1.lastCall + delay, ev.1, ev.2) }, log1)

/-- Run the throttled wrapper over a sequence of timed calls from the fresh
closure state (`lastCall = 0`, no timer). -/
def throttleRun (delay : Nat) (calls : List (Nat × α)) : ThrottleState α × List (Nat × α) :=
  calls.foldl (throttleStep delay) (⟨0, none⟩, [])

/-- Invariant maintained by spaced-out `addToast` sequences. -/
def ToastInv (cfg : ToastConfig) (s : ToastState) : Prop :=
  s.toasts.length ≤ cfg.maxToasts ∧
  (s.toasts.map (·.id)).Pairwise (· < ·) ∧
  (∀ t ∈ s.toasts, t.visible = true) ∧
  (∀ t ∈ s.toasts, t.id < s.nextId) ∧
  (∀ id ∈ s.activeTimers, id < s.nextId) ∧
  s.activeTimers.Nodup ∧
  s.pendingRemovals = []

/-- The value whose plain serialization the sortKeys serialization equals:
`sortObjectKeys` applied at every node, fuel-aligned with the serializer
(the replacer is applied exactly where the serializer recursion reaches). -/
def deepSortF : Nat → Json → Json
  | 0, v => v
  | fuel+1, v =>
    match sortObjectKeys v with
    | .arr xs => .arr (xs.map (deepSortF fuel))
    | .obj fs => .obj (fs.map (fun kv => (kv.1, deepSortF fuel kv.2)))
    | w => w

/-- Adjacent keys are in JS default (UTF-16 lexicographic) order. -/
def keysSortedB : List String → Bool
  | [] => true
  | [_] => true
  | a :: b :: rest => jsStrLe a b && keysSortedB (b :: rest)

/-- Adjacent keys are in JS own-property enumeration order. -/
def enumOrderedKeysB : List String → Bool
  | [] => true
  | [_] => true
  | a :: b :: rest => jsOrdPairB a b && enumOrderedKeysB (b :: rest)

/-- Adjacent keys are in the `sortKeys` output order (integer-like keys
ascending first, then the rest lexicographically). -/
def jsSortedKeysB : List String → Bool
  | [] => true
  | [_] => true
  | a :: b :: rest => jsKeyLeB a b && jsSortedKeysB (b :: rest)

mutual

/-- Every object at every nesting level has its keys in the `sortKeys`
output order: integer-like keys ascending numerically first, then the
remaining keys in UTF-16 lexicographic order. -/
def sortedDeepB : Json → Bool
  | .null => true
  | .bool _ => true
  | .num _ => true
  | .str _ => true
  | .arr xs => sortedDeepListB xs
  | .obj fs => jsSortedKeysB (fs.map Prod.fst) && sortedDeepFieldsB fs

def sortedDeepListB : List Json → Bool
  | [] => true
  | x :: xs => sortedDeepB x && sortedDeepListB xs

def sortedDeepFieldsB : List (String × Json) → Bool
  | [] => true
  | kv :: fs => sortedDeepB kv.2 && sortedDeepFieldsB fs

end

/-- The character after a serialized number never extends the numeral: not
a digit and not a fraction/exponent starter (true of `,`, `]`, the closing
brace and end of input). -/
def numDelimB : List Char → Bool
  | [] => true
  | c :: _ => !(c.isDigit || c = '.' || c = 'e' || c = 'E')

/-- No duplicate keys (JS objects cannot hold two properties of one name,
so values produced by `JSON.parse` always satisfy this). -/
def keysNodupB : List String → Bool
  | [] => true
  | k :: ks => !(ks.contains k) && keysNodupB ks

mutual

/-- Deeply well-formed JSON value: every object at every nesting level has
pairwise-distinct keys in own-property enumeration order (as every value
built by `JSON.parse` does). -/
def jsonWfB : Json → Bool
  | .null => true
  | .bool _ => true
  | .num _ => true
  | .str _ => true
  | .arr xs => jsonWfListB xs
  | .obj fs => keysNodupB (fs.map Prod.fst) && enumOrderedKeysB (fs.map Prod.fst) &&
      jsonWfFieldsB fs

def jsonWfListB : List Json → Bool
  | [] => true
  | x :: xs => jsonWfB x && jsonWfListB xs

def jsonWfFieldsB : List (String × Json) → Bool
  | [] => true
  | kv :: fs => jsonWfB kv.2 && jsonWfFieldsB fs

end

/-! ## Basic lemmas -/

theorem jsize_pos (v : Json) : 1 ≤ jsize v := by
  cases v <;> simp [jsize]

theorem jsize_add_pos (a b : Json) : ∃ k, jsize a + jsize b = k + 1 := by
  have := jsize_pos a
  exact ⟨jsize a + jsize b - 1, by omega⟩

theorem jsUtf16Length_replicate_x (n : Nat) :
    jsUtf16Length (String.mk (List.replicate n 'x')) = n := by
  induction n with
  | zero => rfl
  | succ n ih =>
    simp [jsUtf16Length, utf16Key, List.replicate_succ, utf16Units] at ih ⊢

/-! ## C10: addToast rejects empty or non-string messages -/

/-- C10: for an input that is not a non-empty string (`none` models
`null`/`undefined`/non-strings, `some ""` the empty string), `addToast`
returns `null` and leaves the entire queue state — collection, id counter,
timers — unchanged. -/
theorem addToast_rejects_invalid_message (cfg : ToastConfig) (ttype : String)
    (opts : ToastOptions) (s : ToastState) (m : Option String)
    (h : m = none ∨ m = some "") :
    addToast cfg m ttype opts s = (none, s) := by
  rcases h with h | h <;> subst h <;> simp [addToast]

/-- C10 witness: the rejection at the concrete initial state. -/
theorem addToast_rejects_invalid_message_witness :
    addToast {} none "info" {} initialToastState = (none, initialToastState) :=
  addToast_rejects_invalid_message {} "info" {} initialToastState none (Or.inl rfl)

/-! ## C5: validateJson on empty and oversized input -/

/-- C5: `validateJson ""` fails with the empty-input-kind error and no
data; any text whose JS length exceeds `MAX_FILE_SIZE` fails with the
size-exceeded error and no data; and every failing validation carries
`data = null`. -/
theorem validateJson_empty_and_oversized :
    (validateJson (some "") = ⟨false, some .inputNotNonEmptyString, none⟩ ∧
      ValidationError.isEmptyInputKind .inputNotNonEmptyString = true) ∧
    (∀ s : String, jsUtf16Length s > MAX_FILE_SIZE →
      validateJson (some s) = ⟨false, some .sizeExceeded, none⟩) ∧
    (∀ s : String, (validateJson (some s)).isValid = false →
      (validateJson (some s)).data = none) := by
  refine ⟨⟨rfl, rfl⟩, ?_, ?_⟩
  · intro s h
    have hne : s ≠ "" := by
      intro he
      subst he
      simp [jsUtf16Length, utf16Key] at h
    simp [validateJson, hne, h]
  · intro s
    simp only [validateJson]
    split
    · simp
    · split
      · simp
      · split
        · simp
        · split <;> simp

/-- C5 witness: the empty string and a concrete 10 MB + 1 text. -/
theorem validateJson_empty_and_oversized_witness :
    validateJson (some "") = ⟨false, some .inputNotNonEmptyString, none⟩ ∧
    validateJson (some (String.mk (List.replicate (MAX_FILE_SIZE + 1) 'x'))) =
      ⟨false, some .sizeExceeded, none⟩ :=
  ⟨validateJson_empty_and_oversized.1.1,
   validateJson_empty_and_oversized.2.1 _
     (by rw [jsUtf16Length_replicate_x]; omega)⟩

/-! ## C6: Single → Diff → Single round trip -/

/-- C6: from a ready single-mode session, toggling seeds both diff panes
with the single editor's text, and toggling back makes the modified pane's
text at that moment (here `u`, after the user edited the pane) the single
editor's content. -/
theorem toggleDiffMode_round_trip (s : EditorSession) (t u : String)
    (hload : s.isLoading = false) (hinit : s.isInitialized = true)
    (hmode : s.isDiffMode = false) (hmonaco : s.monacoLoaded = true)
    (hcont : s.diffContainer = true) (hed : s.normalEditor = some t) :
    (toggleDiffMode s).isDiffMode = true ∧
    (toggleDiffMode s).diffEditor = some (t, t) ∧
    (toggleDiffMode (editModifiedPane u (toggleDiffMode s))).isDiffMode = false ∧
    (toggleDiffMode (editModifiedPane u (toggleDiffMode s))).normalEditor = some u := by
  cases hde : s.diffEditor <;>
    simp [toggleDiffMode, ensureDiffEditor, editModifiedPane, hload, hinit, hmode, hmonaco,
      hcont, hed, hde]

/-- C6 witness: the round trip on a freshly initialized session. -/
theorem toggleDiffMode_round_trip_witness :
    (toggleDiffMode (editModifiedPane "EDITED"
        (toggleDiffMode (initEditorFinish "A" (initEditorStart true true
          initialEditorSession))))).normalEditor = some "EDITED" :=
  (toggleDiffMode_round_trip
    (initEditorFinish "A" (initEditorStart true true initialEditorSession))
    "A" "EDITED" rfl rfl rfl rfl rfl rfl).2.2.2

/-! ## C8: in-flight guard -/

/-- C8 counterexample: in a reachable in-flight state (`initialize` running
again while its `await` is outstanding, `isLoading = true`), a concurrent
`formatContent` call is *not* a no-op — it reformats the live editor — so
the claim that both toggle and format calls no-op while an operation is in
flight is false. -/
theorem formatContent_not_noop_while_loading :
    (formatContent (fun _ => "FMT")
        (initEditorStart true true
          (initEditorFinish "[1,  2]" (initEditorStart true true initialEditorSession)))).1 ≠
      initEditorStart true true
        (initEditorFinish "[1,  2]" (initEditorStart true true initialEditorSession)) ∧
    (initEditorStart true true
        (initEditorFinish "[1,  2]" (initEditorStart true true
          initialEditorSession))).isLoading = true := by
  decide

/-- C8 (amended): only `toggleDiffMode` is guarded — while a toggle or load
is in flight it returns with no state change and no error; `formatContent`
has no guard, and is a no-op during an in-flight operation only in the
initial-load case where no editor exists yet (it then returns `""`). -/
theorem toggleDiffMode_guard (s : EditorSession) (fmt : String → String)
    (hguard : s.isLoading = true ∨ s.isInitialized = false) :
    toggleDiffMode s = s ∧
    (s.normalEditor = none → s.diffEditor = none → formatContent fmt s = (s, some "")) := by
  constructor
  · rcases hguard with h | h <;> simp [toggleDiffMode, h]
  · intro h1 h2
    simp [formatContent, h1, h2]

/-- C8 witness: the guard on a concrete loading state. -/
theorem toggleDiffMode_guard_witness :
    toggleDiffMode (initEditorStart true true initialEditorSession) =
      initEditorStart true true initialEditorSession :=
  (toggleDiffMode_guard (initEditorStart true true initialEditorSession) id
    (Or.inl rfl)).1

/-! ## C2: toast queue capacity and eviction -/

/-- C2 counterexample: six back-to-back `addToast` calls against the
default configuration (`maxToasts = 5`).  `removeToast` only hides the
evicted entry and splices it out 300 ms later, so right after the sixth
call the collection holds six entries — more than `maxToasts` — refuting
"never holds more than maxToasts entries at any point". -/
theorem toast_queue_exceeds_max :
    (runRapidAdds {} (List.replicate 6 (some "m", ({} : ToastOptions)))
        initialToastState).toasts.length = 6 ∧
    ({} : ToastConfig).maxToasts = 5 := by
  decide

theorem toastHideMap_no_match (oid : Nat) (l : List ToastItem)
    (h : ∀ t ∈ l, (t.id == oid) = false) :
    l.map (fun t => if (t.id == oid) = true then { t with visible := false } else t) = l := by
  induction l with
  | nil => rfl
  | cons a l ih =>
    simp only [List.map_cons, h a (by simp), Bool.false_eq_true, if_false, List.cons.injEq,
      true_and]
    exact ih (fun t ht => h t (by simp [ht]))

theorem settledAdd_full_state (cfg : ToastConfig) (m : String) (hm : m ≠ "")
    (opts : ToastOptions) (s : ToastState)
    (oldest : ToastItem) (rest : List ToastItem)
    (hcons : s.toasts = oldest :: rest)
    (hpr : s.pendingRemovals = [])
    (hrest_ids : ∀ t ∈ rest, oldest.id < t.id)
    (hobn : oldest.id < s.nextId)
    (hfull : cfg.maxToasts ≤ s.toasts.length) :
    (settledAdd cfg (some m, opts) s).toasts =
      rest ++ [createToast cfg m "info" opts s.nextId] ∧
    (settledAdd cfg (some m, opts) s).nextId = s.nextId + 1 ∧
    (settledAdd cfg (some m, opts) s).pendingRemovals = [] ∧
    (settledAdd cfg (some m, opts) s).activeTimers =
      s.activeTimers.erase oldest.id ++
        (if !(opts.persistent.getD false) && opts.duration.getD cfg.duration > 0
         then [s.nextId] else []) := by
  have hfull2 : (oldest :: rest).length ≥ cfg.maxToasts := by rw [← hcons]; exact hfull
  have hne : ∀ t ∈ rest, (t.id == oldest.id) = false := by
    intro t ht
    exact beq_eq_false_iff_ne.mpr (by have := hrest_ids t ht; omega)
  have hmap := toastHideMap_no_match oldest.id rest hne
  have hne2 : ∀ t ∈ rest, ¬ t.id = oldest.id := by
    intro t ht
    have := hrest_ids t ht
    omega
  have hfilter : rest.filter (fun t => t.id != oldest.id) = rest := by
    apply List.filter_eq_self.mpr
    intro t ht
    simp [hne2 t ht]
  by_cases htimer : (!opts.persistent.getD false && decide (opts.duration.getD cfg.duration > 0)) = true <;>
    simp only [settledAdd, addToast, hm, if_neg, createToast, removeToast, clearTimer,
      spliceToast, settleToasts, hcons, hpr, hfull2, ge_iff_le, if_pos, List.head?_cons,
      List.filter_cons, beq_self_eq_true, if_true, htimer, Bool.not_eq_true] <;>
    simp only [List.map_cons, beq_self_eq_true, if_true, hmap, List.foldl_cons, List.foldl_nil,
      List.filter_append, List.filter_cons, bne_self_eq_false, Bool.false_eq_true, hfilter] <;>
    simp [htimer, List.erase_cons, hfilter, hne2, bne, beq_eq_false_iff_ne.mpr (by omega : s.nextId ≠ oldest.id)] <;>
    exact hne2

theorem settledAdd_notfull_state (cfg : ToastConfig) (m : String) (hm : m ≠ "")
    (opts : ToastOptions) (s : ToastState)
    (hpr : s.pendingRemovals = [])
    (hnotfull : s.toasts.length < cfg.maxToasts) :
    (settledAdd cfg (some m, opts) s).toasts =
      s.toasts ++ [createToast cfg m "info" opts s.nextId] ∧
    (settledAdd cfg (some m, opts) s).nextId = s.nextId + 1 ∧
    (settledAdd cfg (some m, opts) s).pendingRemovals = [] ∧
    (settledAdd cfg (some m, opts) s).activeTimers =
      s.activeTimers ++
        (if !(opts.persistent.getD false) && opts.duration.getD cfg.duration > 0
         then [s.nextId] else []) := by
  have hnf : ¬ (s.toasts.length ≥ cfg.maxToasts) := by omega
  by_cases htimer : (!opts.persistent.getD false && decide (opts.duration.getD cfg.duration > 0)) = true <;>
    simp [settledAdd, addToast, hm, createToast, settleToasts, hpr, hnf, htimer]

theorem settledAdd_invalid_state (cfg : ToastConfig) (opts : ToastOptions) (s : ToastState)
    (ttype : String) (m : Option String) (hm : m = none ∨ m = some "")
    (hpr : s.pendingRemovals = []) :
    settleToasts (addToast cfg m ttype opts s).2 = s := by
  rcases hm with h | h <;> subst h <;> simp [addToast, settleToasts, hpr]


theorem toastInv_initial (cfg : ToastConfig) : ToastInv cfg initialToastState := by
  simp [ToastInv, initialToastState]

theorem toastInv_settledAdd (cfg : ToastConfig) (hmax : 1 ≤ cfg.maxToasts)
    (inp : Option String × ToastOptions) (s : ToastState) (h : ToastInv cfg s) :
    ToastInv cfg (settledAdd cfg inp s) := by
  obtain ⟨hlen, hpw, hvis, hids, htim, hnd, hpr⟩ := h
  obtain ⟨m, opts⟩ := inp
  match m with
  | none =>
    rw [show settledAdd cfg (none, opts) s = s from settledAdd_invalid_state cfg opts s "info" none (Or.inl rfl) hpr]
    exact ⟨hlen, hpw, hvis, hids, htim, hnd, hpr⟩
  | some m =>
    by_cases hm : m = ""
    · subst hm
      rw [show settledAdd cfg (some "", opts) s = s from
        settledAdd_invalid_state cfg opts s "info" (some "") (Or.inr rfl) hpr]
      exact ⟨hlen, hpw, hvis, hids, htim, hnd, hpr⟩
    by_cases hfull : cfg.maxToasts ≤ s.toasts.length
    · -- eviction path
      obtain ⟨oldest, rest, hcons⟩ : ∃ o r, s.toasts = o :: r := by
        cases hto : s.toasts with
        | nil => rw [hto] at hfull; simp at hfull; omega
        | cons o r => exact ⟨o, r, rfl⟩
      rw [hcons] at hpw
      simp only [List.map_cons, List.pairwise_cons] at hpw
      have hrest_ids : ∀ t ∈ rest, oldest.id < t.id := by
        intro t ht
        exact hpw.1 t.id (List.mem_map_of_mem _ ht)
      have hobn : oldest.id < s.nextId := hids oldest (by rw [hcons]; simp)
      obtain ⟨h1, h2, h3, h4⟩ :=
        settledAdd_full_state cfg m hm opts s oldest rest hcons hpr hrest_ids hobn hfull
      have hrlen : rest.length + 1 = s.toasts.length := by rw [hcons]; simp
      refine ⟨?_, ?_, ?_, ?_, ?_, ?_, h3⟩
      · rw [h1]; simp; omega
      · rw [h1]
        simp only [List.map_append, List.map_cons, List.map_nil]
        rw [List.pairwise_append]
        refine ⟨hpw.2, by simp, ?_⟩
        intro a ha b hb
        simp at hb
        subst hb
        simp at ha
        obtain ⟨t, ht, rfl⟩ := ha
        have := hids t (by rw [hcons]; simp [ht])
        simp [createToast]
        omega
      · rw [h1]
        intro t ht
        rcases List.mem_append.mp ht with hr | hnew
        · exact hvis t (by rw [hcons]; simp [hr])
        · simp at hnew; subst hnew; rfl
      · rw [h1, h2]
        intro t ht
        rcases List.mem_append.mp ht with hr | hnew
        · have := hids t (by rw [hcons]; simp [hr]); omega
        · simp at hnew; subst hnew; simp [createToast]
      · rw [h4, h2]
        intro id hid
        rcases List.mem_append.mp hid with he | hn
        · have := htim id (List.mem_of_mem_erase he); omega
        · split at hn
          · simp at hn; omega
          · simp at hn
      · rw [h4]
        have hnde : (s.activeTimers.erase oldest.id).Nodup := hnd.erase _
        split
        · refine List.Nodup.append hnde (by simp) ?_
          intro a ha hb
          simp at hb
          subst hb
          have := htim _ (List.mem_of_mem_erase ha)
          omega
        · simp [hnde]
    · -- no eviction
      push_neg at hfull
      obtain ⟨h1, h2, h3, h4⟩ := settledAdd_notfull_state cfg m hm opts s hpr hfull
      refine ⟨?_, ?_, ?_, ?_, ?_, ?_, h3⟩
      · rw [h1]; simp; omega
      · rw [h1]
        simp only [List.map_append, List.map_cons, List.map_nil]
        rw [List.pairwise_append]
        refine ⟨hpw, by simp, ?_⟩
        intro a ha b hb
        simp at hb
        subst hb
        simp at ha
        obtain ⟨t, ht, rfl⟩ := ha
        have := hids t ht
        simp [createToast]
        omega
      · rw [h1]
        intro t ht
        rcases List.mem_append.mp ht with hr | hnew
        · exact hvis t hr
        · simp at hnew; subst hnew; rfl
      · rw [h1, h2]
        intro t ht
        rcases List.mem_append.mp ht with hr | hnew
        · have := hids t hr; omega
        · simp at hnew; subst hnew; simp [createToast]
      · rw [h4, h2]
        intro id hid
        rcases List.mem_append.mp hid with he | hn
        · have := htim id he; omega
        · split at hn
          · simp at hn; omega
          · simp at hn
      · rw [h4]
        split
        · refine List.Nodup.append hnd (by simp) ?_
          intro a ha hb
          simp at hb
          subst hb
          have := htim _ ha
          omega
        · simp [hnd]

theorem toastInv_run (cfg : ToastConfig) (hmax : 1 ≤ cfg.maxToasts)
    (inputs : List (Option String × ToastOptions)) (s : ToastState) (h : ToastInv cfg s) :
    ToastInv cfg (runSettledAdds cfg inputs s) := by
  induction inputs generalizing s with
  | nil => exact h
  | cons i is ih =>
    exact ih _ (toastInv_settledAdd cfg hmax i s h)

/-- C2 (amended): the as-stated claim fails because eviction only hides the
head and splices it 300 ms later (see the counterexample); when every
transition completes before the next `addToast` call, the collection never
exceeds `maxToasts`, and a valid add against a full queue evicts the head
entry — the lowest id among the surviving toasts — cancelling its timer,
splicing it out, and appending the new toast. -/
theorem toast_queue_settled_capacity (cfg : ToastConfig) (hmax : 1 ≤ cfg.maxToasts)
    (inputs : List (Option String × ToastOptions)) :
    (runSettledAdds cfg inputs initialToastState).toasts.length ≤ cfg.maxToasts ∧
    (∀ (m : String) (opts : ToastOptions), m ≠ "" →
      cfg.maxToasts ≤ (runSettledAdds cfg inputs initialToastState).toasts.length →
      ∃ oldest rest,
        (runSettledAdds cfg inputs initialToastState).toasts = oldest :: rest ∧
        (∀ t ∈ (runSettledAdds cfg inputs initialToastState).toasts, oldest.id ≤ t.id) ∧
        (settledAdd cfg (some m, opts) (runSettledAdds cfg inputs initialToastState)).toasts =
          rest ++ [createToast cfg m "info" opts
            (runSettledAdds cfg inputs initialToastState).nextId] ∧
        oldest.id ∉
          (settledAdd cfg (some m, opts) (runSettledAdds cfg inputs initialToastState)).activeTimers) := by
  have hinv := toastInv_run cfg hmax inputs initialToastState (toastInv_initial cfg)
  obtain ⟨hlen, hpw, hvis, hids, htim, hnd, hpr⟩ := hinv
  refine ⟨hlen, ?_⟩
  intro m opts hm hfull
  set s := runSettledAdds cfg inputs initialToastState with hs
  obtain ⟨oldest, rest, hcons⟩ : ∃ o r, s.toasts = o :: r := by
    cases hto : s.toasts with
    | nil => rw [hto] at hfull; simp at hfull; omega
    | cons o r => exact ⟨o, r, rfl⟩
  rw [hcons] at hpw
  simp only [List.map_cons, List.pairwise_cons] at hpw
  have hrest_ids : ∀ t ∈ rest, oldest.id < t.id := by
    intro t ht
    exact hpw.1 t.id (List.mem_map_of_mem _ ht)
  have hobn : oldest.id < s.nextId := hids oldest (by rw [hcons]; simp)
  obtain ⟨h1, h2, h3, h4⟩ := settledAdd_full_state cfg m hm opts s oldest rest hcons hpr hrest_ids hobn hfull
  refine ⟨oldest, rest, hcons, ?_, h1, ?_⟩
  · intro t ht
    rw [hcons] at ht
    rcases List.mem_cons.mp ht with h | h
    · subst h; exact le_refl _
    · exact le_of_lt (hrest_ids t h)
  · rw [h4]
    intro hmem
    rcases List.mem_append.mp hmem with he | hn
    · exact (((List.Nodup.mem_erase_iff hnd).mp he).1) rfl
    · split at hn
      · simp at hn; omega
      · simp at hn

/-- C2 witness: capacity bound after seven spaced-out adds on the default
configuration. -/
theorem toast_queue_settled_capacity_witness :
    (runSettledAdds {} (List.replicate 7 (some "m", ({} : ToastOptions)))
        initialToastState).toasts.length ≤ ({} : ToastConfig).maxToasts :=
  (toast_queue_settled_capacity {} (by decide)
    (List.replicate 7 (some "m", ({} : ToastOptions)))).1

/-! ## C7: throttle semantics -/

/-- Trace invariant of the throttle closure: whenever a trailing timer is
pending, it is scheduled for exactly `lastCall + delay` and carries the
time and arguments of the most recent call. -/
theorem throttleRun_aux {α : Type} (delay : Nat) (hd : 0 < delay) :
    ∀ (calls : List (Nat × α)) (s : ThrottleState α) (log : List (Nat × α)) (T : Nat),
      (calls.map Prod.fst).Pairwise (· < ·) →
      (∀ p ∈ calls, T < p.1) →
      s.lastCall ≤ T →
      (∀ ft cap a, s.pending = some (ft, cap, a) → ft = s.lastCall + delay ∧ cap = T) →
      (∀ ft cap a, (calls.foldl (throttleStep delay) (s, log)).1.pending = some (ft, cap, a) →
        ft = (calls.foldl (throttleStep delay) (s, log)).1.lastCall + delay ∧
        (((cap, a) ∈ calls ∧ ∀ q ∈ calls, q.1 ≤ cap) ∨
          (calls = [] ∧ s.pending = some (ft, cap, a)))) := by
  intro calls
  induction calls with
  | nil =>
    intro s log T _ _ _ hinv ft cap a hp
    exact ⟨(hinv ft cap a hp).1, Or.inr ⟨rfl, hp⟩⟩
  | cons e rest ih =>
    intro s log T hpw hgt hle hinv ft cap a hp
    obtain ⟨t, b⟩ := e
    simp only [List.foldl_cons] at hp ⊢
    have hTt : T < t := hgt (t, b) (by simp)
    have hpw2 : (rest.map Prod.fst).Pairwise (· < ·) :=
      (List.pairwise_cons.mp (by simpa using hpw)).2
    have hgt2 : ∀ p ∈ rest, t < p.1 := by
      intro p hpm
      exact (List.pairwise_cons.mp (by simpa using hpw)).1 p.1 (List.mem_map_of_mem _ hpm)
    -- generic continuation step: the state handed to the tail fold either has
    -- no pending timer or the trailing timer of the call (t, b)
    have hmerge : ∀ (s2 : ThrottleState α) (log2 : List (Nat × α)),
        s2.lastCall ≤ t →
        (s2.pending = none ∨ s2.pending = some (s2.lastCall + delay, t, b)) →
        (rest.foldl (throttleStep delay) (s2, log2)).1.pending = some (ft, cap, a) →
        ft = (rest.foldl (throttleStep delay) (s2, log2)).1.lastCall + delay ∧
          (((cap, a) ∈ (t, b) :: rest ∧ ∀ q ∈ (t, b) :: rest, q.1 ≤ cap) ∨ False) := by
      intro s2 log2 hle2 hpend2 hp2
      have hinv2 : ∀ ft1 cap1 a1, s2.pending = some (ft1, cap1, a1) →
          ft1 = s2.lastCall + delay ∧ cap1 = t := by
        intro ft1 cap1 a1 h1
        rcases hpend2 with h2 | h2 <;> rw [h2] at h1
        · exact absurd h1 (by simp)
        · simp at h1
          exact ⟨h1.1.symm, h1.2.1.symm⟩
      have hres := ih s2 log2 t hpw2 hgt2 hle2 hinv2 ft cap a hp2
      refine ⟨hres.1, Or.inl ?_⟩
      rcases hres.2 with ⟨hm, hmax⟩ | ⟨hrest, hpend⟩
      · refine ⟨List.mem_cons_of_mem _ hm, ?_⟩
        intro q hq
        rcases List.mem_cons.mp hq with h | h
        · have : t < cap := hgt2 (cap, a) hm
          subst h
          omega
        · exact hmax q h
      · subst hrest
        rcases hpend2 with h2 | h2 <;> rw [h2] at hpend
        · exact absurd hpend (by simp)
        · simp at hpend
          refine ⟨?_, ?_⟩
          · simp [hpend.2.1, hpend.2.2]
          · intro q hq
            simp at hq
            simp [hq, hpend.2.1]
    -- case analysis on the step at (t, b)
    cases hps : s.pending with
    | none =>
      by_cases himm : delay ≤ t - s.lastCall
      · have hstep : throttleStep delay (s, log) (t, b) =
            ({ lastCall := t, pending := none }, log ++ [(t, b)]) := by
          simp [throttleStep, hps, himm]
        rw [hstep] at hp
        have := hmerge { lastCall := t, pending := none } (log ++ [(t, b)]) (le_refl t)
          (Or.inl rfl) hp
        rw [hstep]
        exact ⟨this.1, Or.inl (this.2.resolve_right (fun h => h))⟩
      · have hstep : throttleStep delay (s, log) (t, b) =
            ({ lastCall := s.lastCall, pending := some (s.lastCall + delay, t, b) }, log) := by
          simp [throttleStep, hps, himm]
        rw [hstep] at hp
        have := hmerge { lastCall := s.lastCall, pending := some (s.lastCall + delay, t, b) }
          log (show s.lastCall ≤ t by omega) (Or.inr rfl) hp
        rw [hstep]
        exact ⟨this.1, Or.inl (this.2.resolve_right (fun h => h))⟩
    | some q =>
      obtain ⟨ft0, cap0, a0⟩ := q
      obtain ⟨hft0, hcap0⟩ := hinv ft0 cap0 a0 hps
      by_cases hfire : ft0 ≤ t
      · -- timer fires before/at the call
        by_cases himm : delay ≤ t - cap0
        · have hstep : throttleStep delay (s, log) (t, b) =
              ({ lastCall := t, pending := none }, (log ++ [(ft0, a0)]) ++ [(t, b)]) := by
            simp [throttleStep, hps, hfire, himm]
          rw [hstep] at hp
          have := hmerge { lastCall := t, pending := none } ((log ++ [(ft0, a0)]) ++ [(t, b)])
            (le_refl t) (Or.inl rfl) hp
          rw [hstep]
          exact ⟨this.1, Or.inl (this.2.resolve_right (fun h => h))⟩
        · have hstep : throttleStep delay (s, log) (t, b) =
              ({ lastCall := cap0, pending := some (cap0 + delay, t, b) }, log ++ [(ft0, a0)]) := by
            simp [throttleStep, hps, hfire, himm]
          rw [hstep] at hp
          have := hmerge { lastCall := cap0, pending := some (cap0 + delay, t, b) }
            (log ++ [(ft0, a0)]) (show cap0 ≤ t by omega) (Or.inr rfl) hp
          rw [hstep]
          exact ⟨this.1, Or.inl (this.2.resolve_right (fun h => h))⟩
      · -- timer not yet due: the call is necessarily inside the window
        have himm : ¬ delay ≤ t - s.lastCall := by omega
        have hstep : throttleStep delay (s, log) (t, b) =
            ({ lastCall := s.lastCall, pending := some (s.lastCall + delay, t, b) }, log) := by
          simp [throttleStep, hps, hfire, himm]
        rw [hstep] at hp
        have := hmerge { lastCall := s.lastCall, pending := some (s.lastCall + delay, t, b) }
          log (show s.lastCall ≤ t by omega) (Or.inr rfl) hp
        rw [hstep]
        exact ⟨this.1, Or.inl (this.2.resolve_right (fun h => h))⟩

/-- C7 counterexample: with `delay = 100` and calls at 1000, 1050 and 1151,
the wrapped function runs at 1000, 1100 (trailing fire) and 1151 — the last
two invocations are only 51 ms apart, because the trailing fire recorded
`lastCall = 1050` (the deferring call's timestamp), so "at most one
invocation per 100 ms window" is false. -/
theorem throttle_two_invocations_within_window :
    (throttleRun 100 [(1000, (1 : Nat)), (1050, 2), (1151, 3)]).2 =
      [(1000, 1), (1100, 2), (1151, 3)] ∧ 1151 - 1100 < 100 := by
  decide

/-- C7 (amended): the throttle is trailing-edge but rate-limits relative to
the recorded `lastCall`, not the actual invocation times.  For every
strictly increasing call sequence: a pending trailing timer always fires
exactly at `lastCall + delay` and carries the arguments of the most recent
call; a call with no pending work and `delay` elapsed since `lastCall`
invokes immediately at its own time; and a call inside the window is not
dropped — it (re)schedules the trailing timer.  (Successive invocations may
still be closer than `delay`, per the counterexample.) -/
theorem throttle_trailing_edge {α : Type} (delay : Nat) (hd : 0 < delay)
    (calls : List (Nat × α)) (hpos : ∀ p ∈ calls, 0 < p.1)
    (hpw : (calls.map Prod.fst).Pairwise (· < ·)) :
    (∀ ft cap a, (throttleRun delay calls).1.pending = some (ft, cap, a) →
      ft = (throttleRun delay calls).1.lastCall + delay ∧
      (cap, a) ∈ calls ∧ ∀ q ∈ calls, q.1 ≤ cap) ∧
    (∀ (s : ThrottleState α) (log : List (Nat × α)) (t : Nat) (a : α),
      s.pending = none → delay ≤ t - s.lastCall →
      throttleStep delay (s, log) (t, a) =
        ({ lastCall := t, pending := none }, log ++ [(t, a)])) ∧
    (∀ (s : ThrottleState α) (log : List (Nat × α)) (t : Nat) (a : α),
      s.pending = none → t - s.lastCall < delay →
      throttleStep delay (s, log) (t, a) =
        ({ lastCall := s.lastCall, pending := some (s.lastCall + delay, t, a) }, log)) := by
  refine ⟨?_, ?_, ?_⟩
  · intro ft cap a hp
    have := throttleRun_aux delay hd calls ⟨0, none⟩ [] 0 hpw (fun p hpm => hpos p hpm)
      (le_refl 0) (by intro ft1 cap1 a1 h1; exact absurd h1 (by simp)) ft cap a hp
    refine ⟨this.1, ?_⟩
    rcases this.2 with ⟨hm, hmax⟩ | ⟨_, hpend⟩
    · exact ⟨hm, hmax⟩
    · exact absurd hpend (by simp)
  · intro s log t a hpend himm
    simp [throttleStep, hpend, himm]
  · intro s log t a hpend himm
    have hn : ¬ delay ≤ t - s.lastCall := by omega
    simp [throttleStep, hpend, hn]

/-- C7 witness: the pending-timer clause at a concrete two-call trace. -/
theorem throttle_trailing_edge_witness :
    1100 = (throttleRun 100 [(1000, (1 : Nat)), (1050, 2)]).1.lastCall + 100 ∧
    (1050, 2) ∈ [(1000, (1 : Nat)), (1050, 2)] ∧
    ∀ q ∈ [(1000, (1 : Nat)), (1050, 2)], q.1 ≤ 1050 :=
  (throttle_trailing_edge 100 (by decide) [(1000, 1), (1050, 2)]
    (by decide) (by decide)).1 1100 1050 2 (by decide)
/-! ## C1: diff on mismatched container types -/

/-- C1 counterexample: for an object on one side and an array on the other
(`{"a":1}` vs `[1]`), `typeof` is `"object"` on both sides, so the code
falls into the key-union object branch and recurses: the result is a
`removed` entry for `"a"` and an `added` entry for `"0"` — two entries and
no `modified` entry at all, refuting "exactly one Modified entry at that
path ... no recursion". -/
theorem diff_object_vs_array_recurses :
    findJsonDifferences (Json.obj [("a", Json.num 1)]) (Json.arr [Json.num 1]) "" =
      [⟨"a", DiffType.removed, some (Json.num 1), none⟩,
       ⟨"0", DiffType.added, none, some (Json.num 1)⟩] ∧
    (findJsonDifferences (Json.obj [("a", Json.num 1)]) (Json.arr [Json.num 1]) "").countP
      (fun e => e.type == DiffType.modified) = 0 := by
  exact ⟨rfl, by decide⟩

/-- C1 (amended): the single-`modified`-entry-without-recursion behaviour
holds exactly for the leaf branches: whenever the two sides are not
strictly equal and at least one of them is a primitive (`typeof` not
`"object"`) or `null`.  A mismatch of an array with a non-array object
instead recurses over the union of keys (see the counterexample). -/
theorem findJsonDifferences_modified_leaf (a b : Json) (path : String)
    (hne : jsStrictEq a b = false)
    (h : jsTypeof a ≠ "object" ∨ jsTypeof b ≠ "object" ∨ a = Json.null ∨ b = Json.null) :
    findJsonDifferences a b path = [⟨path, .modified, some a, some b⟩] := by
  obtain ⟨k, hk⟩ := jsize_add_pos a b
  unfold findJsonDifferences
  rw [hk]
  show findJsonDifferencesF (k+1) a b path = _
  by_cases hcond : (!jsStrictEq a b && (jsTypeof a != "object" || jsTypeof b != "object")) = true
  · simp only [findJsonDifferencesF, hcond, if_true]
  · have hta : jsTypeof a = "object" ∧ jsTypeof b = "object" := by
      simp [hne] at hcond
      exact hcond
    have hnull : a = Json.null ∨ b = Json.null := by
      rcases h with h | h | h | h
      · exact absurd hta.1 h
      · exact absurd hta.2 h
      · exact Or.inl h
      · exact Or.inr h
    have hsecond : (jsStrictEq a Json.null || jsStrictEq b Json.null) = true := by
      rcases hnull with h | h <;> subst h <;> simp [jsStrictEq]
    simp only [findJsonDifferencesF, hcond, Bool.false_eq_true, if_false, hsecond, if_true,
      hne, Bool.not_false, if_true]
    split <;> rfl

/-- C1 witness: a number against a string produces the single `modified`
entry with the full old and new values. -/
theorem findJsonDifferences_modified_leaf_witness :
    findJsonDifferences (Json.num 1) (Json.str "1") "p" =
      [⟨"p", DiffType.modified, some (Json.num 1), some (Json.str "1")⟩] :=
  findJsonDifferences_modified_leaf (Json.num 1) (Json.str "1") "p" rfl
    (Or.inl (by decide))

/-! ## C9: diff swaps Added/Removed when arguments are exchanged -/

theorem beqSymm {α : Type} [DecidableEq α] (x y : α) : (x == y) = (y == x) := by
  by_cases h : x = y
  · simp [h]
  · simp [h, Ne.symm h]

theorem jsStrictEq_comm (a b : Json) : jsStrictEq a b = jsStrictEq b a := by
  cases a <;> cases b <;> simp [jsStrictEq] <;> exact eq_comm

theorem mem_unionKeys (a b : Json) (k : String) :
    k ∈ jsKeys a ++ (jsKeys b).filter (fun x => !(jsKeys a).contains x) ↔
      k ∈ jsKeys a ∨ k ∈ jsKeys b := by
  simp only [List.mem_append, List.mem_filter]
  constructor
  · rintro (h | ⟨h, _⟩)
    · exact Or.inl h
    · exact Or.inr h
  · rintro (h | h)
    · exact Or.inl h
    · by_cases hmem : k ∈ jsKeys a
      · exact Or.inl hmem
      · refine Or.inr ⟨h, ?_⟩
        cases hc : (jsKeys a).contains k with
        | false => rfl
        | true => exact absurd (List.mem_of_elem_eq_true hc) hmem

theorem lookup_some_mem_keys {β : Type} (fs : List (String × β)) (k : String) (w : β)
    (h : fs.lookup k = some w) : k ∈ fs.map Prod.fst := by
  induction fs with
  | nil => simp [List.lookup] at h
  | cons p rest ih =>
    obtain ⟨k1, v1⟩ := p
    rw [List.lookup] at h
    by_cases hk : (k == k1) = true
    · simp at hk
      simp [hk]
    · simp only [Bool.not_eq_true] at hk
      rw [hk] at h
      simp
      exact Or.inr (by simpa using ih h)

theorem jsGet_some_hasKey (o : Json) (k : String) (w : Json) (h : jsGet o k = some w) :
    jsHasKey o k = true := by
  cases o with
  | obj fs =>
    simp only [jsGet] at h
    simp only [jsHasKey, jsKeys]
    exact List.elem_eq_true_of_mem (by simpa using lookup_some_mem_keys fs k w h)
  | arr xs =>
    simp only [jsGet] at h
    simp only [jsHasKey, jsKeys]
    cases hf : (List.range xs.length).find? (fun i => toString i == k) with
    | none => rw [hf] at h; simp at h
    | some j =>
      rw [hf] at h
      have hj := List.find?_some hf
      have hjm : j ∈ List.range xs.length := List.mem_of_find?_eq_some hf
      apply List.elem_eq_true_of_mem
      simp only [beq_iff_eq] at hj
      exact List.mem_map.mpr ⟨j, hjm, hj⟩
  | null => simp [jsGet] at h
  | bool b => simp [jsGet] at h
  | num n => simp [jsGet] at h
  | str s => simp [jsGet] at h

theorem objBranch_swap (fuel : Nat)
    (ih : ∀ (a b : Json) (path p : String) (v : Json),
      (⟨p, .added, none, some v⟩ : JsonDifference) ∈ findJsonDifferencesF fuel a b path →
      (⟨p, .removed, some v, none⟩ : JsonDifference) ∈ findJsonDifferencesF fuel b a path)
    (o1 o2 : Json) (path p : String) (v : Json)
    (h : (⟨p, .added, none, some v⟩ : JsonDifference) ∈
      (jsKeys o1 ++ (jsKeys o2).filter (fun k => !(jsKeys o1).contains k)).flatMap (fun key =>
        if !jsHasKey o1 key then
          [⟨if path = "" then key else path ++ "." ++ key, .added, none, jsGet o2 key⟩]
        else if !jsHasKey o2 key then
          [⟨if path = "" then key else path ++ "." ++ key, .removed, jsGet o1 key, none⟩]
        else
          match jsGet o1 key, jsGet o2 key with
          | some x, some y => findJsonDifferencesF fuel x y
              (if path = "" then key else path ++ "." ++ key)
          | _, _ => [])) :
    (⟨p, .removed, some v, none⟩ : JsonDifference) ∈
      (jsKeys o2 ++ (jsKeys o1).filter (fun k => !(jsKeys o2).contains k)).flatMap (fun key =>
        if !jsHasKey o2 key then
          [⟨if path = "" then key else path ++ "." ++ key, .added, none, jsGet o1 key⟩]
        else if !jsHasKey o1 key then
          [⟨if path = "" then key else path ++ "." ++ key, .removed, jsGet o2 key, none⟩]
        else
          match jsGet o2 key, jsGet o1 key with
          | some x, some y => findJsonDifferencesF fuel x y
              (if path = "" then key else path ++ "." ++ key)
          | _, _ => []) := by
  rw [List.mem_flatMap] at h ⊢
  obtain ⟨k, hk, hbody⟩ := h
  refine ⟨k, (mem_unionKeys o2 o1 k).mpr (Or.symm ((mem_unionKeys o1 o2 k).mp hk)), ?_⟩
  by_cases hk1 : jsHasKey o1 k
  · by_cases hk2 : jsHasKey o2 k
    · simp only [hk1, hk2, Bool.not_true, Bool.false_eq_true, if_false] at hbody ⊢
      cases hg1 : jsGet o1 k with
      | none => rw [hg1] at hbody; cases hg2 : jsGet o2 k <;> rw [hg2] at hbody <;> simp at hbody
      | some x =>
        rw [hg1] at hbody
        cases hg2 : jsGet o2 k with
        | none => rw [hg2] at hbody; simp at hbody
        | some y =>
          rw [hg2] at hbody
          exact ih x y _ p v (by simpa using hbody)
    · simp only [hk1, Bool.not_true, Bool.false_eq_true, if_false,
        hk2] at hbody
      simp at hbody
  · simp only [hk1, Bool.not_false, if_true] at hbody
    simp only [List.mem_singleton] at hbody
    rw [JsonDifference.mk.injEq] at hbody
    obtain ⟨hp, -, -, hv0⟩ := hbody
    have hv : jsGet o2 k = some v := hv0.symm
    have hk2 : jsHasKey o2 k = true := jsGet_some_hasKey o2 k v hv
    simp only [hk2, Bool.not_true, Bool.false_eq_true, if_false, hk1, Bool.not_false, if_true]
    simp [hp, hv]

/-- Fuel-level symmetry: an `added` entry of `diff(a,b)` matches a `removed`
entry of `diff(b,a)` at the same fuel (both wrappers use the same, symmetric
fuel). -/
theorem diffF_added_swap : ∀ (fuel : Nat) (a b : Json) (path p : String) (v : Json),
    (⟨p, .added, none, some v⟩ : JsonDifference) ∈ findJsonDifferencesF fuel a b path →
    (⟨p, .removed, some v, none⟩ : JsonDifference) ∈ findJsonDifferencesF fuel b a path := by
  intro fuel
  induction fuel with
  | zero =>
    intro a b path p v h
    simp [findJsonDifferencesF] at h
  | succ fuel ih =>
    intro a b path p v h
    by_cases h1 : (!jsStrictEq a b && (jsTypeof a != "object" || jsTypeof b != "object")) = true
    · simp only [findJsonDifferencesF, h1, if_true, List.mem_singleton] at h
      rw [JsonDifference.mk.injEq] at h
      exact absurd h.2.1 (by simp)
    · have h1f : (!jsStrictEq a b && (jsTypeof a != "object" || jsTypeof b != "object")) = false := by
        revert h1
        cases (!jsStrictEq a b && (jsTypeof a != "object" || jsTypeof b != "object")) <;> simp
      have h1s : (!jsStrictEq b a && (jsTypeof b != "object" || jsTypeof a != "object")) = false := by
        rw [jsStrictEq_comm b a, Bool.or_comm]
        exact h1f
      by_cases h2 : (jsStrictEq a Json.null || jsStrictEq b Json.null) = true
      · simp only [findJsonDifferencesF, h1f, Bool.false_eq_true, if_false, h2, if_true] at h
        split at h <;> simp only [List.mem_singleton, List.not_mem_nil] at h
        · rw [JsonDifference.mk.injEq] at h
          exact absurd h.2.1 (by simp)
      · have h2s : (jsStrictEq b Json.null || jsStrictEq a Json.null) = false := by
          revert h2
          cases hsa : jsStrictEq a Json.null <;> cases hsb : jsStrictEq b Json.null <;> simp
        have h2f : (jsStrictEq a Json.null || jsStrictEq b Json.null) = false := by
          revert h2
          cases (jsStrictEq a Json.null || jsStrictEq b Json.null) <;> simp
        simp only [findJsonDifferencesF, h1f, h1s, h2f, h2s, Bool.false_eq_true, if_false] at h ⊢
        rcases a with _ | ba | na | sa | xs | fs <;> rcases b with _ | bb | nb | sb | ys | gs
        case neg.arr.arr =>
          rw [List.mem_flatMap] at h ⊢
          obtain ⟨i, hi, hbody⟩ := h
          refine ⟨i, by rw [Nat.max_comm]; exact hi, ?_⟩
          cases hx : xs[i]? with
          | none =>
            rw [hx] at hbody
            cases hy : ys[i]? with
            | none => rw [hy] at hbody; simp at hbody
            | some y =>
              rw [hy] at hbody
              simp only [List.mem_singleton] at hbody
              rw [JsonDifference.mk.injEq] at hbody
              obtain ⟨hp, -, -, hv⟩ := hbody
              exact List.mem_singleton.mpr
                (by rw [JsonDifference.mk.injEq]; exact ⟨hp, rfl, hv, rfl⟩)
          | some x =>
            rw [hx] at hbody
            cases hy : ys[i]? with
            | none =>
              rw [hy] at hbody
              simp only [List.mem_singleton] at hbody
              rw [JsonDifference.mk.injEq] at hbody
              exact absurd hbody.2.1 (by simp)
            | some y =>
              rw [hy] at hbody
              exact ih x y _ p v (by simpa using hbody)
        case neg.arr.obj => exact objBranch_swap fuel ih (Json.arr xs) (Json.obj gs) path p v h
        case neg.obj.arr => exact objBranch_swap fuel ih (Json.obj fs) (Json.arr ys) path p v h
        case neg.obj.obj => exact objBranch_swap fuel ih (Json.obj fs) (Json.obj gs) path p v h
        all_goals simp_all [jsTypeof, jsStrictEq]

/-- C9: exchanging the arguments of `findJsonDifferences` swaps Added and
Removed entries, keeping paths and values: every `{path, added, newValue v}`
entry of `diff(a,b)` has a matching `{path, removed, oldValue v}` entry in
`diff(b,a)`. -/
theorem findJsonDifferences_added_removed_swap (a b : Json) (path p : String) (v : Json)
    (h : (⟨p, .added, none, some v⟩ : JsonDifference) ∈ findJsonDifferences a b path) :
    (⟨p, .removed, some v, none⟩ : JsonDifference) ∈ findJsonDifferences b a path := by
  unfold findJsonDifferences at h ⊢
  rw [Nat.add_comm (jsize b) (jsize a)]
  exact diffF_added_swap _ a b path p v h

/-- C9 witness: the spec's own scenario `diff({"a":1}, {"a":1,"b":2})`. -/
theorem findJsonDifferences_added_removed_swap_witness :
    (⟨"b", DiffType.removed, some (Json.num 2), none⟩ : JsonDifference) ∈
      findJsonDifferences (Json.obj [("a", Json.num 1), ("b", Json.num 2)])
        (Json.obj [("a", Json.num 1)]) "" :=
  findJsonDifferences_added_removed_swap (Json.obj [("a", Json.num 1)])
    (Json.obj [("a", Json.num 1), ("b", Json.num 2)]) "" "b" (Json.num 2)
    (by
      rw [show findJsonDifferences (Json.obj [("a", Json.num 1)])
            (Json.obj [("a", Json.num 1), ("b", Json.num 2)]) "" =
          [⟨"b", DiffType.added, none, some (Json.num 2)⟩] from rfl]
      exact List.mem_singleton.mpr rfl)

theorem readLowSurrogate_consumes (n : Nat) (cs : List Char) (ch : Char) (cs2 : List Char)
    (h : readLowSurrogate n cs = some (ch, cs2)) : cs2.length + 6 ≤ cs.length := by
  unfold readLowSurrogate at h
  repeat' split at h
  all_goals
    first
    | exact Option.noConfusion h
    | (simp only [Option.some.injEq, Prod.mk.injEq] at h
       obtain ⟨-, h2⟩ := h
       subst h2
       simp)

theorem readUnicodeEscape_consumes (cs : List Char) (ch : Char) (cs2 : List Char)
    (h : readUnicodeEscape cs = some (ch, cs2)) : cs2.length + 4 ≤ cs.length := by
  unfold readUnicodeEscape at h
  repeat' split at h
  all_goals
    first
    | exact Option.noConfusion h
    | (simp only [Option.some.injEq, Prod.mk.injEq] at h
       obtain ⟨-, h2⟩ := h
       subst h2
       simp)
    | (have hlt := readLowSurrogate_consumes _ _ _ _ h
       simp
       omega)

theorem readEscape_consumes (cs : List Char) (ch : Char) (cs2 : List Char)
    (h : readEscape cs = some (ch, cs2)) : cs2.length + 1 ≤ cs.length := by
  unfold readEscape at h
  repeat' split at h
  all_goals
    first
    | exact Option.noConfusion h
    | (simp only [Option.some.injEq, Prod.mk.injEq] at h
       obtain ⟨-, h2⟩ := h
       subst h2
       simp)
    | (have hlt := readUnicodeEscape_consumes _ _ _ h
       simp
       omega)

theorem readStringChar_consumes (cs : List Char) (ch : Char) (cs2 : List Char)
    (h : readStringChar cs = some (ch, cs2)) : cs2.length < cs.length := by
  unfold readStringChar at h
  repeat' split at h
  all_goals
    first
    | exact Option.noConfusion h
    | (simp only [Option.some.injEq, Prod.mk.injEq] at h
       obtain ⟨-, h2⟩ := h
       subst h2
       simp)
    | (have hlt := readEscape_consumes _ _ _ h
       simp
       omega)

theorem parseStringBodyF_consumes :
    ∀ (fuel : Nat) (cs content rest : List Char),
      parseStringBodyF fuel cs = some (content, rest) → rest.length < cs.length := by
  intro fuel
  induction fuel with
  | zero => intro cs content rest h; simp [parseStringBodyF] at h
  | succ fuel ih =>
    intro cs content rest h
    cases cs with
    | nil => exact Option.noConfusion h
    | cons c cs1 =>
      simp only [parseStringBodyF] at h
      split at h
      · simp only [Option.some.injEq, Prod.mk.injEq] at h
        obtain ⟨-, h2⟩ := h
        subst h2
        simp
      · cases hrc : readStringChar (c :: cs1) with
        | none => rw [hrc] at h; exact Option.noConfusion h
        | some p =>
          rw [hrc] at h
          obtain ⟨ch2, cs2⟩ := p
          obtain ⟨⟨content2, rest2⟩, hps, hpr⟩ := Option.map_eq_some'.mp h
          have h1 := ih cs2 content2 rest2 hps
          have h2 := readStringChar_consumes (c :: cs1) ch2 cs2 hrc
          have : rest = rest2 := by
            rw [Prod.mk.injEq] at hpr
            exact hpr.2.symm
          subst this
          omega

theorem parseStringBody_consumes (cs content rest : List Char)
    (h : parseStringBody cs = some (content, rest)) : rest.length < cs.length :=
  parseStringBodyF_consumes _ cs content rest h

theorem takeDigits_append (cs : List Char) :
    (takeDigits cs).1 ++ (takeDigits cs).2 = cs := by
  induction cs with
  | nil => rfl
  | cons c cs ih =>
    rw [takeDigits]
    split
    · simp only []
      rw [List.cons_append, ih]
    · simp

theorem takeDigits_length (cs : List Char) :
    (takeDigits cs).1.length + (takeDigits cs).2.length = cs.length := by
  have h := takeDigits_append cs
  calc (takeDigits cs).1.length + (takeDigits cs).2.length
      = ((takeDigits cs).1 ++ (takeDigits cs).2).length := by simp
    _ = cs.length := by rw [h]

theorem numIfChain_consumes (sg : Bool × List Char) (n : Int) (rest : List Char)
    (h : (let p := takeDigits sg.2;
      if p.1.isEmpty then none
      else if p.1.length ≥ 2 && p.1.headD ' ' = '0' then none
      else if startsFracOrExp p.2 then none
      else some (if sg.1 then -(digitsToNat p.1 : Int) else (digitsToNat p.1 : Int), p.2)) =
      some (n, rest)) :
    rest.length < sg.2.length := by
  simp only [] at h
  repeat' split at h
  all_goals
    first
    | exact Option.noConfusion h
    | (simp only [Option.some.injEq, Prod.mk.injEq] at h
       obtain ⟨-, h2⟩ := h
       subst h2
       have hl := takeDigits_length sg.2
       have hd : 1 ≤ (takeDigits sg.2).1.length := by
         cases hh : (takeDigits sg.2).1 with
         | nil => simp_all
         | cons a l => simp [hh]
       omega)

theorem parseNumber_consumes (cs : List Char) (n : Int) (rest : List Char)
    (h : parseNumber cs = some (n, rest)) : rest.length < cs.length := by
  unfold parseNumber at h
  have hb := numIfChain_consumes (numSign cs) n rest h
  have hle : (numSign cs).2.length ≤ cs.length := by
    cases cs with
    | nil => simp [numSign]
    | cons c r => by_cases hc : c = '-' <;> simp [numSign, hc]
  omega

theorem map_assign_id (kv : String × Json) (fs : List (String × Json))
    (h : ∀ q ∈ fs, ¬ q.1 = kv.1) :
    fs.map (fun p => if p.1 == kv.1 then (p.1, kv.2) else p) = fs := by
  induction fs with
  | nil => rfl
  | cons p rest ih =>
    have hp := h p (List.mem_cons_self _ _)
    simp only [List.map_cons, ih (fun q hq => h q (List.mem_cons_of_mem _ hq))]
    simp [hp]

theorem jsizeFields_append (a b : List (String × Json)) :
    jsizeFields (a ++ b) = jsizeFields a + jsizeFields b := by
  induction a with
  | nil => simp [jsizeFields]
  | cons p rest ih =>
    simp only [List.cons_append, jsizeFields, List.append_eq] at ih ⊢
    omega

theorem map_update_keys (kv : String × Json) (fs : List (String × Json)) :
    (fs.map (fun p => if p.1 == kv.1 then (p.1, kv.2) else p)).map Prod.fst =
      fs.map Prod.fst := by
  rw [List.map_map]
  apply List.map_congr_left
  intro p hp
  simp only [Function.comp_apply]
  split <;> rfl

theorem idxInsert_perm (n : Nat) (kv : String × Json) (l : List (String × Json)) :
    (idxInsert n kv l).Perm (kv :: l) := by
  induction l with
  | nil => exact List.Perm.refl _
  | cons q rest ih =>
    rw [idxInsert]
    cases hq : keyIdx? q.1 with
    | some m =>
      simp only []
      by_cases hle : m ≤ n
      · rw [if_pos hle]
        exact (ih.cons q).trans (List.Perm.swap kv q rest)
      · rw [if_neg hle]
    | none => exact List.Perm.refl _

theorem jsAssign_perm_fresh (fs : List (String × Json)) (kv : String × Json)
    (h : fs.any (fun p => p.1 == kv.1) = false) : (jsAssign fs kv).Perm (kv :: fs) := by
  unfold jsAssign
  rw [if_neg (by simp [h])]
  cases hk : keyIdx? kv.1 with
  | some n => exact idxInsert_perm n kv fs
  | none => exact List.perm_append_singleton kv fs

theorem jsizeFields_eq_sum (fs : List (String × Json)) :
    jsizeFields fs = (fs.map (fun q => 1 + jsize q.2)).sum := by
  induction fs with
  | nil => rfl
  | cons kv rest ih => simp only [jsizeFields, List.map_cons, List.sum_cons, ih]

theorem jsizeFields_perm (l l2 : List (String × Json)) (h : l.Perm l2) :
    jsizeFields l = jsizeFields l2 := by
  rw [jsizeFields_eq_sum, jsizeFields_eq_sum]
  exact (h.map (fun q => 1 + jsize q.2)).sum_eq

theorem jsAssign_keys_nodup (fs : List (String × Json)) (kv : String × Json)
    (h : (fs.map Prod.fst).Nodup) : ((jsAssign fs kv).map Prod.fst).Nodup := by
  by_cases hany : fs.any (fun p => p.1 == kv.1) = true
  · unfold jsAssign
    rw [if_pos hany, map_update_keys]
    exact h
  · have hfresh : ¬ kv.1 ∈ fs.map Prod.fst := by
      intro hmem
      obtain ⟨p, hp, hpa⟩ := List.mem_map.mp hmem
      exact hany (List.any_eq_true.mpr ⟨p, hp, by simp [hpa]⟩)
    have hperm := (jsAssign_perm_fresh fs kv (by simp only [Bool.not_eq_true] at hany; exact hany)).map Prod.fst
    rw [hperm.nodup_iff]
    exact List.nodup_cons.mpr ⟨hfresh, h⟩

theorem jsizeFields_map_assign (kv : String × Json) (fs : List (String × Json))
    (h : (fs.map Prod.fst).Nodup) :
    jsizeFields (fs.map (fun p => if p.1 == kv.1 then (p.1, kv.2) else p)) ≤
      jsizeFields fs + jsize kv.2 := by
  induction fs with
  | nil => simp [jsizeFields]
  | cons p rest ih =>
    rw [List.map_cons] at h
    have hhd := (List.nodup_cons.mp h).1
    have htl := (List.nodup_cons.mp h).2
    by_cases hk : p.1 = kv.1
    · have hrest : rest.map (fun q => if q.1 == kv.1 then (q.1, kv.2) else q) = rest := by
        apply map_assign_id
        intro q hq hcon
        exact hhd (hk ▸ hcon ▸ List.mem_map.mpr ⟨q, hq, rfl⟩)
      simp only [List.map_cons, hrest]
      have hpos := jsize_pos p.2
      have hif : (if (p.1 == kv.1) = true then (p.1, kv.2) else p) = (p.1, kv.2) := by
        simp [hk]
      rw [hif]
      simp only [jsizeFields]
      omega
    · have := ih htl
      simp only [List.map_cons, jsizeFields]
      have hif : (if (p.1 == kv.1) = true then (p.1, kv.2) else p) = p := by
        simp [hk]
      rw [hif]
      simp only [jsizeFields] at this ⊢
      omega

theorem jsizeFields_jsAssign (fs : List (String × Json)) (kv : String × Json)
    (h : (fs.map Prod.fst).Nodup) :
    jsizeFields (jsAssign fs kv) ≤ jsizeFields fs + (1 + jsize kv.2) := by
  by_cases hany : fs.any (fun p => p.1 == kv.1) = true
  · unfold jsAssign
    rw [if_pos hany]
    have := jsizeFields_map_assign kv fs h
    omega
  · have hperm := jsAssign_perm_fresh fs kv (by simp only [Bool.not_eq_true] at hany; exact hany)
    rw [jsizeFields_perm _ _ hperm]
    simp only [jsizeFields]
    omega

theorem skipWs_length (cs : List Char) : (skipWs cs).length ≤ cs.length := by
  induction cs with
  | nil => simp [skipWs]
  | cons c cs ih =>
    rw [skipWs]
    split
    · simp; omega
    · simp

theorem jsizeFields_foldl_jsAssign (raw : List (String × Json)) :
    ∀ acc : List (String × Json), (acc.map Prod.fst).Nodup →
      jsizeFields (raw.foldl jsAssign acc) ≤ jsizeFields acc + jsizeFields raw := by
  induction raw with
  | nil => intro acc hn; simp [jsizeFields]
  | cons kv rest ih =>
    intro acc hn
    rw [List.foldl_cons]
    have h1 := ih (jsAssign acc kv) (jsAssign_keys_nodup acc kv hn)
    have h2 := jsizeFields_jsAssign acc kv hn
    simp only [jsizeFields]
    omega

theorem jsizeFields_foldl_nil (raw : List (String × Json)) :
    jsizeFields (raw.foldl jsAssign []) ≤ jsizeFields raw := by
  have := jsizeFields_foldl_jsAssign raw [] (by simp)
  simpa [jsizeFields] using this

theorem parse_consumes (fuel : Nat) :
    (∀ cs v rest, parseValueF fuel cs = some (v, rest) →
      jsize v + rest.length ≤ cs.length) ∧
    (∀ cs v rest, parseArrayF fuel cs = some (v, rest) →
      jsize v + rest.length ≤ cs.length + 1) ∧
    (∀ cs vs rest, parseArrayItemsF fuel cs = some (vs, rest) →
      jsizeList vs + rest.length ≤ cs.length) ∧
    (∀ cs v rest, parseObjectF fuel cs = some (v, rest) →
      jsize v + rest.length ≤ cs.length + 1) ∧
    (∀ cs fs rest, parseObjectItemsF fuel cs = some (fs, rest) →
      jsizeFields fs + rest.length ≤ cs.length) := by
  induction fuel with
  | zero =>
    refine ⟨?_, ?_, ?_, ?_, ?_⟩ <;> (intro cs x rest h; exact Option.noConfusion h)
  | succ fuel ih =>
    obtain ⟨ihv, iha, ihai, iho, ihoi⟩ := ih
    refine ⟨?_, ?_, ?_, ?_, ?_⟩
    · -- parseValueF
      intro cs v rest h
      simp only [parseValueF] at h
      have hsl := skipWs_length cs
      cases hsw : skipWs cs with
      | nil => rw [hsw] at h; exact Option.noConfusion h
      | cons c rest0 =>
        rw [hsw] at h hsl
        simp only [] at h
        simp only [List.length_cons] at hsl
        by_cases h1 : c = lbraceChar
        · rw [if_pos h1] at h
          have := iho rest0 v rest h
          omega
        · rw [if_neg h1] at h
          by_cases h2 : c = '['
          · rw [if_pos h2] at h
            have := iha rest0 v rest h
            omega
          · rw [if_neg h2] at h
            by_cases h3 : c = '"'
            · rw [if_pos h3] at h
              obtain ⟨⟨content, rest1⟩, hps, hpr⟩ := Option.map_eq_some'.mp h
              have hc := parseStringBody_consumes rest0 content rest1 hps
              rw [Prod.mk.injEq] at hpr
              obtain ⟨hv, hr⟩ := hpr
              subst hv; subst hr
              simp only [jsize]
              omega
            · rw [if_neg h3] at h
              by_cases h4 : c = 't'
              · rw [if_pos h4] at h
                split at h
                · rename_i rs heq
                  simp only [Option.some.injEq, Prod.mk.injEq] at h
                  obtain ⟨hv, hr⟩ := h
                  subst hv; subst hr
                  simp only [jsize, List.length_cons] at hsl ⊢
                  omega
                · exact Option.noConfusion h
              · rw [if_neg h4] at h
                by_cases h5 : c = 'f'
                · rw [if_pos h5] at h
                  split at h
                  · rename_i rs heq
                    simp only [Option.some.injEq, Prod.mk.injEq] at h
                    obtain ⟨hv, hr⟩ := h
                    subst hv; subst hr
                    simp only [jsize, List.length_cons] at hsl ⊢
                    omega
                  · exact Option.noConfusion h
                · rw [if_neg h5] at h
                  by_cases h6 : c = 'n'
                  · rw [if_pos h6] at h
                    split at h
                    · rename_i rs heq
                      simp only [Option.some.injEq, Prod.mk.injEq] at h
                      obtain ⟨hv, hr⟩ := h
                      subst hv; subst hr
                      simp only [jsize, List.length_cons] at hsl ⊢
                      omega
                    · exact Option.noConfusion h
                  · rw [if_neg h6] at h
                    obtain ⟨⟨n, rest1⟩, hps, hpr⟩ := Option.map_eq_some'.mp h
                    have hc := parseNumber_consumes (c :: rest0) n rest1 hps
                    rw [Prod.mk.injEq] at hpr
                    obtain ⟨hv, hr⟩ := hpr
                    subst hv; subst hr
                    simp only [jsize, List.length_cons] at hc ⊢
                    omega
    · -- parseArrayF
      intro cs v rest h
      simp only [parseArrayF] at h
      have hsl := skipWs_length cs
      cases hsw : skipWs cs with
      | nil => rw [hsw] at h; exact Option.noConfusion h
      | cons c rest0 =>
        rw [hsw] at h hsl
        simp only [] at h
        simp only [List.length_cons] at hsl
        by_cases h1 : c = ']'
        · rw [if_pos h1] at h
          simp only [Option.some.injEq, Prod.mk.injEq] at h
          obtain ⟨hv, hr⟩ := h
          subst hv; subst hr
          simp only [jsize, jsizeList]
          omega
        · rw [if_neg h1] at h
          obtain ⟨⟨vs, rest1⟩, hps, hpr⟩ := Option.map_eq_some'.mp h
          have hc := ihai (c :: rest0) vs rest1 hps
          rw [Prod.mk.injEq] at hpr
          obtain ⟨hv, hr⟩ := hpr
          subst hv; subst hr
          simp only [jsize, List.length_cons] at hc ⊢
          omega
    · -- parseArrayItemsF
      intro cs vs rest h
      simp only [parseArrayItemsF] at h
      cases hpv : parseValueF fuel cs with
      | none => rw [hpv] at h; exact Option.noConfusion h
      | some p =>
        rw [hpv] at h
        obtain ⟨v, rest1⟩ := p
        simp only [] at h
        have hv := ihv cs v rest1 hpv
        have hsl := skipWs_length rest1
        cases hsw : skipWs rest1 with
        | nil => rw [hsw] at h; exact Option.noConfusion h
        | cons c rs =>
          rw [hsw] at h hsl
          simp only [] at h
          simp only [List.length_cons] at hsl
          by_cases h1 : c = ','
          · rw [if_pos h1] at h
            cases hrec : parseArrayItemsF fuel rs with
            | none => rw [hrec] at h; exact Option.noConfusion h
            | some q =>
              rw [hrec] at h
              obtain ⟨vs2, rest2⟩ := q
              simp only [] at h
              simp only [Option.some.injEq, Prod.mk.injEq] at h
              obtain ⟨hvs, hr⟩ := h
              subst hvs; subst hr
              have := ihai rs vs2 rest2 hrec
              simp only [jsizeList]
              omega
          · rw [if_neg h1] at h
            by_cases h2 : c = ']'
            · rw [if_pos h2] at h
              simp only [Option.some.injEq, Prod.mk.injEq] at h
              obtain ⟨hvs, hr⟩ := h
              subst hvs; subst hr
              simp only [jsizeList]
              omega
            · rw [if_neg h2] at h
              exact Option.noConfusion h
    · -- parseObjectF
      intro cs v rest h
      simp only [parseObjectF] at h
      have hsl := skipWs_length cs
      cases hsw : skipWs cs with
      | nil => rw [hsw] at h; exact Option.noConfusion h
      | cons c rest0 =>
        rw [hsw] at h hsl
        simp only [] at h
        simp only [List.length_cons] at hsl
        by_cases h1 : c = rbraceChar
        · rw [if_pos h1] at h
          simp only [Option.some.injEq, Prod.mk.injEq] at h
          obtain ⟨hv, hr⟩ := h
          subst hv; subst hr
          simp only [jsize, jsizeFields]
          omega
        · rw [if_neg h1] at h
          obtain ⟨⟨fs, rest1⟩, hps, hpr⟩ := Option.map_eq_some'.mp h
          have hc := ihoi (c :: rest0) fs rest1 hps
          have hfold := jsizeFields_foldl_nil fs
          rw [Prod.mk.injEq] at hpr
          obtain ⟨hv, hr⟩ := hpr
          subst hv; subst hr
          simp only [jsize, List.length_cons] at hc ⊢
          omega
    · -- parseObjectItemsF
      intro cs fs rest h
      simp only [parseObjectItemsF] at h
      have hsl := skipWs_length cs
      cases hsw : skipWs cs with
      | nil => rw [hsw] at h; exact Option.noConfusion h
      | cons c rest0 =>
        rw [hsw] at h hsl
        simp only [] at h
        simp only [List.length_cons] at hsl
        by_cases h1 : c = '"'
        · rw [if_pos h1] at h
          cases hsb : parseStringBody rest0 with
          | none => rw [hsb] at h; exact Option.noConfusion h
          | some p =>
            rw [hsb] at h
            obtain ⟨keyChars, rest1⟩ := p
            simp only [] at h
            have hkc := parseStringBody_consumes rest0 keyChars rest1 hsb
            have hsl2 := skipWs_length rest1
            cases hsw2 : skipWs rest1 with
            | nil => rw [hsw2] at h; exact Option.noConfusion h
            | cons c2 rest2 =>
              rw [hsw2] at h hsl2
              simp only [] at h
              simp only [List.length_cons] at hsl2
              by_cases h2 : c2 = ':'
              · rw [if_pos h2] at h
                cases hpv : parseValueF fuel rest2 with
                | none => rw [hpv] at h; exact Option.noConfusion h
                | some q =>
                  rw [hpv] at h
                  obtain ⟨v, rest3⟩ := q
                  simp only [] at h
                  have hvc := ihv rest2 v rest3 hpv
                  have hsl3 := skipWs_length rest3
                  cases hsw3 : skipWs rest3 with
                  | nil => rw [hsw3] at h; exact Option.noConfusion h
                  | cons c3 rest4 =>
                    rw [hsw3] at h hsl3
                    simp only [] at h
                    simp only [List.length_cons] at hsl3
                    by_cases h3 : c3 = ','
                    · rw [if_pos h3] at h
                      cases hrec : parseObjectItemsF fuel rest4 with
                      | none => rw [hrec] at h; exact Option.noConfusion h
                      | some r =>
                        rw [hrec] at h
                        obtain ⟨fs2, rest5⟩ := r
                        simp only [] at h
                        simp only [Option.some.injEq, Prod.mk.injEq] at h
                        obtain ⟨hfs, hr⟩ := h
                        subst hfs; subst hr
                        have := ihoi rest4 fs2 rest5 hrec
                        simp only [jsizeFields]
                        omega
                    · rw [if_neg h3] at h
                      by_cases h4 : c3 = rbraceChar
                      · rw [if_pos h4] at h
                        simp only [Option.some.injEq, Prod.mk.injEq] at h
                        obtain ⟨hfs, hr⟩ := h
                        subst hfs; subst hr
                        simp only [jsizeFields]
                        omega
                      · rw [if_neg h4] at h
                        exact Option.noConfusion h
              · rw [if_neg h2] at h
                exact Option.noConfusion h
        · rw [if_neg h1] at h
          exact Option.noConfusion h


theorem jsStrLe_total (a b : String) : jsStrLe a b = true ∨ jsStrLe b a = true := by
  simp only [jsStrLe, decide_eq_true_eq]
  exact le_total _ _

theorem keysSortedB_tail (a : String) (l : List String)
    (h : keysSortedB (a :: l) = true) : keysSortedB l = true := by
  cases l with
  | nil => rfl
  | cons b rest =>
    simp only [keysSortedB, Bool.and_eq_true] at h
    exact h.2

theorem mem_insertByKey (x kv : String × Json) (l : List (String × Json))
    (h : x ∈ insertByKey kv l) : x = kv ∨ x ∈ l := by
  induction l with
  | nil => simp [insertByKey] at h; exact Or.inl h
  | cons kv2 rest ih =>
    rw [insertByKey] at h
    by_cases hle : jsStrLe kv.1 kv2.1 = true
    · rw [if_pos hle] at h
      rcases List.mem_cons.mp h with h2 | h2
      · exact Or.inl h2
      · exact Or.inr h2
    · rw [if_neg hle] at h
      rcases List.mem_cons.mp h with h2 | h2
      · exact Or.inr (by simp [h2])
      · rcases ih h2 with h3 | h3
        · exact Or.inl h3
        · exact Or.inr (List.mem_cons_of_mem _ h3)

theorem mem_sortFieldsByKey (x : String × Json) (fs : List (String × Json))
    (h : x ∈ sortFieldsByKey fs) : x ∈ fs := by
  induction fs with
  | nil => simp [sortFieldsByKey] at h
  | cons kv rest ih =>
    rcases mem_insertByKey x kv _ h with h2 | h2
    · simp [h2]
    · exact List.mem_cons_of_mem _ (ih h2)

theorem insertByKey_perm (kv : String × Json) (l : List (String × Json)) :
    (insertByKey kv l).Perm (kv :: l) := by
  induction l with
  | nil => simp [insertByKey]
  | cons kv2 rest ih =>
    rw [insertByKey]
    split
    · exact List.Perm.refl _
    · exact (ih.cons kv2).trans (List.Perm.swap kv kv2 rest)

theorem sortFieldsByKey_perm (fs : List (String × Json)) :
    (sortFieldsByKey fs).Perm fs := by
  induction fs with
  | nil => simp [sortFieldsByKey]
  | cons kv rest ih =>
    exact (insertByKey_perm kv (sortFieldsByKey rest)).trans (ih.cons kv)

theorem jsize_mem_list (x : Json) (xs : List Json) (h : x ∈ xs) :
    jsize x ≤ jsizeList xs := by
  induction xs with
  | nil => simp at h
  | cons y ys ih =>
    rcases List.mem_cons.mp h with h2 | h2
    · subst h2; simp only [jsizeList]; omega
    · have := ih h2; simp only [jsizeList]; omega

theorem jsize_mem_fields (kv : String × Json) (fs : List (String × Json))
    (h : kv ∈ fs) : jsize kv.2 ≤ jsizeFields fs := by
  induction fs with
  | nil => simp at h
  | cons kv2 rest ih =>
    rcases List.mem_cons.mp h with h2 | h2
    · subst h2; simp only [jsizeFields]; omega
    · have := ih h2; simp only [jsizeFields]; omega

theorem sortedDeepListB_iff (xs : List Json) :
    sortedDeepListB xs = true ↔ ∀ x ∈ xs, sortedDeepB x = true := by
  induction xs with
  | nil => simp [sortedDeepListB]
  | cons y ys ih => simp [sortedDeepListB, ih]

theorem sortedDeepFieldsB_iff (fs : List (String × Json)) :
    sortedDeepFieldsB fs = true ↔ ∀ kv ∈ fs, sortedDeepB kv.2 = true := by
  induction fs with
  | nil => simp [sortedDeepFieldsB]
  | cons kv rest ih => simp [sortedDeepFieldsB, ih]

theorem insertByKey_sorted (kv : String × Json) :
    ∀ l : List (String × Json), keysSortedB (l.map Prod.fst) = true →
      keysSortedB ((insertByKey kv l).map Prod.fst) = true ∧
      ∀ b, ((insertByKey kv l).map Prod.fst).head? = some b →
        b = kv.1 ∨ (l.map Prod.fst).head? = some b := by
  intro l
  induction l with
  | nil =>
    intro _
    refine ⟨by simp [insertByKey, keysSortedB], ?_⟩
    intro b hb
    simp only [insertByKey, List.map_cons, List.map_nil, List.head?_cons,
      Option.some.injEq] at hb
    exact Or.inl hb.symm
  | cons kv2 rest ih =>
    intro h
    rw [insertByKey]
    by_cases hle : jsStrLe kv.1 kv2.1 = true
    · rw [if_pos hle]
      refine ⟨?_, ?_⟩
      · simp only [List.map_cons, keysSortedB, hle, Bool.true_and]
        simpa using h
      · intro b hb
        simp only [List.map_cons, List.head?_cons, Option.some.injEq] at hb
        exact Or.inl hb.symm
    · rw [if_neg hle]
      have htail : keysSortedB (rest.map Prod.fst) = true :=
        keysSortedB_tail kv2.1 _ (by simpa using h)
      obtain ⟨hs, hh⟩ := ih htail
      constructor
      · cases hi : (insertByKey kv rest).map Prod.fst with
        | nil => simp [hi, keysSortedB]
        | cons b l2 =>
          rw [hi] at hs
          have hb : b = kv.1 ∨ (rest.map Prod.fst).head? = some b :=
            hh b (by rw [hi]; rfl)
          have hlink : jsStrLe kv2.1 b = true := by
            rcases hb with hb | hb
            · subst hb
              rcases jsStrLe_total kv.1 kv2.1 with hx | hx
              · exact absurd hx hle
              · exact hx
            · cases hrest : rest with
              | nil => rw [hrest] at hb; simp at hb
              | cons kv3 rest2 =>
                rw [hrest] at hb h
                simp only [List.map_cons, List.head?_cons, Option.some.injEq] at hb
                subst hb
                simp only [List.map_cons, keysSortedB, Bool.and_eq_true] at h
                exact h.1
          simp only [List.map_cons, hi, keysSortedB, Bool.and_eq_true]
          exact ⟨hlink, hs⟩
      · intro b hb
        right
        simp only [List.map_cons, List.head?_cons, Option.some.injEq] at hb ⊢
        exact hb

theorem sortFieldsByKey_sorted (fs : List (String × Json)) :
    keysSortedB ((sortFieldsByKey fs).map Prod.fst) = true := by
  induction fs with
  | nil => rfl
  | cons kv rest ih =>
    exact (insertByKey_sorted kv (sortFieldsByKey rest) ih).1

theorem mem_jsAssign (q kv : String × Json) (fs : List (String × Json))
    (h : q ∈ jsAssign fs kv) : q ∈ fs ∨ q.2 = kv.2 := by
  by_cases hany : fs.any (fun p => p.1 == kv.1) = true
  · unfold jsAssign at h
    rw [if_pos hany] at h
    obtain ⟨p, hp, hq⟩ := List.mem_map.mp h
    by_cases hk : (p.1 == kv.1) = true
    · rw [if_pos hk] at hq
      right
      rw [← hq]
    · rw [if_neg hk] at hq
      left
      rw [← hq]
      exact hp
  · have hperm := jsAssign_perm_fresh fs kv
      (by simp only [Bool.not_eq_true] at hany; exact hany)
    rcases List.mem_cons.mp (hperm.mem_iff.mp h) with heq | h2
    · right
      rw [heq]
    · exact Or.inl h2

theorem mem_foldl_jsAssign (raw : List (String × Json)) :
    ∀ (acc : List (String × Json)) (q : String × Json),
      q ∈ raw.foldl jsAssign acc → q ∈ acc ∨ ∃ kv ∈ raw, q.2 = kv.2 := by
  induction raw with
  | nil => intro acc q h; exact Or.inl h
  | cons kv rest ih =>
    intro acc q h
    rw [List.foldl_cons] at h
    rcases ih (jsAssign acc kv) q h with h2 | h2
    · rcases mem_jsAssign q kv acc h2 with h3 | h3
      · exact Or.inl h3
      · exact Or.inr ⟨kv, List.mem_cons_self _ _, h3⟩
    · obtain ⟨kv2, hkv2, hq⟩ := h2
      exact Or.inr ⟨kv2, List.mem_cons_of_mem _ hkv2, hq⟩

theorem jsStrLe_trans (a b c : String) (h1 : jsStrLe a b = true)
    (h2 : jsStrLe b c = true) : jsStrLe a c = true := by
  simp only [jsStrLe, decide_eq_true_eq] at h1 h2 ⊢
  exact le_trans h1 h2

theorem jsKeyLeB_trans (a b c : String) (h1 : jsKeyLeB a b = true)
    (h2 : jsKeyLeB b c = true) : jsKeyLeB a c = true := by
  unfold jsKeyLeB at h1 h2 ⊢
  rcases ha : keyIdx? a with _ | i <;> rcases hb : keyIdx? b with _ | j <;>
    rcases hc : keyIdx? c with _ | k <;>
    simp only [ha, hb, hc, decide_eq_true_eq, Bool.false_eq_true] at h1 h2 ⊢ <;>
    first
    | rfl
    | omega
    | exact jsStrLe_trans a b c h1 h2
    | exact h1.elim
    | exact h2.elim

theorem jsOrdPairB_trans (a b c : String) (h1 : jsOrdPairB a b = true)
    (h2 : jsOrdPairB b c = true) : jsOrdPairB a c = true := by
  unfold jsOrdPairB at h1 h2 ⊢
  rcases ha : keyIdx? a with _ | i <;> rcases hb : keyIdx? b with _ | j <;>
    rcases hc : keyIdx? c with _ | k <;>
    simp only [ha, hb, hc, decide_eq_true_eq, Bool.false_eq_true] at h1 h2 ⊢ <;>
    first
    | rfl
    | omega
    | exact h1.elim
    | exact h2.elim

theorem jsOrdPairB_none_right (a b : String) (h : keyIdx? b = none) :
    jsOrdPairB a b = true := by
  unfold jsOrdPairB
  rcases ha : keyIdx? a with _ | i <;> simp only [ha, h]

theorem keysSortedB_pairwise :
    ∀ ks : List String, keysSortedB ks = true →
      List.Pairwise (fun a b => jsStrLe a b = true) ks := by
  intro ks
  induction ks with
  | nil => intro _; exact List.Pairwise.nil
  | cons a t ih =>
    intro h
    cases t with
    | nil => exact List.pairwise_singleton _ _
    | cons b r =>
      simp only [keysSortedB, Bool.and_eq_true] at h
      have hp := ih h.2
      rw [List.pairwise_cons]
      refine ⟨?_, hp⟩
      intro c hc
      rcases List.mem_cons.mp hc with rfl | hc2
      · exact h.1
      · exact jsStrLe_trans a b c h.1 ((List.pairwise_cons.mp hp).1 c hc2)

theorem jsSortedKeysB_iff_pairwise :
    ∀ ks : List String, jsSortedKeysB ks = true ↔
      List.Pairwise (fun a b => jsKeyLeB a b = true) ks := by
  intro ks
  induction ks with
  | nil => simp [jsSortedKeysB]
  | cons a t ih =>
    cases t with
    | nil => simp [jsSortedKeysB]
    | cons b r =>
      simp only [jsSortedKeysB, Bool.and_eq_true, ih]
      constructor
      · rintro ⟨h1, hp⟩
        rw [List.pairwise_cons]
        refine ⟨?_, hp⟩
        intro c hc
        rcases List.mem_cons.mp hc with rfl | hc2
        · exact h1
        · exact jsKeyLeB_trans a b c h1 ((List.pairwise_cons.mp hp).1 c hc2)
      · intro hp
        rw [List.pairwise_cons] at hp
        exact ⟨hp.1 b (by simp), hp.2⟩

theorem enumOrderedKeysB_iff_pairwise :
    ∀ ks : List String, enumOrderedKeysB ks = true ↔
      List.Pairwise (fun a b => jsOrdPairB a b = true) ks := by
  intro ks
  induction ks with
  | nil => simp [enumOrderedKeysB]
  | cons a t ih =>
    cases t with
    | nil => simp [enumOrderedKeysB]
    | cons b r =>
      simp only [enumOrderedKeysB, Bool.and_eq_true, ih]
      constructor
      · rintro ⟨h1, hp⟩
        rw [List.pairwise_cons]
        refine ⟨?_, hp⟩
        intro c hc
        rcases List.mem_cons.mp hc with rfl | hc2
        · exact h1
        · exact jsOrdPairB_trans a b c h1 ((List.pairwise_cons.mp hp).1 c hc2)
      · intro hp
        rw [List.pairwise_cons] at hp
        exact ⟨hp.1 b (by simp), hp.2⟩

theorem idxInsert_pairwise (R : String → String → Bool) (kv : String × Json) (n : Nat)
    (hk : keyIdx? kv.1 = some n)
    (hss : ∀ a b i j, keyIdx? a = some i → keyIdx? b = some j → i ≤ j → R a b = true)
    (hinv : ∀ a b i j, keyIdx? a = some i → keyIdx? b = some j → R a b = true → i ≤ j)
    (hsn : ∀ a b i, keyIdx? a = some i → keyIdx? b = none → R a b = true)
    (hns : ∀ a b j, keyIdx? a = none → keyIdx? b = some j → R a b = false) :
    ∀ l : List (String × Json),
      List.Pairwise (fun a b => R a b = true) (l.map Prod.fst) →
      List.Pairwise (fun a b => R a b = true) ((idxInsert n kv l).map Prod.fst) := by
  intro l
  induction l with
  | nil =>
    intro _
    rw [idxInsert]
    exact List.pairwise_singleton _ _
  | cons q rest ih =>
    intro h
    rw [List.map_cons, List.pairwise_cons] at h
    obtain ⟨hq_all, hrest⟩ := h
    rw [idxInsert]
    cases hq : keyIdx? q.1 with
    | some m =>
      simp only []
      by_cases hle : m ≤ n
      · rw [if_pos hle]
        rw [List.map_cons, List.pairwise_cons]
        refine ⟨?_, ih hrest⟩
        intro b hb
        obtain ⟨p, hp, hpb⟩ := List.mem_map.mp hb
        rcases List.mem_cons.mp ((idxInsert_perm n kv rest).mem_iff.mp hp) with heq | h2
        · rw [← hpb, heq]
          exact hss q.1 kv.1 m n hq hk hle
        · exact hq_all b (hpb ▸ List.mem_map.mpr ⟨p, h2, rfl⟩)
      · rw [if_neg hle]
        rw [List.map_cons, List.map_cons, List.pairwise_cons]
        constructor
        · intro b hb
          rcases List.mem_cons.mp hb with rfl | hb2
          · exact hss kv.1 q.1 n m hk hq (by omega)
          · cases hcb : keyIdx? b with
            | some k =>
              have hmk := hinv q.1 b m k hq hcb (hq_all b hb2)
              exact hss kv.1 b n k hk hcb (by omega)
            | none => exact hsn kv.1 b n hk hcb
        · rw [List.pairwise_cons]
          exact ⟨hq_all, hrest⟩
    | none =>
      rw [List.map_cons, List.map_cons, List.pairwise_cons]
      constructor
      · intro b hb
        rcases List.mem_cons.mp hb with rfl | hb2
        · exact hsn kv.1 q.1 n hk hq
        · cases hcb : keyIdx? b with
          | some k =>
            have := hns q.1 b k hq hcb
            rw [hq_all b hb2] at this
            exact Bool.noConfusion this
          | none => exact hsn kv.1 b n hk hcb
      · rw [List.pairwise_cons]
        exact ⟨hq_all, hrest⟩

theorem jsOrdPairB_ss (a b : String) (i j : Nat) (ha : keyIdx? a = some i)
    (hb : keyIdx? b = some j) (hij : i ≤ j) : jsOrdPairB a b = true := by
  unfold jsOrdPairB
  simp [ha, hb, hij]

theorem jsOrdPairB_inv (a b : String) (i j : Nat) (ha : keyIdx? a = some i)
    (hb : keyIdx? b = some j) (h : jsOrdPairB a b = true) : i ≤ j := by
  unfold jsOrdPairB at h
  simp [ha, hb] at h
  exact h

theorem jsOrdPairB_sn (a b : String) (i : Nat) (ha : keyIdx? a = some i)
    (hb : keyIdx? b = none) : jsOrdPairB a b = true := by
  unfold jsOrdPairB
  simp [ha, hb]

theorem jsOrdPairB_ns (a b : String) (j : Nat) (ha : keyIdx? a = none)
    (hb : keyIdx? b = some j) : jsOrdPairB a b = false := by
  unfold jsOrdPairB
  simp [ha, hb]

theorem jsKeyLeB_ss (a b : String) (i j : Nat) (ha : keyIdx? a = some i)
    (hb : keyIdx? b = some j) (hij : i ≤ j) : jsKeyLeB a b = true := by
  unfold jsKeyLeB
  simp [ha, hb, hij]

theorem jsKeyLeB_inv (a b : String) (i j : Nat) (ha : keyIdx? a = some i)
    (hb : keyIdx? b = some j) (h : jsKeyLeB a b = true) : i ≤ j := by
  unfold jsKeyLeB at h
  simp [ha, hb] at h
  exact h

theorem jsKeyLeB_sn (a b : String) (i : Nat) (ha : keyIdx? a = some i)
    (hb : keyIdx? b = none) : jsKeyLeB a b = true := by
  unfold jsKeyLeB
  simp [ha, hb]

theorem jsKeyLeB_ns (a b : String) (j : Nat) (ha : keyIdx? a = none)
    (hb : keyIdx? b = some j) : jsKeyLeB a b = false := by
  unfold jsKeyLeB
  simp [ha, hb]

theorem jsAssign_pairwise_ord (fs : List (String × Json)) (kv : String × Json)
    (h : List.Pairwise (fun a b => jsOrdPairB a b = true) (fs.map Prod.fst)) :
    List.Pairwise (fun a b => jsOrdPairB a b = true) ((jsAssign fs kv).map Prod.fst) := by
  by_cases hany : fs.any (fun p => p.1 == kv.1) = true
  · unfold jsAssign
    rw [if_pos hany, map_update_keys]
    exact h
  · unfold jsAssign
    rw [if_neg hany]
    cases hk : keyIdx? kv.1 with
    | some n =>
      exact idxInsert_pairwise jsOrdPairB kv n hk jsOrdPairB_ss jsOrdPairB_inv
        jsOrdPairB_sn jsOrdPairB_ns fs h
    | none =>
      rw [List.map_append]
      rw [List.pairwise_append]
      refine ⟨h, by simp, ?_⟩
      intro a ha b hb
      simp only [List.map_cons, List.map_nil, List.mem_singleton] at hb
      subst hb
      exact jsOrdPairB_none_right a kv.1 hk

theorem foldl_jsAssign_pairwise_ord (fs : List (String × Json)) :
    ∀ acc : List (String × Json),
      List.Pairwise (fun a b => jsOrdPairB a b = true) (acc.map Prod.fst) →
      List.Pairwise (fun a b => jsOrdPairB a b = true)
        ((fs.foldl jsAssign acc).map Prod.fst) := by
  induction fs with
  | nil => intro acc h; exact h
  | cons kv rest ih =>
    intro acc h
    rw [List.foldl_cons]
    exact ih (jsAssign acc kv) (jsAssign_pairwise_ord acc kv h)

theorem foldl_assign_sortedKeys (fs : List (String × Json)) :
    ∀ acc : List (String × Json),
      List.Pairwise (fun a b => jsKeyLeB a b = true) (acc.map Prod.fst) →
      (∀ a ∈ acc.map Prod.fst, keyIdx? a = none →
        ∀ kv ∈ fs, jsStrLe a kv.1 = true) →
      List.Pairwise (fun a b => jsStrLe a b = true) (fs.map Prod.fst) →
      List.Pairwise (fun a b => jsKeyLeB a b = true)
        ((fs.foldl jsAssign acc).map Prod.fst) := by
  induction fs with
  | nil => intro acc h _ _; exact h
  | cons kv rest ih =>
    intro acc hacc hbound hin
    rw [List.map_cons, List.pairwise_cons] at hin
    obtain ⟨hkv_all, hrest⟩ := hin
    rw [List.foldl_cons]
    have hstep : List.Pairwise (fun a b => jsKeyLeB a b = true)
        ((jsAssign acc kv).map Prod.fst) ∧
        (∀ a ∈ (jsAssign acc kv).map Prod.fst, keyIdx? a = none →
          ∀ q ∈ rest, jsStrLe a q.1 = true) := by
      by_cases hany : acc.any (fun p => p.1 == kv.1) = true
      · constructor
        · unfold jsAssign
          rw [if_pos hany, map_update_keys]
          exact hacc
        · intro a ha hnone q hq
          unfold jsAssign at ha
          rw [if_pos hany, map_update_keys] at ha
          exact hbound a ha hnone q (List.mem_cons_of_mem _ hq)
      · have hfresh : (jsAssign acc kv).Perm (kv :: acc) :=
          jsAssign_perm_fresh acc kv (by simp only [Bool.not_eq_true] at hany; exact hany)
        constructor
        · unfold jsAssign
          rw [if_neg hany]
          cases hk : keyIdx? kv.1 with
          | some n =>
            exact idxInsert_pairwise jsKeyLeB kv n hk jsKeyLeB_ss jsKeyLeB_inv
              jsKeyLeB_sn jsKeyLeB_ns acc hacc
          | none =>
            rw [List.map_append, List.pairwise_append]
            refine ⟨hacc, by simp, ?_⟩
            intro a ha b hb
            simp only [List.map_cons, List.map_nil, List.mem_singleton] at hb
            subst hb
            cases hca : keyIdx? a with
            | some i => exact jsKeyLeB_sn a kv.1 i hca hk
            | none =>
              show jsKeyLeB a kv.1 = true
              unfold jsKeyLeB
              rw [hca, hk]
              exact hbound a ha hca kv (by simp)
        · intro a ha hnone q hq
          obtain ⟨p, hp, hpa⟩ := List.mem_map.mp ha
          rcases List.mem_cons.mp (hfresh.mem_iff.mp hp) with heq | h2
          · rw [← hpa, heq]
            exact hkv_all q.1 (List.mem_map.mpr ⟨q, hq, rfl⟩)
          · exact hbound a (hpa ▸ List.mem_map.mpr ⟨p, h2, rfl⟩) hnone q
              (List.mem_cons_of_mem _ hq)
    exact ih (jsAssign acc kv) hstep.1 hstep.2 hrest


theorem deepSortF_sorted :
    ∀ (fuel : Nat) (v : Json), jsize v ≤ fuel →
      sortedDeepB (deepSortF fuel v) = true := by
  intro fuel
  induction fuel with
  | zero =>
    intro v h
    have := jsize_pos v
    omega
  | succ fuel ih =>
    intro v h
    cases v with
    | null => rfl
    | bool b => cases b <;> rfl
    | num n => rfl
    | str s => rfl
    | arr xs =>
      have hsz : jsizeList xs ≤ fuel := by
        simp only [jsize] at h; omega
      show sortedDeepB (deepSortF (fuel+1) (Json.arr xs)) = true
      have hred : deepSortF (fuel+1) (Json.arr xs) = Json.arr (xs.map (deepSortF fuel)) := rfl
      rw [hred]
      show sortedDeepListB (xs.map (deepSortF fuel)) = true
      rw [sortedDeepListB_iff]
      intro y hy
      obtain ⟨x, hx, rfl⟩ := List.mem_map.mp hy
      exact ih x (le_trans (jsize_mem_list x xs hx) hsz)
    | obj fs =>
      have hsz : jsizeFields fs ≤ fuel := by
        simp only [jsize] at h; omega
      have hred : deepSortF (fuel+1) (Json.obj fs) =
          Json.obj (((sortFieldsByKey fs).foldl jsAssign []).map
            (fun kv => (kv.1, deepSortF fuel kv.2))) := rfl
      rw [hred]
      show (jsSortedKeysB ((((sortFieldsByKey fs).foldl jsAssign []).map
            (fun kv => (kv.1, deepSortF fuel kv.2))).map Prod.fst) &&
          sortedDeepFieldsB (((sortFieldsByKey fs).foldl jsAssign []).map
            (fun kv => (kv.1, deepSortF fuel kv.2)))) = true
      rw [Bool.and_eq_true]
      constructor
      · have hkeys : ((((sortFieldsByKey fs).foldl jsAssign []).map
            (fun kv => (kv.1, deepSortF fuel kv.2))).map Prod.fst) =
            ((sortFieldsByKey fs).foldl jsAssign []).map Prod.fst := by
          rw [List.map_map]
          apply List.map_congr_left
          intro kv _
          rfl
        rw [hkeys]
        rw [jsSortedKeysB_iff_pairwise]
        apply foldl_assign_sortedKeys (sortFieldsByKey fs) []
        · exact List.Pairwise.nil
        · intro a ha
          simp at ha
        · exact keysSortedB_pairwise _ (sortFieldsByKey_sorted fs)
      · rw [sortedDeepFieldsB_iff]
        intro kv2 hkv2
        obtain ⟨kv, hkv, rfl⟩ := List.mem_map.mp hkv2
        rcases mem_foldl_jsAssign (sortFieldsByKey fs) [] kv hkv with hin | hin
        · simp at hin
        · obtain ⟨kv3, hkv3, hval⟩ := hin
          have hmem := mem_sortFieldsByKey kv3 fs hkv3
          rw [hval]
          exact ih kv3.2 (le_trans (jsize_mem_fields kv3 fs hmem) hsz)

theorem serialize_sort_eq :
    ∀ (fuel gap depth : Nat) (v : Json),
      serializeCharsF fuel (some sortObjectKeys) gap depth v =
        serializeCharsF fuel none gap depth (deepSortF fuel v) := by
  intro fuel
  induction fuel with
  | zero => intro gap depth v; rfl
  | succ fuel ih =>
    intro gap depth v
    cases hv : sortObjectKeys v with
    | null =>
      have hds : deepSortF (fuel+1) v = Json.null := by
        simp only [deepSortF, hv]
      rw [hds]
      simp only [serializeCharsF, hv]
    | bool b =>
      have hds : deepSortF (fuel+1) v = Json.bool b := by
        simp only [deepSortF, hv]
      rw [hds]
      simp only [serializeCharsF, hv]
    | num n =>
      have hds : deepSortF (fuel+1) v = Json.num n := by
        simp only [deepSortF, hv]
      rw [hds]
      simp only [serializeCharsF, hv]
    | str s =>
      have hds : deepSortF (fuel+1) v = Json.str s := by
        simp only [deepSortF, hv]
      rw [hds]
      simp only [serializeCharsF, hv]
    | arr xs =>
      cases xs with
      | nil =>
        have hds : deepSortF (fuel+1) v = Json.arr [] := by
          simp only [deepSortF, hv, List.map_nil]
        rw [hds]
        simp only [serializeCharsF, hv]
      | cons x xs2 =>
        have hds : deepSortF (fuel+1) v =
            Json.arr (deepSortF fuel x :: xs2.map (deepSortF fuel)) := by
          simp only [deepSortF, hv, List.map_cons]
        rw [hds]
        have hmap0 : (deepSortF fuel x :: xs2.map (deepSortF fuel)).map
              (serializeCharsF fuel none gap (depth+1)) =
            (x :: xs2).map (serializeCharsF fuel (some sortObjectKeys) gap (depth+1)) := by
          rw [← List.map_cons (deepSortF fuel), List.map_map]
          apply List.map_congr_left
          intro y _
          simp only [Function.comp_apply]
          exact (ih gap (depth+1) y).symm
        have hmap1 : (deepSortF fuel x :: xs2.map (deepSortF fuel)).map
              (fun y => indentChars gap (depth+1) ++
                serializeCharsF fuel none gap (depth+1) y) =
            (x :: xs2).map (fun y => indentChars gap (depth+1) ++
              serializeCharsF fuel (some sortObjectKeys) gap (depth+1) y) := by
          rw [← List.map_cons (deepSortF fuel), List.map_map]
          apply List.map_congr_left
          intro y _
          simp only [Function.comp_apply]
          rw [ih gap (depth+1) y]
        simp only [serializeCharsF, hv]
        by_cases hg : gap = 0
        · simp only [if_pos hg, hmap0]
        · simp only [if_neg hg, hmap1]
    | obj fs =>
      cases fs with
      | nil =>
        have hds : deepSortF (fuel+1) v = Json.obj [] := by
          simp only [deepSortF, hv, List.map_nil]
        rw [hds]
        simp only [serializeCharsF, hv]
      | cons kv fs2 =>
        have hds : deepSortF (fuel+1) v =
            Json.obj ((kv.1, deepSortF fuel kv.2) ::
              fs2.map (fun q => (q.1, deepSortF fuel q.2))) := by
          simp only [deepSortF, hv, List.map_cons]
        rw [hds]
        have hmap0 : ((kv.1, deepSortF fuel kv.2) ::
              fs2.map (fun q => (q.1, deepSortF fuel q.2))).map
              (fun q => quoteChars q.1 ++ ':' ::
                serializeCharsF fuel none gap (depth+1) q.2) =
            (kv :: fs2).map (fun q => quoteChars q.1 ++ ':' ::
              serializeCharsF fuel (some sortObjectKeys) gap (depth+1) q.2) := by
          rw [show ((kv.1, deepSortF fuel kv.2) ::
              fs2.map (fun q => (q.1, deepSortF fuel q.2))) =
              (kv :: fs2).map (fun q => (q.1, deepSortF fuel q.2)) from rfl]
          rw [List.map_map]
          apply List.map_congr_left
          intro q _
          simp only [Function.comp_apply]
          rw [ih gap (depth+1) q.2]
        have hmap1 : ((kv.1, deepSortF fuel kv.2) ::
              fs2.map (fun q => (q.1, deepSortF fuel q.2))).map
              (fun q => indentChars gap (depth+1) ++ quoteChars q.1 ++ ':' :: ' ' ::
                serializeCharsF fuel none gap (depth+1) q.2) =
            (kv :: fs2).map (fun q => indentChars gap (depth+1) ++ quoteChars q.1 ++
              ':' :: ' ' ::
              serializeCharsF fuel (some sortObjectKeys) gap (depth+1) q.2) := by
          rw [show ((kv.1, deepSortF fuel kv.2) ::
              fs2.map (fun q => (q.1, deepSortF fuel q.2))) =
              (kv :: fs2).map (fun q => (q.1, deepSortF fuel q.2)) from rfl]
          rw [List.map_map]
          apply List.map_congr_left
          intro q _
          simp only [Function.comp_apply]
          rw [ih gap (depth+1) q.2]
        simp only [serializeCharsF, hv]
        by_cases hg : gap = 0
        · simp only [if_pos hg, hmap0]
        · simp only [if_neg hg, hmap1]

theorem jsonParse_size (t : String) (v : Json) (h : jsonParse t = some v) :
    jsize v ≤ t.data.length := by
  unfold jsonParse at h
  cases hp : parseValueF (3 * t.data.length + 1) t.data with
  | none => rw [hp] at h; exact Option.noConfusion h
  | some p =>
    rw [hp] at h
    obtain ⟨w, rest⟩ := p
    have hc := (parse_consumes (3 * t.data.length + 1)).1 t.data w rest hp
    simp only [] at h
    split at h
    · simp only [Option.some.injEq] at h
      subst h
      omega
    · exact Option.noConfusion h

theorem validateJson_data_size (s : String) (e : Option ValidationError) (data : Json)
    (h : validateJson (some s) = ⟨true, e, some data⟩) :
    jsize data ≤ (jsTrim s).data.length := by
  unfold validateJson at h
  simp only [] at h
  by_cases h1 : s = ""
  · rw [if_pos h1] at h; simp at h
  · rw [if_neg h1] at h
    by_cases h2 : jsUtf16Length s > MAX_FILE_SIZE
    · rw [if_pos h2] at h; simp at h
    · rw [if_neg h2] at h
      by_cases h3 : jsTrim s = ""
      · rw [if_pos h3] at h; simp at h
      · rw [if_neg h3] at h
        cases hp : jsonParse (jsTrim s) with
        | none => rw [hp] at h; simp at h
        | some v =>
          rw [hp] at h
          have hd : v = data := by
            have := congrArg JsonValidationResult.data h
            simpa using this
          subst hd
          exact jsonParse_size _ _ hp

/-- Counterexample to C3's general clause: with `sortKeys` set, object
keys are not sorted lexicographically when integer-like keys are present.
The output for `'\x7b"10":1,"2":2\x7d'` lists `"2"` before `"10"` (JS
ordinary objects enumerate integer-like keys in ascending numeric order
first), although `"10"` precedes `"2"` in the UTF-16 lexicographic order
used by `Array.prototype.sort`. -/
theorem formatJson_sortKeys_not_lexicographic :
    formatJson (some "\x7b\"10\":1,\"2\":2\x7d") 4 true =
      some "\x7b\n    \"2\": 2,\n    \"10\": 1\n\x7d" ∧
    jsStrLe "10" "2" = true ∧ jsStrLe "2" "10" = false :=
  ⟨by rfl, by rfl, by rfl⟩

/-- C3 (amended): for input `'\x7b"b":2,"a":1\x7d'`, `formatJson` with
indent 4 and `sortKeys = false` returns the pretty form in insertion
order, and with `sortKeys = true` the form with keys sorted; in general
the `sortKeys` output is exactly the plain pretty-print of the deep
key-sort of the parsed value, and at every nesting level that value's
keys are in the enumeration order of the replacer's freshly built object:
integer-like keys first in ascending numeric order, then the remaining
keys in UTF-16 lexicographic order (so purely lexicographic only when no
integer-like key is present — see the counterexample); the per-object
sorted insertion is a permutation of the fields. -/
theorem formatJson_sortKeys_deep :
    formatJson (some "\x7b\"b\":2,\"a\":1\x7d") 4 false =
      some "\x7b\n    \"b\": 2,\n    \"a\": 1\n\x7d" ∧
    formatJson (some "\x7b\"b\":2,\"a\":1\x7d") 4 true =
      some "\x7b\n    \"a\": 1,\n    \"b\": 2\n\x7d" ∧
    (∀ (s : String) (ind : Nat) (e : Option ValidationError) (data : Json),
      validateJson (some s) = ⟨true, e, some data⟩ →
      formatJson (some s) ind true =
        some (jsonStringifyF (textFuel s) none ind (deepSortF (textFuel s) data)) ∧
      sortedDeepB (deepSortF (textFuel s) data) = true) ∧
    (∀ fs : List (String × Json), (sortFieldsByKey fs).Perm fs) := by
  refine ⟨by rfl, by rfl, ?_, sortFieldsByKey_perm⟩
  intro s ind e data h
  constructor
  · have hfmt : formatJson (some s) ind true =
        some (jsonStringifyF (textFuel s) (some sortObjectKeys) ind data) := by
      unfold formatJson
      rw [h]
      simp only [if_pos rfl, if_true]
    rw [hfmt]
    unfold jsonStringifyF
    rw [serialize_sort_eq]
  · apply deepSortF_sorted
    have h1 := validateJson_data_size s e data h
    unfold textFuel
    omega

/-- Concrete instantiation of the general `sortKeys` characterization at
the scenario input. -/
theorem formatJson_sortKeys_deep_witness :
    validateJson (some "\x7b\"b\":2,\"a\":1\x7d") =
      ⟨true, none, some (Json.obj [("b", Json.num 2), ("a", Json.num 1)])⟩ ∧
    (formatJson (some "\x7b\"b\":2,\"a\":1\x7d") 4 true =
        some (jsonStringifyF (textFuel "\x7b\"b\":2,\"a\":1\x7d") none 4
          (deepSortF (textFuel "\x7b\"b\":2,\"a\":1\x7d")
            (Json.obj [("b", Json.num 2), ("a", Json.num 1)]))) ∧
      sortedDeepB (deepSortF (textFuel "\x7b\"b\":2,\"a\":1\x7d")
        (Json.obj [("b", Json.num 2), ("a", Json.num 1)])) = true) :=
  ⟨by rfl, formatJson_sortKeys_deep.2.2.1 "\x7b\"b\":2,\"a\":1\x7d" 4 none
    (Json.obj [("b", Json.num 2), ("a", Json.num 1)]) (by rfl)⟩


theorem digitChr_isDigit (m : Nat) (h : m < 10) : (digitChr m).isDigit = true := by
  interval_cases m <;> decide

theorem digitVal_digitChr (m : Nat) (h : m < 10) : digitVal (digitChr m) = m := by
  interval_cases m <;> decide

theorem digitsToNat_append_one (ds : List Char) (c : Char) :
    digitsToNat (ds ++ [c]) = 10 * digitsToNat ds + digitVal c := by
  unfold digitsToNat
  rw [List.foldl_append]
  simp [List.foldl_cons]
  omega

theorem natDigitsF_spec :
    ∀ (fuel n : Nat), n < fuel →
      1 ≤ (natDigitsF fuel n).length ∧
      (∀ c ∈ natDigitsF fuel n, c.isDigit = true) ∧
      digitsToNat (natDigitsF fuel n) = n ∧
      (∀ c, (natDigitsF fuel n).head? = some c → c = '0' → n = 0) := by
  intro fuel
  induction fuel with
  | zero => intro n h; omega
  | succ fuel ih =>
    intro n h
    by_cases hn : n < 10
    · rw [natDigitsF, if_pos hn]
      refine ⟨by simp, ?_, ?_, ?_⟩
      · intro c hc
        simp only [List.mem_singleton] at hc
        subst hc
        exact digitChr_isDigit n hn
      · simp only [digitsToNat, List.foldl_cons, List.foldl_nil]
        rw [digitVal_digitChr n hn]
        omega
      · intro c hc hc0
        simp only [List.head?_cons, Option.some.injEq] at hc
        subst hc
        interval_cases n <;> first | rfl | exact absurd hc0 (by decide)
    · rw [natDigitsF, if_neg hn]
      have hdiv : n / 10 < fuel := by omega
      obtain ⟨hlen, hdig, hval, hhead⟩ := ih (n / 10) hdiv
      refine ⟨by simp, ?_, ?_, ?_⟩
      · intro c hc
        rcases List.mem_append.mp hc with hc | hc
        · exact hdig c hc
        · simp only [List.mem_singleton] at hc
          subst hc
          exact digitChr_isDigit _ (Nat.mod_lt _ (by omega))
      · rw [digitsToNat_append_one, hval, digitVal_digitChr _ (Nat.mod_lt _ (by omega))]
        omega
      · intro c hc hc0
        cases hds : natDigitsF fuel (n / 10) with
        | nil => rw [hds] at hlen; simp at hlen
        | cons d ds =>
          rw [hds] at hc
          simp only [List.cons_append, List.head?_cons, Option.some.injEq] at hc
          have hd0 : d = '0' := by
            rw [hc]
            exact hc0
          have := hhead d (by rw [hds]; rfl) hd0
          omega

theorem takeDigits_of_digits :
    ∀ (ds rest : List Char), (∀ c ∈ ds, c.isDigit = true) →
      (∀ c, rest.head? = some c → c.isDigit = false) →
      takeDigits (ds ++ rest) = (ds, rest) := by
  intro ds
  induction ds with
  | nil =>
    intro rest _ hrest
    cases rest with
    | nil => rfl
    | cons r rs =>
      rw [List.nil_append, takeDigits]
      simp [hrest r rfl]
  | cons d ds2 ih =>
    intro rest hds hrest
    rw [List.cons_append, takeDigits]
    have hd : d.isDigit = true := hds d (List.mem_cons_self _ _)
    rw [if_pos hd]
    simp only []
    rw [ih rest (fun c hc => hds c (List.mem_cons_of_mem _ hc)) hrest]

theorem numDelimB_head (rest : List Char) (h : numDelimB rest = true) :
    (∀ c, rest.head? = some c → c.isDigit = false) ∧ startsFracOrExp rest = false := by
  cases rest with
  | nil => exact ⟨by intro c hc; simp at hc, rfl⟩
  | cons r rs =>
    simp only [numDelimB, Bool.not_eq_true', Bool.or_eq_false_iff,
      decide_eq_false_iff_not] at h
    obtain ⟨⟨⟨hdg, hdot⟩, he⟩, hE⟩ := h
    refine ⟨?_, ?_⟩
    · intro c hc
      simp only [List.head?_cons, Option.some.injEq] at hc
      subst hc
      exact hdg
    · simp [startsFracOrExp, hdot, he, hE]

theorem parseNumber_roundtrip (n : Int) (rest : List Char)
    (hrest : numDelimB rest = true) :
    parseNumber (intChars n ++ rest) = some (n, rest) := by
  obtain ⟨hnd, hfe⟩ := numDelimB_head rest hrest
  by_cases hn : n < 0
  · obtain ⟨hlen, hdig, hval, hhead⟩ := natDigitsF_spec (n.natAbs + 1) n.natAbs (by omega)
    have hlen2 : 1 ≤ (natDigits n.natAbs).length := hlen
    have hdig2 : ∀ c ∈ natDigits n.natAbs, c.isDigit = true := hdig
    have hval2 : digitsToNat (natDigits n.natAbs) = n.natAbs := hval
    have hhead2 : ∀ c, (natDigits n.natAbs).head? = some c → c = '0' → n.natAbs = 0 := hhead
    have htd := takeDigits_of_digits (natDigits n.natAbs) rest hdig2 hnd
    unfold parseNumber
    rw [intChars, if_pos hn, List.cons_append]
    have hsign : numSign ('-' :: (natDigits n.natAbs ++ rest)) =
        (true, natDigits n.natAbs ++ rest) := by
      simp [numSign]
    rw [hsign]
    simp only []
    cases hds : natDigits n.natAbs with
    | nil => rw [hds] at hlen2; simp at hlen2
    | cons d ds =>
      rw [hds] at htd hval2 hhead2
      rw [htd]
      have hd0 : ¬ d = '0' := by
        intro h0
        have := hhead2 d rfl h0
        omega
      rw [if_neg (by simp), if_neg (by simp [hd0]), if_neg (by simp [hfe])]
      simp only [eq_self_iff_true, if_true, Option.some.injEq, Prod.mk.injEq]
      refine ⟨?_, by trivial⟩
      rw [hval2]
      omega
  · obtain ⟨hlen, hdig, hval, hhead⟩ := natDigitsF_spec (n.toNat + 1) n.toNat (by omega)
    have hlen2 : 1 ≤ (natDigits n.toNat).length := hlen
    have hdig2 : ∀ c ∈ natDigits n.toNat, c.isDigit = true := hdig
    have hval2 : digitsToNat (natDigits n.toNat) = n.toNat := hval
    have hhead2 : ∀ c, (natDigits n.toNat).head? = some c → c = '0' → n.toNat = 0 := hhead
    have htd := takeDigits_of_digits (natDigits n.toNat) rest hdig2 hnd
    unfold parseNumber
    rw [intChars, if_neg hn]
    cases hds : natDigits n.toNat with
    | nil => rw [hds] at hlen2; simp at hlen2
    | cons d ds =>
      rw [hds] at htd hval2 hhead2 hdig2
      have hdd : d.isDigit = true := hdig2 d (List.mem_cons_self _ _)
      have hdm : ¬ d = '-' := by
        intro h0
        rw [h0] at hdd
        exact absurd hdd (by decide)
      have hsign : numSign ((d :: ds) ++ rest) = (false, (d :: ds) ++ rest) := by
        simp [numSign, hdm]
      rw [hsign]
      simp only []
      rw [htd]
      have hlz : ¬((decide ((d :: ds).length ≥ 2) && decide ((d :: ds).headD ' ' = '0')) = true) := by
        simp only [Bool.and_eq_true, decide_eq_true_eq, not_and]
        intro h2 h0
        simp only [List.headD_cons] at h0
        have hz := hhead2 d rfl h0
        rw [hz] at hds
        have hd1 : natDigits 0 = ['0'] := rfl
        rw [hd1] at hds
        have hnil : ds = [] := by
          injection hds with ha hb
          exact hb.symm
        rw [hnil] at h2
        simp at h2
      rw [if_neg (by simp), if_neg hlz, if_neg (by simp [hfe])]
      simp only [Bool.false_eq_true, if_false, Option.some.injEq, Prod.mk.injEq]
      refine ⟨?_, by trivial⟩
      rw [hval2]
      omega

theorem hexVal_hexDigitChr (m : Nat) (h : m < 16) : hexVal? (hexDigitChr m) = some m := by
  interval_cases m <;> decide

theorem readStringChar_escChar (c : Char) (rest : List Char) :
    readStringChar (escChar c ++ rest) = some (c, rest) := by
  unfold escChar
  by_cases h1 : c = '"'
  · rw [if_pos h1, h1]; rfl
  · rw [if_neg h1]
    by_cases h2 : c = '\\'
    · rw [if_pos h2, h2]; rfl
    · rw [if_neg h2]
      by_cases h3 : c = '\x08'
      · rw [if_pos h3, h3]; rfl
      · rw [if_neg h3]
        by_cases h4 : c = '\x09'
        · rw [if_pos h4, h4]; rfl
        · rw [if_neg h4]
          by_cases h5 : c = '\x0a'
          · rw [if_pos h5, h5]; rfl
          · rw [if_neg h5]
            by_cases h6 : c = '\x0c'
            · rw [if_pos h6, h6]; rfl
            · rw [if_neg h6]
              by_cases h7 : c = '\x0d'
              · rw [if_pos h7, h7]; rfl
              · rw [if_neg h7]
                by_cases h8 : c.toNat < 0x20
                · rw [if_pos h8]
                  have hdiv : c.toNat / 16 < 16 := by omega
                  have hmod : c.toNat % 16 < 16 := Nat.mod_lt _ (by omega)
                  show readStringChar ('\\' :: ('u' :: '0' :: '0' ::
                    hexDigitChr (c.toNat / 16) :: hexDigitChr (c.toNat % 16) :: rest)) = _
                  rw [readStringChar]
                  rw [if_neg (by decide), if_pos rfl]
                  rw [readEscape]
                  rw [if_neg (by decide), if_neg (by decide), if_neg (by decide),
                    if_neg (by decide), if_neg (by decide), if_neg (by decide),
                    if_neg (by decide), if_neg (by decide), if_pos rfl]
                  rw [readUnicodeEscape]
                  have hp4 : parseHex4 '0' '0' (hexDigitChr (c.toNat / 16))
                      (hexDigitChr (c.toNat % 16)) = some c.toNat := by
                    unfold parseHex4
                    rw [hexVal_hexDigitChr _ hdiv, hexVal_hexDigitChr _ hmod]
                    show some (0 * 4096 + 0 * 256 + c.toNat / 16 * 16 + c.toNat % 16) = _
                    congr 1
                    omega
                  rw [hp4]
                  simp only []
                  have hcond : (decide (c.toNat < 0xD800) || decide (0xE000 ≤ c.toNat)) = true := by
                    have hlt : c.toNat < 0xD800 := by omega
                    simp [hlt]
                  rw [if_pos hcond, Char.ofNat_toNat]
                · rw [if_neg h8]
                  show readStringChar (c :: rest) = _
                  rw [readStringChar]
                  rw [if_neg h1, if_neg h2, if_neg (by omega)]

theorem escChar_ne_nil_head (c : Char) :
    escChar c ≠ [] ∧ (escChar c).headD ' ' ≠ '"' := by
  unfold escChar
  repeat' split
  all_goals simp_all

theorem flatMap_escChar_length (l : List Char) :
    l.length ≤ (l.flatMap escChar).length := by
  induction l with
  | nil => simp
  | cons c cs ih =>
    rw [List.flatMap_cons, List.length_append, List.length_cons]
    obtain ⟨hne, -⟩ := escChar_ne_nil_head c
    have : 1 ≤ (escChar c).length := by
      cases h : escChar c with
      | nil => exact absurd h hne
      | cons a b => simp
    omega

theorem parseStringBodyF_roundtrip :
    ∀ (sdata : List Char) (fuel : Nat) (rest : List Char), sdata.length < fuel →
      parseStringBodyF fuel (sdata.flatMap escChar ++ '"' :: rest) = some (sdata, rest) := by
  intro sdata
  induction sdata with
  | nil =>
    intro fuel rest hlen
    cases fuel with
    | zero => omega
    | succ f =>
      rw [List.flatMap_nil, List.nil_append]
      rw [parseStringBodyF]
      simp
  | cons c cs ih =>
    intro fuel rest hlen
    cases fuel with
    | zero => simp at hlen
    | succ f =>
      have hrs := readStringChar_escChar c (cs.flatMap escChar ++ '"' :: rest)
      obtain ⟨hne, hhd⟩ := escChar_ne_nil_head c
      cases he : escChar c with
      | nil => exact absurd he hne
      | cons e0 etail =>
        rw [he] at hrs
        rw [List.cons_append] at hrs
        rw [List.flatMap_cons, he, List.append_assoc, List.cons_append]
        rw [parseStringBodyF]
        have he0 : ¬ e0 = '"' := by
          rw [he] at hhd
          simpa using hhd
        rw [if_neg he0, hrs]
        simp only []
        rw [ih f rest (by simp at hlen; omega)]
        rfl

theorem parseStringBody_roundtrip (sdata rest : List Char) :
    parseStringBody (sdata.flatMap escChar ++ '"' :: rest) = some (sdata, rest) := by
  apply parseStringBodyF_roundtrip
  have := flatMap_escChar_length sdata
  simp only [List.length_append, List.length_cons]
  omega


theorem keysNodupB_iff (ks : List String) : keysNodupB ks = true ↔ ks.Nodup := by
  induction ks with
  | nil => simp [keysNodupB]
  | cons k ks ih =>
    simp only [keysNodupB, Bool.and_eq_true, Bool.not_eq_true', List.nodup_cons, ih]
    constructor
    · rintro ⟨h1, h2⟩
      refine ⟨?_, h2⟩
      intro hmem
      have := List.elem_eq_true_of_mem hmem
      rw [List.contains] at h1
      rw [this] at h1
      exact Bool.noConfusion h1
    · rintro ⟨h1, h2⟩
      refine ⟨?_, h2⟩
      cases hc : ks.contains k with
      | false => rfl
      | true => exact absurd (List.mem_of_elem_eq_true hc) h1

theorem jsonWfListB_iff (xs : List Json) :
    jsonWfListB xs = true ↔ ∀ x ∈ xs, jsonWfB x = true := by
  induction xs with
  | nil => simp [jsonWfListB]
  | cons x xs ih => simp [jsonWfListB, ih]

theorem jsonWfFieldsB_iff (fs : List (String × Json)) :
    jsonWfFieldsB fs = true ↔ ∀ kv ∈ fs, jsonWfB kv.2 = true := by
  induction fs with
  | nil => simp [jsonWfFieldsB]
  | cons kv fs ih => simp [jsonWfFieldsB, ih]

theorem foldl_jsAssign_keys_nodup (raw : List (String × Json)) :
    ∀ acc : List (String × Json), (acc.map Prod.fst).Nodup →
      ((raw.foldl jsAssign acc).map Prod.fst).Nodup := by
  induction raw with
  | nil => intro acc h; simpa using h
  | cons kv rest ih =>
    intro acc h
    rw [List.foldl_cons]
    exact ih (jsAssign acc kv) (jsAssign_keys_nodup acc kv h)

theorem idxInsert_append_of_le (n : Nat) (kv : String × Json) :
    ∀ l : List (String × Json),
      (∀ q ∈ l, ∃ m, keyIdx? q.1 = some m ∧ m ≤ n) →
      idxInsert n kv l = l ++ [kv] := by
  intro l
  induction l with
  | nil => intro _; rfl
  | cons q rest ih =>
    intro h
    obtain ⟨m, hm, hle⟩ := h q (List.mem_cons_self _ _)
    rw [idxInsert, hm]
    simp only [if_pos hle]
    rw [ih (fun r hr => h r (List.mem_cons_of_mem _ hr))]
    rfl

theorem foldl_jsAssign_id (fs : List (String × Json)) :
    ∀ acc : List (String × Json), ((acc ++ fs).map Prod.fst).Nodup →
      List.Pairwise (fun a b => jsOrdPairB a b = true) ((acc ++ fs).map Prod.fst) →
      fs.foldl jsAssign acc = acc ++ fs := by
  induction fs with
  | nil => intro acc _ _; simp
  | cons kv rest ih =>
    intro acc h hord
    have hnotin : ¬ kv.1 ∈ acc.map Prod.fst := by
      intro hmem
      rw [List.map_append] at h
      have hdis := (List.nodup_append.mp h).2.2
      exact hdis hmem (by simp)
    have hfreshb : ¬ acc.any (fun p => p.1 == kv.1) = true := by
      intro hany
      rw [List.any_eq_true] at hany
      obtain ⟨p, hp, hpk⟩ := hany
      exact hnotin (List.mem_map.mpr ⟨p, hp, by simpa using hpk⟩)
    have hall : ∀ a ∈ acc.map Prod.fst, jsOrdPairB a kv.1 = true := by
      intro a ha
      rw [List.map_append, List.pairwise_append] at hord
      exact hord.2.2 a ha kv.1 (by simp)
    have hassign : jsAssign acc kv = acc ++ [kv] := by
      unfold jsAssign
      rw [if_neg hfreshb]
      cases hk : keyIdx? kv.1 with
      | some n =>
        apply idxInsert_append_of_le
        intro q hq
        have hb := hall q.1 (List.mem_map.mpr ⟨q, hq, rfl⟩)
        cases hcq : keyIdx? q.1 with
        | some m =>
          exact ⟨m, rfl, jsOrdPairB_inv q.1 kv.1 m n hcq hk hb⟩
        | none =>
          have := jsOrdPairB_ns q.1 kv.1 n hcq hk
          rw [hb] at this
          exact Bool.noConfusion this
      | none => rfl
    rw [List.foldl_cons, hassign]
    have hre : (acc ++ [kv]) ++ rest = acc ++ kv :: rest := by simp
    rw [ih (acc ++ [kv]) (by rw [hre]; exact h) (by rw [hre]; exact hord), hre]

theorem parse_wf (fuel : Nat) :
    (∀ cs v rest, parseValueF fuel cs = some (v, rest) → jsonWfB v = true) ∧
    (∀ cs v rest, parseArrayF fuel cs = some (v, rest) → jsonWfB v = true) ∧
    (∀ cs vs rest, parseArrayItemsF fuel cs = some (vs, rest) → jsonWfListB vs = true) ∧
    (∀ cs v rest, parseObjectF fuel cs = some (v, rest) → jsonWfB v = true) ∧
    (∀ cs fs rest, parseObjectItemsF fuel cs = some (fs, rest) → jsonWfFieldsB fs = true) := by
  induction fuel with
  | zero =>
    refine ⟨?_, ?_, ?_, ?_, ?_⟩ <;> (intro cs x rest h; exact Option.noConfusion h)
  | succ fuel ih =>
    obtain ⟨ihv, iha, ihai, iho, ihoi⟩ := ih
    refine ⟨?_, ?_, ?_, ?_, ?_⟩
    · intro cs v rest h
      simp only [parseValueF] at h
      cases hsw : skipWs cs with
      | nil => rw [hsw] at h; exact Option.noConfusion h
      | cons c rest0 =>
        rw [hsw] at h
        simp only [] at h
        by_cases h1 : c = lbraceChar
        · rw [if_pos h1] at h
          exact iho rest0 v rest h
        · rw [if_neg h1] at h
          by_cases h2 : c = '['
          · rw [if_pos h2] at h
            exact iha rest0 v rest h
          · rw [if_neg h2] at h
            by_cases h3 : c = '"'
            · rw [if_pos h3] at h
              obtain ⟨⟨content, rest1⟩, hps, hpr⟩ := Option.map_eq_some'.mp h
              rw [Prod.mk.injEq] at hpr
              obtain ⟨hv, -⟩ := hpr
              rw [← hv]
              rfl
            · rw [if_neg h3] at h
              by_cases h4 : c = 't'
              · rw [if_pos h4] at h
                split at h
                · simp only [Option.some.injEq, Prod.mk.injEq] at h
                  obtain ⟨hv, -⟩ := h
                  rw [← hv]
                  rfl
                · exact Option.noConfusion h
              · rw [if_neg h4] at h
                by_cases h5 : c = 'f'
                · rw [if_pos h5] at h
                  split at h
                  · simp only [Option.some.injEq, Prod.mk.injEq] at h
                    obtain ⟨hv, -⟩ := h
                    rw [← hv]
                    rfl
                  · exact Option.noConfusion h
                · rw [if_neg h5] at h
                  by_cases h6 : c = 'n'
                  · rw [if_pos h6] at h
                    split at h
                    · simp only [Option.some.injEq, Prod.mk.injEq] at h
                      obtain ⟨hv, -⟩ := h
                      rw [← hv]
                      rfl
                    · exact Option.noConfusion h
                  · rw [if_neg h6] at h
                    obtain ⟨⟨n, rest1⟩, hps, hpr⟩ := Option.map_eq_some'.mp h
                    rw [Prod.mk.injEq] at hpr
                    obtain ⟨hv, -⟩ := hpr
                    rw [← hv]
                    rfl
    · intro cs v rest h
      simp only [parseArrayF] at h
      cases hsw : skipWs cs with
      | nil => rw [hsw] at h; exact Option.noConfusion h
      | cons c rest0 =>
        rw [hsw] at h
        simp only [] at h
        by_cases h1 : c = ']'
        · rw [if_pos h1] at h
          simp only [Option.some.injEq, Prod.mk.injEq] at h
          obtain ⟨hv, -⟩ := h
          rw [← hv]
          rfl
        · rw [if_neg h1] at h
          obtain ⟨⟨vs, rest1⟩, hps, hpr⟩ := Option.map_eq_some'.mp h
          rw [Prod.mk.injEq] at hpr
          obtain ⟨hv, -⟩ := hpr
          rw [← hv]
          exact ihai (c :: rest0) vs rest1 hps
    · intro cs vs rest h
      simp only [parseArrayItemsF] at h
      cases hpv : parseValueF fuel cs with
      | none => rw [hpv] at h; exact Option.noConfusion h
      | some p =>
        rw [hpv] at h
        obtain ⟨v, rest1⟩ := p
        simp only [] at h
        have hwv := ihv cs v rest1 hpv
        cases hsw : skipWs rest1 with
        | nil => rw [hsw] at h; exact Option.noConfusion h
        | cons c rs =>
          rw [hsw] at h
          simp only [] at h
          by_cases h1 : c = ','
          · rw [if_pos h1] at h
            cases hrec : parseArrayItemsF fuel rs with
            | none => rw [hrec] at h; exact Option.noConfusion h
            | some q =>
              rw [hrec] at h
              obtain ⟨vs2, rest2⟩ := q
              simp only [Option.some.injEq, Prod.mk.injEq] at h
              obtain ⟨hvs, -⟩ := h
              rw [← hvs]
              show (jsonWfB v && jsonWfListB vs2) = true
              rw [hwv, ihai rs vs2 rest2 hrec]
              rfl
          · rw [if_neg h1] at h
            by_cases h2 : c = ']'
            · rw [if_pos h2] at h
              simp only [Option.some.injEq, Prod.mk.injEq] at h
              obtain ⟨hvs, -⟩ := h
              rw [← hvs]
              show (jsonWfB v && jsonWfListB []) = true
              rw [hwv]
              rfl
            · rw [if_neg h2] at h
              exact Option.noConfusion h
    · intro cs v rest h
      simp only [parseObjectF] at h
      cases hsw : skipWs cs with
      | nil => rw [hsw] at h; exact Option.noConfusion h
      | cons c rest0 =>
        rw [hsw] at h
        simp only [] at h
        by_cases h1 : c = rbraceChar
        · rw [if_pos h1] at h
          simp only [Option.some.injEq, Prod.mk.injEq] at h
          obtain ⟨hv, -⟩ := h
          rw [← hv]
          rfl
        · rw [if_neg h1] at h
          obtain ⟨⟨fs, rest1⟩, hps, hpr⟩ := Option.map_eq_some'.mp h
          rw [Prod.mk.injEq] at hpr
          obtain ⟨hv, -⟩ := hpr
          rw [← hv]
          show ((keysNodupB ((fs.foldl jsAssign []).map Prod.fst) &&
            enumOrderedKeysB ((fs.foldl jsAssign []).map Prod.fst)) &&
              jsonWfFieldsB (fs.foldl jsAssign [])) = true
          rw [Bool.and_eq_true, Bool.and_eq_true]
          refine ⟨⟨?_, ?_⟩, ?_⟩
          · rw [keysNodupB_iff]
            exact foldl_jsAssign_keys_nodup fs [] (by simp)
          · rw [enumOrderedKeysB_iff_pairwise]
            exact foldl_jsAssign_pairwise_ord fs [] (by simp)
          · rw [jsonWfFieldsB_iff]
            intro kv hkv
            rcases mem_foldl_jsAssign fs [] kv hkv with h2 | h2
            · simp at h2
            · obtain ⟨kv2, hkv2, hq⟩ := h2
              rw [hq]
              have hwfields := ihoi (c :: rest0) fs rest1 hps
              exact (jsonWfFieldsB_iff fs).mp hwfields kv2 hkv2
    · intro cs fs rest h
      simp only [parseObjectItemsF] at h
      cases hsw : skipWs cs with
      | nil => rw [hsw] at h; exact Option.noConfusion h
      | cons c rest0 =>
        rw [hsw] at h
        simp only [] at h
        by_cases h1 : c = '"'
        · rw [if_pos h1] at h
          cases hsb : parseStringBody rest0 with
          | none => rw [hsb] at h; exact Option.noConfusion h
          | some p =>
            rw [hsb] at h
            obtain ⟨keyChars, rest1⟩ := p
            simp only [] at h
            cases hsw2 : skipWs rest1 with
            | nil => rw [hsw2] at h; exact Option.noConfusion h
            | cons c2 rest2 =>
              rw [hsw2] at h
              simp only [] at h
              by_cases h2 : c2 = ':'
              · rw [if_pos h2] at h
                cases hpv : parseValueF fuel rest2 with
                | none => rw [hpv] at h; exact Option.noConfusion h
                | some q =>
                  rw [hpv] at h
                  obtain ⟨v, rest3⟩ := q
                  simp only [] at h
                  have hwv := ihv rest2 v rest3 hpv
                  cases hsw3 : skipWs rest3 with
                  | nil => rw [hsw3] at h; exact Option.noConfusion h
                  | cons c3 rest4 =>
                    rw [hsw3] at h
                    simp only [] at h
                    by_cases h3 : c3 = ','
                    · rw [if_pos h3] at h
                      cases hrec : parseObjectItemsF fuel rest4 with
                      | none => rw [hrec] at h; exact Option.noConfusion h
                      | some r =>
                        rw [hrec] at h
                        obtain ⟨fs2, rest5⟩ := r
                        simp only [Option.some.injEq, Prod.mk.injEq] at h
                        obtain ⟨hfs, -⟩ := h
                        rw [← hfs]
                        show (jsonWfB v && jsonWfFieldsB fs2) = true
                        rw [hwv, ihoi rest4 fs2 rest5 hrec]
                        rfl
                    · rw [if_neg h3] at h
                      by_cases h4 : c3 = rbraceChar
                      · rw [if_pos h4] at h
                        simp only [Option.some.injEq, Prod.mk.injEq] at h
                        obtain ⟨hfs, -⟩ := h
                        rw [← hfs]
                        show (jsonWfB v && jsonWfFieldsB []) = true
                        rw [hwv]
                        rfl
                      · rw [if_neg h4] at h
                        exact Option.noConfusion h
              · rw [if_neg h2] at h
                exact Option.noConfusion h
        · rw [if_neg h1] at h
          exact Option.noConfusion h

theorem natDigitsF_head_digitChr :
    ∀ (fuel n : Nat), n < fuel →
      ∃ m, m < 10 ∧ (natDigitsF fuel n).head? = some (digitChr m) := by
  intro fuel
  induction fuel with
  | zero => intro n h; omega
  | succ fuel ih =>
    intro n h
    by_cases hn : n < 10
    · rw [natDigitsF, if_pos hn]
      exact ⟨n, hn, rfl⟩
    · rw [natDigitsF, if_neg hn]
      obtain ⟨m, hm, hd⟩ := ih (n / 10) (by omega)
      refine ⟨m, hm, ?_⟩
      cases hds : natDigitsF fuel (n / 10) with
      | nil => rw [hds] at hd; exact Option.noConfusion hd
      | cons d ds =>
        rw [hds] at hd
        rw [List.cons_append, List.head?_cons]
        simpa using hd

theorem digitChr_props (m : Nat) (h : m < 10) :
    isJsonWs (digitChr m) = false ∧ ¬digitChr m = ']' ∧ ¬digitChr m = ',' ∧
    ¬digitChr m = lbraceChar ∧ ¬digitChr m = '[' ∧ ¬digitChr m = '"' ∧
    ¬digitChr m = 't' ∧ ¬digitChr m = 'f' ∧ ¬digitChr m = 'n' := by
  interval_cases m <;> exact ⟨rfl, by decide, by decide, by decide, by decide,
    by decide, by decide, by decide, by decide⟩

theorem ser_head (pf depth : Nat) (v : Json) (hpf : jsize v ≤ pf) :
    ∃ c cs2, serializeCharsF pf none 0 depth v = c :: cs2 ∧
      isJsonWs c = false ∧ ¬c = ']' ∧ ¬c = ',' := by
  cases pf with
  | zero => have := jsize_pos v; omega
  | succ p =>
    cases v with
    | null => exact ⟨'n', _, rfl, rfl, by decide, by decide⟩
    | bool b =>
      cases b with
      | true => exact ⟨'t', _, rfl, rfl, by decide, by decide⟩
      | false => exact ⟨'f', _, rfl, rfl, by decide, by decide⟩
    | str s => exact ⟨'"', _, rfl, rfl, by decide, by decide⟩
    | arr xs =>
      cases xs with
      | nil => exact ⟨'[', _, rfl, rfl, by decide, by decide⟩
      | cons x xs2 => exact ⟨'[', _, rfl, rfl, by decide, by decide⟩
    | obj fs =>
      cases fs with
      | nil => exact ⟨lbraceChar, _, rfl, rfl, by decide, by decide⟩
      | cons kv fs2 => exact ⟨lbraceChar, _, rfl, rfl, by decide, by decide⟩
    | num n =>
      show ∃ c cs2, intChars n = c :: cs2 ∧ _
      rw [intChars]
      by_cases hn : n < 0
      · rw [if_pos hn]
        exact ⟨'-', _, rfl, rfl, by decide, by decide⟩
      · rw [if_neg hn]
        obtain ⟨m, hm, hd⟩ := natDigitsF_head_digitChr (n.toNat + 1) n.toNat (by omega)
        have hd2 : (natDigits n.toNat).head? = some (digitChr m) := hd
        obtain ⟨hws, hne1, hne2, -⟩ := digitChr_props m hm
        cases hds : natDigits n.toNat with
        | nil => rw [hds] at hd2; exact Option.noConfusion hd2
        | cons d ds =>
          rw [hds] at hd2
          simp only [List.head?_cons, Option.some.injEq] at hd2
          refine ⟨d, ds, rfl, ?_, ?_, ?_⟩ <;> rw [hd2]
          · exact hws
          · exact hne1
          · exact hne2

theorem intChars_head (n : Int) :
    ∃ c cs2, intChars n = c :: cs2 ∧ isJsonWs c = false ∧ ¬c = lbraceChar ∧
      ¬c = '[' ∧ ¬c = '"' ∧ ¬c = 't' ∧ ¬c = 'f' ∧ ¬c = 'n' := by
  rw [intChars]
  by_cases hn : n < 0
  · rw [if_pos hn]
    exact ⟨'-', _, rfl, rfl, by decide, by decide, by decide, by decide, by decide, by decide⟩
  · rw [if_neg hn]
    obtain ⟨m, hm, hd⟩ := natDigitsF_head_digitChr (n.toNat + 1) n.toNat (by omega)
    have hd2 : (natDigits n.toNat).head? = some (digitChr m) := hd
    obtain ⟨hws, -, -, hq1, hq2, hq3, hq4, hq5, hq6⟩ := digitChr_props m hm
    cases hds : natDigits n.toNat with
    | nil => rw [hds] at hd2; exact Option.noConfusion hd2
    | cons d ds =>
      rw [hds] at hd2
      simp only [List.head?_cons, Option.some.injEq] at hd2
      subst hd2
      exact ⟨digitChr m, ds, rfl, hws, hq1, hq2, hq3, hq4, hq5, hq6⟩

theorem roundtrip_main :
    ∀ N : Nat,
      (∀ v : Json, jsize v ≤ N → jsonWfB v = true →
        ∀ pf : Nat, jsize v ≤ pf → ∀ fuel : Nat, 2 * jsize v ≤ fuel →
        ∀ (depth : Nat) (rest : List Char), numDelimB rest = true →
          parseValueF fuel (serializeCharsF pf none 0 depth v ++ rest) = some (v, rest)) ∧
      (∀ xs : List Json, xs ≠ [] → jsizeList xs ≤ N →
        (∀ x ∈ xs, jsonWfB x = true) →
        ∀ p : Nat, (∀ x ∈ xs, jsize x ≤ p) →
        ∀ g : Nat, 2 * jsizeList xs ≤ g →
        ∀ (depth : Nat) (rest : List Char),
          parseArrayItemsF g
            (joinSep [','] (xs.map (serializeCharsF p none 0 depth)) ++ ']' :: rest) =
            some (xs, rest)) ∧
      (∀ fs : List (String × Json), fs ≠ [] → jsizeFields fs ≤ N →
        (∀ kv ∈ fs, jsonWfB kv.2 = true) →
        ∀ p : Nat, (∀ kv ∈ fs, jsize kv.2 ≤ p) →
        ∀ g : Nat, 2 * jsizeFields fs ≤ g →
        ∀ (depth : Nat) (rest : List Char),
          parseObjectItemsF g
            (joinSep [','] (fs.map (fun kv => quoteChars kv.1 ++ ':' ::
              serializeCharsF p none 0 depth kv.2)) ++ rbraceChar :: rest) =
            some (fs, rest)) := by
  intro N
  induction N with
  | zero =>
    refine ⟨?_, ?_, ?_⟩
    · intro v hsz
      have := jsize_pos v
      omega
    · intro xs hne hsz
      exfalso
      cases xs with
      | nil => exact hne rfl
      | cons x t =>
        have := jsize_pos x
        simp only [jsizeList] at hsz
        omega
    · intro fs hne hsz
      exfalso
      cases fs with
      | nil => exact hne rfl
      | cons kv t =>
        have := jsize_pos kv.2
        simp only [jsizeFields] at hsz
        omega
  | succ N ihN =>
    obtain ⟨ihv, ihits, ihois⟩ := ihN
    refine ⟨?_, ?_, ?_⟩
    · -- one value
      intro v hsz hwf pf hpf fuel hfuel depth rest hrest
      cases v with
      | null =>
        cases pf with
        | zero => exact absurd hpf (by decide)
        | succ p =>
          cases fuel with
          | zero => exact absurd hfuel (by decide)
          | succ f => rfl
      | bool b =>
        cases pf with
        | zero => simp [jsize] at hpf
        | succ p =>
          cases fuel with
          | zero => simp [jsize] at hfuel
          | succ f => cases b <;> rfl
      | str s =>
        cases pf with
        | zero => simp [jsize] at hpf
        | succ p =>
          cases fuel with
          | zero => simp [jsize] at hfuel
          | succ f =>
            show parseValueF (f+1) (quoteChars s ++ rest) = some (Json.str s, rest)
            have hq : quoteChars s ++ rest =
                '"' :: (s.data.flatMap escChar ++ '"' :: rest) := by
              rw [quoteChars]
              simp
            rw [hq]
            have hstep : parseValueF (f+1)
                ('"' :: (s.data.flatMap escChar ++ '"' :: rest)) =
                (parseStringBody (s.data.flatMap escChar ++ '"' :: rest)).map
                  (fun p => (Json.str (String.mk p.1), p.2)) := rfl
            rw [hstep, parseStringBody_roundtrip]
            rfl
      | num n =>
        cases pf with
        | zero => simp [jsize] at hpf
        | succ p =>
          cases fuel with
          | zero => simp [jsize] at hfuel
          | succ f =>
            show parseValueF (f+1) (intChars n ++ rest) = some (Json.num n, rest)
            obtain ⟨c, cs2, hic, hws, hq1, hq2, hq3, hq4, hq5, hq6⟩ := intChars_head n
            rw [hic, List.cons_append]
            simp only [parseValueF]
            rw [skipWs, if_neg (by simp [hws])]
            simp only []
            rw [if_neg hq1, if_neg hq2, if_neg hq3, if_neg hq4, if_neg hq5, if_neg hq6]
            rw [← List.cons_append, ← hic, parseNumber_roundtrip n rest hrest]
            rfl
      | arr xs =>
        cases xs with
        | nil =>
          cases pf with
          | zero => exact absurd hpf (by decide)
          | succ p =>
            cases fuel with
            | zero => exact absurd hfuel (by decide)
            | succ f =>
              cases f with
              | zero => exact absurd hfuel (by decide)
              | succ f2 => rfl
        | cons x xs2 =>
          cases pf with
          | zero =>
            exfalso
            have := jsize_pos (Json.arr (x :: xs2))
            omega
          | succ p =>
            cases fuel with
            | zero =>
              exfalso
              have := jsize_pos (Json.arr (x :: xs2))
              omega
            | succ f =>
              cases f with
              | zero =>
                exfalso
                simp only [jsize, jsizeList] at hfuel
                omega
              | succ f2 =>
                have hsz2 : jsizeList (x :: xs2) ≤ N := by
                  simp only [jsize] at hsz
                  omega
                have hpl : jsizeList (x :: xs2) ≤ p := by
                  simp only [jsize] at hpf
                  omega
                have hser : serializeCharsF (p+1) none 0 depth (Json.arr (x :: xs2)) =
                    '[' :: joinSep [',']
                      ((x :: xs2).map (serializeCharsF p none 0 (depth+1))) ++ [']'] := rfl
                rw [hser]
                have hassoc : ('[' :: joinSep [',']
                      ((x :: xs2).map (serializeCharsF p none 0 (depth+1))) ++ [']']) ++ rest =
                    '[' :: (joinSep [',']
                      ((x :: xs2).map (serializeCharsF p none 0 (depth+1))) ++ ']' :: rest) := by
                  simp
                rw [hassoc]
                have hstep : parseValueF (f2+2) ('[' :: (joinSep [',']
                      ((x :: xs2).map (serializeCharsF p none 0 (depth+1))) ++ ']' :: rest)) =
                    parseArrayF (f2+1) (joinSep [',']
                      ((x :: xs2).map (serializeCharsF p none 0 (depth+1))) ++ ']' :: rest) := rfl
                rw [hstep]
                obtain ⟨c, cs2, hserx, hws, hnrb, hnc⟩ :=
                  ser_head p (depth+1) x (by
                    have := jsize_pos x
                    simp only [jsizeList] at hpl
                    omega)
                have hwfl : jsonWfListB (x :: xs2) = true := hwf
                have hitems := ihits (x :: xs2) (by simp) hsz2
                  (by
                    rw [jsonWfListB_iff] at hwfl
                    exact hwfl)
                  p
                  (by
                    intro y hy
                    have := jsize_mem_list y (x :: xs2) hy
                    omega)
                  f2
                  (by
                    simp only [jsize] at hfuel
                    omega)
                  (depth+1) rest
                have hJ : ∃ T, joinSep [',']
                    ((x :: xs2).map (serializeCharsF p none 0 (depth+1))) =
                    serializeCharsF p none 0 (depth+1) x ++ T := by
                  cases xs2 with
                  | nil => exact ⟨[], by simp [joinSep]⟩
                  | cons y ys => exact ⟨[','] ++ joinSep [',']
                      ((y :: ys).map (serializeCharsF p none 0 (depth+1))), by
                        simp [joinSep]⟩
                obtain ⟨T, hT⟩ := hJ
                simp only [parseArrayF]
                rw [hT, hserx]
                have hl2 : ((c :: cs2) ++ T) ++ ']' :: rest =
                    c :: (cs2 ++ T ++ ']' :: rest) := by simp
                rw [hl2, skipWs, if_neg (by simp [hws])]
                simp only []
                rw [if_neg hnrb]
                have hl3 : c :: (cs2 ++ T ++ ']' :: rest) =
                    (serializeCharsF p none 0 (depth+1) x ++ T) ++ ']' :: rest := by
                  rw [hserx]
                  simp
                rw [hl3, ← hT, hitems]
                rfl
      | obj fs =>
        cases fs with
        | nil =>
          cases pf with
          | zero => exact absurd hpf (by decide)
          | succ p =>
            cases fuel with
            | zero => exact absurd hfuel (by decide)
            | succ f =>
              cases f with
              | zero => exact absurd hfuel (by decide)
              | succ f2 => rfl
        | cons kv fs2 =>
          cases pf with
          | zero =>
            exfalso
            have := jsize_pos (Json.obj (kv :: fs2))
            omega
          | succ p =>
            cases fuel with
            | zero =>
              exfalso
              have := jsize_pos (Json.obj (kv :: fs2))
              omega
            | succ f =>
              cases f with
              | zero =>
                exfalso
                simp only [jsize, jsizeFields] at hfuel
                omega
              | succ f2 =>
                have hsz2 : jsizeFields (kv :: fs2) ≤ N := by
                  simp only [jsize] at hsz
                  omega
                have hpl : jsizeFields (kv :: fs2) ≤ p := by
                  simp only [jsize] at hpf
                  omega
                have hwf2 : ((keysNodupB ((kv :: fs2).map Prod.fst) &&
                    enumOrderedKeysB ((kv :: fs2).map Prod.fst)) &&
                      jsonWfFieldsB (kv :: fs2)) = true := hwf
                rw [Bool.and_eq_true, Bool.and_eq_true] at hwf2
                have hser : serializeCharsF (p+1) none 0 depth (Json.obj (kv :: fs2)) =
                    lbraceChar :: joinSep [',']
                      ((kv :: fs2).map (fun q => quoteChars q.1 ++ ':' ::
                        serializeCharsF p none 0 (depth+1) q.2)) ++ [rbraceChar] := rfl
                rw [hser]
                have hassoc : (lbraceChar :: joinSep [',']
                      ((kv :: fs2).map (fun q => quoteChars q.1 ++ ':' ::
                        serializeCharsF p none 0 (depth+1) q.2)) ++ [rbraceChar]) ++ rest =
                    lbraceChar :: (joinSep [',']
                      ((kv :: fs2).map (fun q => quoteChars q.1 ++ ':' ::
                        serializeCharsF p none 0 (depth+1) q.2)) ++ rbraceChar :: rest) := by
                  simp
                rw [hassoc]
                have hstep : parseValueF (f2+2) (lbraceChar :: (joinSep [',']
                      ((kv :: fs2).map (fun q => quoteChars q.1 ++ ':' ::
                        serializeCharsF p none 0 (depth+1) q.2)) ++ rbraceChar :: rest)) =
                    parseObjectF (f2+1) (joinSep [',']
                      ((kv :: fs2).map (fun q => quoteChars q.1 ++ ':' ::
                        serializeCharsF p none 0 (depth+1) q.2)) ++ rbraceChar :: rest) := rfl
                rw [hstep]
                have hoitems := ihois (kv :: fs2) (by simp) hsz2
                  (by
                    rw [jsonWfFieldsB_iff] at hwf2
                    exact hwf2.2
                    )
                  p
                  (by
                    intro q hq
                    have := jsize_mem_fields q (kv :: fs2) hq
                    omega)
                  f2
                  (by
                    simp only [jsize] at hfuel
                    omega)
                  (depth+1) rest
                have hJ : ∃ T, joinSep [',']
                    ((kv :: fs2).map (fun q => quoteChars q.1 ++ ':' ::
                      serializeCharsF p none 0 (depth+1) q.2)) =
                    (quoteChars kv.1 ++ ':' :: serializeCharsF p none 0 (depth+1) kv.2) ++ T := by
                  cases fs2 with
                  | nil => exact ⟨[], by simp [joinSep]⟩
                  | cons q qs => exact ⟨[','] ++ joinSep [',']
                      ((q :: qs).map (fun q2 => quoteChars q2.1 ++ ':' ::
                        serializeCharsF p none 0 (depth+1) q2.2)), by simp [joinSep]⟩
                obtain ⟨T, hT⟩ := hJ
                simp only [parseObjectF]
                rw [hT]
                have hl2 : ((quoteChars kv.1 ++ ':' ::
                      serializeCharsF p none 0 (depth+1) kv.2) ++ T) ++ rbraceChar :: rest =
                    '"' :: ((kv.1.data.flatMap escChar ++ ['"'] ++
                      ':' :: serializeCharsF p none 0 (depth+1) kv.2) ++ T ++
                      rbraceChar :: rest) := by
                  rw [quoteChars]
                  simp
                rw [hl2, skipWs, if_neg (by decide)]
                simp only []
                rw [if_neg (by decide)]
                have hl3 : '"' :: ((kv.1.data.flatMap escChar ++ ['"'] ++
                      ':' :: serializeCharsF p none 0 (depth+1) kv.2) ++ T ++
                      rbraceChar :: rest) =
                    ((quoteChars kv.1 ++ ':' ::
                      serializeCharsF p none 0 (depth+1) kv.2) ++ T) ++ rbraceChar :: rest := by
                  rw [quoteChars]
                  simp
                rw [hl3, ← hT, hoitems]
                have hid : (kv :: fs2).foldl jsAssign [] = kv :: fs2 := by
                  have hnd : ((kv :: fs2).map Prod.fst).Nodup := by
                    rw [keysNodupB_iff] at hwf2
                    exact hwf2.1.1
                  have hord : List.Pairwise (fun a b => jsOrdPairB a b = true)
                      ((kv :: fs2).map Prod.fst) := by
                    rw [enumOrderedKeysB_iff_pairwise] at hwf2
                    exact hwf2.1.2
                  have := foldl_jsAssign_id (kv :: fs2) []
                  rw [List.nil_append] at this
                  exact this hnd hord
                simp only [Option.map_some']
                rw [hid]
    · -- array items
      intro xs hne hsz hwfall p hp g hg depth rest
      cases xs with
      | nil => exact absurd rfl hne
      | cons x xs2 =>
        cases g with
        | zero =>
          exfalso
          have := jsize_pos x
          simp only [jsizeList] at hg
          omega
        | succ g2 =>
          have hbx : jsize x ≤ N := by
            have := jsize_pos x
            simp only [jsizeList] at hsz
            omega
          cases xs2 with
          | nil =>
            have hvx := ihv x hbx (hwfall x (by simp)) p (hp x (by simp)) g2
              (by
                simp only [jsizeList] at hg
                omega)
              depth (']' :: rest) (by rfl)
            have hJ : joinSep [','] ([x].map (serializeCharsF p none 0 depth)) =
                serializeCharsF p none 0 depth x := rfl
            rw [hJ]
            simp only [parseArrayItemsF]
            rw [hvx]
            rfl
          | cons y ys =>
            generalize hZ : joinSep [',']
              ((y :: ys).map (serializeCharsF p none 0 depth)) ++ ']' :: rest = Z
            have hvx := ihv x hbx (hwfall x (by simp)) p (hp x (by simp)) g2
              (by
                simp only [jsizeList] at hg
                omega)
              depth (',' :: Z) (by rfl)
            have htail := ihits (y :: ys) (by simp)
              (by
                have := jsize_pos x
                simp only [jsizeList] at hsz ⊢
                omega)
              (by
                intro z hz
                exact hwfall z (List.mem_cons_of_mem _ hz))
              p
              (by
                intro z hz
                exact hp z (List.mem_cons_of_mem _ hz))
              g2
              (by
                have := jsize_pos x
                simp only [jsizeList] at hg ⊢
                omega)
              depth rest
            have hJ : joinSep [','] ((x :: y :: ys).map (serializeCharsF p none 0 depth)) =
                serializeCharsF p none 0 depth x ++ [','] ++ joinSep [',']
                  ((y :: ys).map (serializeCharsF p none 0 depth)) := rfl
            rw [hJ]
            have hassoc : (serializeCharsF p none 0 depth x ++ [','] ++ joinSep [',']
                  ((y :: ys).map (serializeCharsF p none 0 depth))) ++ ']' :: rest =
                serializeCharsF p none 0 depth x ++ (',' :: Z) := by
              rw [← hZ]
              simp
            rw [hassoc]
            simp only [parseArrayItemsF]
            rw [hvx]
            simp only []
            rw [skipWs, if_neg (by decide)]
            simp only []
            simp only [eq_self_iff_true, if_true]
            rw [hZ] at htail
            rw [htail]
    · -- object items
      intro fs hne hsz hwfall p hp g hg depth rest
      cases fs with
      | nil => exact absurd rfl hne
      | cons kv fs2 =>
        cases g with
        | zero =>
          exfalso
          have := jsize_pos kv.2
          simp only [jsizeFields] at hg
          omega
        | succ g2 =>
          have hbv : jsize kv.2 ≤ N := by
            have := jsize_pos kv.2
            simp only [jsizeFields] at hsz
            omega
          cases fs2 with
          | nil =>
            have hvv := ihv kv.2 hbv (hwfall kv (by simp)) p (hp kv (by simp)) g2
              (by
                simp only [jsizeFields] at hg
                omega)
              depth (rbraceChar :: rest) (by rfl)
            have hJ : joinSep [','] ([kv].map (fun q => quoteChars q.1 ++ ':' ::
                serializeCharsF p none 0 depth q.2)) =
                quoteChars kv.1 ++ ':' :: serializeCharsF p none 0 depth kv.2 := rfl
            rw [hJ]
            have hl1 : (quoteChars kv.1 ++ ':' ::
                  serializeCharsF p none 0 depth kv.2) ++ rbraceChar :: rest =
                '"' :: (kv.1.data.flatMap escChar ++ '"' ::
                  (':' :: (serializeCharsF p none 0 depth kv.2 ++ rbraceChar :: rest))) := by
              rw [quoteChars]
              simp
            rw [hl1]
            simp only [parseObjectItemsF]
            rw [skipWs, if_neg (by decide)]
            simp only []
            simp only [eq_self_iff_true, if_true]
            rw [parseStringBody_roundtrip]
            simp only []
            rw [skipWs, if_neg (by decide)]
            simp only []
            simp only [eq_self_iff_true, if_true]
            rw [hvv]
            simp only []
            rw [skipWs, if_neg (by decide)]
            simp only []
            rw [if_neg (by decide)]
            simp only [eq_self_iff_true, if_true]
          | cons q qs =>
            generalize hZ : joinSep [','] ((q :: qs).map (fun q2 => quoteChars q2.1 ++ ':' ::
                serializeCharsF p none 0 depth q2.2)) ++ rbraceChar :: rest = Z
            have hvv := ihv kv.2 hbv (hwfall kv (by simp)) p (hp kv (by simp)) g2
              (by
                simp only [jsizeFields] at hg
                omega)
              depth (',' :: Z) (by rfl)
            have htail := ihois (q :: qs) (by simp)
              (by
                have := jsize_pos kv.2
                simp only [jsizeFields] at hsz ⊢
                omega)
              (by
                intro z hz
                exact hwfall z (List.mem_cons_of_mem _ hz))
              p
              (by
                intro z hz
                exact hp z (List.mem_cons_of_mem _ hz))
              g2
              (by
                have := jsize_pos kv.2
                simp only [jsizeFields] at hg ⊢
                omega)
              depth rest
            have hJ : joinSep [','] ((kv :: q :: qs).map (fun q2 => quoteChars q2.1 ++ ':' ::
                serializeCharsF p none 0 depth q2.2)) =
                (quoteChars kv.1 ++ ':' :: serializeCharsF p none 0 depth kv.2) ++ [','] ++
                  joinSep [','] ((q :: qs).map (fun q2 => quoteChars q2.1 ++ ':' ::
                    serializeCharsF p none 0 depth q2.2)) := rfl
            rw [hJ]
            have hassoc : ((quoteChars kv.1 ++ ':' ::
                  serializeCharsF p none 0 depth kv.2) ++ [','] ++
                  joinSep [','] ((q :: qs).map (fun q2 => quoteChars q2.1 ++ ':' ::
                    serializeCharsF p none 0 depth q2.2))) ++ rbraceChar :: rest =
                '"' :: (kv.1.data.flatMap escChar ++ '"' ::
                  (':' :: (serializeCharsF p none 0 depth kv.2 ++ ',' :: Z))) := by
              rw [← hZ, quoteChars]
              simp
            rw [hassoc]
            simp only [parseObjectItemsF]
            rw [skipWs, if_neg (by decide)]
            simp only []
            simp only [eq_self_iff_true, if_true]
            rw [parseStringBody_roundtrip]
            simp only []
            rw [skipWs, if_neg (by decide)]
            simp only []
            simp only [eq_self_iff_true, if_true]
            rw [hvv]
            simp only []
            rw [skipWs, if_neg (by decide)]
            simp only []
            simp only [eq_self_iff_true, if_true]
            rw [hZ] at htail
            rw [htail]

theorem quoteChars_length (k : String) : 2 ≤ (quoteChars k).length := by
  rw [quoteChars]
  simp

theorem intChars_length (n : Int) : 1 ≤ (intChars n).length := by
  obtain ⟨c, cs2, hic, -⟩ := intChars_head n
  rw [hic]
  simp

theorem ser_length_ge :
    ∀ (pf : Nat) (v : Json) (depth : Nat), jsize v ≤ pf →
      jsize v ≤ (serializeCharsF pf none 0 depth v).length := by
  intro pf
  induction pf with
  | zero =>
    intro v depth h
    have := jsize_pos v
    omega
  | succ p ih =>
    intro v depth h
    cases v with
    | null => simp [serializeCharsF, jsize]
    | bool b => cases b <;> simp [serializeCharsF, jsize]
    | num n =>
      show jsize (Json.num n) ≤ (intChars n).length
      have := intChars_length n
      simp only [jsize]
      omega
    | str s =>
      show jsize (Json.str s) ≤ (quoteChars s).length
      have := quoteChars_length s
      simp only [jsize]
      omega
    | arr xs =>
      cases xs with
      | nil => simp [serializeCharsF, jsize, jsizeList]
      | cons x xs2 =>
        have hser : serializeCharsF (p+1) none 0 depth (Json.arr (x :: xs2)) =
            '[' :: joinSep [',']
              ((x :: xs2).map (serializeCharsF p none 0 (depth+1))) ++ [']'] := rfl
        rw [hser]
        have hpl : jsizeList (x :: xs2) ≤ p := by
          simp only [jsize] at h
          omega
        have haux : ∀ ys : List Json, ys ≠ [] → jsizeList ys ≤ p →
            jsizeList ys ≤ (joinSep [','] (ys.map (serializeCharsF p none 0 (depth+1)))).length + 1 := by
          intro ys
          induction ys with
          | nil => intro hne _; exact absurd rfl hne
          | cons y ys2 ihy =>
            intro _ hsz
            cases ys2 with
            | nil =>
              have hy := ih y (depth+1) (by
                have := jsize_pos y
                simp only [jsizeList] at hsz
                omega)
              have hJ : joinSep [','] ([y].map (serializeCharsF p none 0 (depth+1))) =
                  serializeCharsF p none 0 (depth+1) y := rfl
              rw [hJ]
              simp only [jsizeList]
              omega
            | cons z zs =>
              have hy := ih y (depth+1) (by
                have := jsize_pos y
                simp only [jsizeList] at hsz
                omega)
              have htl := ihy (by simp) (by
                have := jsize_pos y
                simp only [jsizeList] at hsz ⊢
                omega)
              have hJ : joinSep [','] ((y :: z :: zs).map (serializeCharsF p none 0 (depth+1))) =
                  serializeCharsF p none 0 (depth+1) y ++ [','] ++
                    joinSep [','] ((z :: zs).map (serializeCharsF p none 0 (depth+1))) := rfl
              rw [hJ]
              simp only [jsizeList] at hsz htl ⊢
              simp only [List.length_append, List.length_cons, List.length_nil] at htl ⊢
              omega
        have := haux (x :: xs2) (by simp) hpl
        simp only [jsize, List.length_cons, List.length_append]
        simp only [List.length_cons, List.length_nil] at this ⊢
        omega
    | obj fs =>
      cases fs with
      | nil => simp [serializeCharsF, jsize, jsizeFields]
      | cons kv fs2 =>
        have hser : serializeCharsF (p+1) none 0 depth (Json.obj (kv :: fs2)) =
            lbraceChar :: joinSep [',']
              ((kv :: fs2).map (fun q => quoteChars q.1 ++ ':' ::
                serializeCharsF p none 0 (depth+1) q.2)) ++ [rbraceChar] := rfl
        rw [hser]
        have hpl : jsizeFields (kv :: fs2) ≤ p := by
          simp only [jsize] at h
          omega
        have haux : ∀ gs : List (String × Json), gs ≠ [] → jsizeFields gs ≤ p →
            jsizeFields gs ≤ (joinSep [','] (gs.map (fun q => quoteChars q.1 ++ ':' ::
              serializeCharsF p none 0 (depth+1) q.2))).length + 1 := by
          intro gs
          induction gs with
          | nil => intro hne _; exact absurd rfl hne
          | cons q qs ihq =>
            intro _ hsz
            have hv := ih q.2 (depth+1) (by
              have := jsize_pos q.2
              simp only [jsizeFields] at hsz
              omega)
            have hqk := quoteChars_length q.1
            cases qs with
            | nil =>
              have hJ : joinSep [','] ([q].map (fun q2 => quoteChars q2.1 ++ ':' ::
                  serializeCharsF p none 0 (depth+1) q2.2)) =
                  quoteChars q.1 ++ ':' :: serializeCharsF p none 0 (depth+1) q.2 := rfl
              rw [hJ]
              simp only [jsizeFields, List.length_append, List.length_cons]
              omega
            | cons r rs =>
              have htl := ihq (by simp) (by
                have := jsize_pos q.2
                simp only [jsizeFields] at hsz ⊢
                omega)
              have hJ : joinSep [','] ((q :: r :: rs).map (fun q2 => quoteChars q2.1 ++ ':' ::
                  serializeCharsF p none 0 (depth+1) q2.2)) =
                  (quoteChars q.1 ++ ':' :: serializeCharsF p none 0 (depth+1) q.2) ++ [','] ++
                    joinSep [','] ((r :: rs).map (fun q2 => quoteChars q2.1 ++ ':' ::
                      serializeCharsF p none 0 (depth+1) q2.2)) := rfl
              rw [hJ]
              simp only [jsizeFields] at hsz htl ⊢
              simp only [List.length_append, List.length_cons, List.length_nil] at htl ⊢
              omega
        have := haux (kv :: fs2) (by simp) hpl
        simp only [jsize, List.length_cons, List.length_append]
        simp only [List.length_cons, List.length_nil] at this ⊢
        omega

theorem jsonParse_wf (t : String) (v : Json) (h : jsonParse t = some v) :
    jsonWfB v = true := by
  unfold jsonParse at h
  cases hp : parseValueF (3 * t.data.length + 1) t.data with
  | none => rw [hp] at h; exact Option.noConfusion h
  | some p =>
    rw [hp] at h
    obtain ⟨w, rest⟩ := p
    simp only [] at h
    split at h
    · simp only [Option.some.injEq] at h
      subst h
      exact (parse_wf _).1 t.data w rest hp
    · exact Option.noConfusion h

theorem validateJson_ok_parse (s : String) (e : Option ValidationError) (data : Json)
    (h : validateJson (some s) = ⟨true, e, some data⟩) :
    jsonParse (jsTrim s) = some data := by
  unfold validateJson at h
  simp only [] at h
  by_cases h1 : s = ""
  · rw [if_pos h1] at h; simp at h
  · rw [if_neg h1] at h
    by_cases h2 : jsUtf16Length s > MAX_FILE_SIZE
    · rw [if_pos h2] at h; simp at h
    · rw [if_neg h2] at h
      by_cases h3 : jsTrim s = ""
      · rw [if_pos h3] at h; simp at h
      · rw [if_neg h3] at h
        cases hp : jsonParse (jsTrim s) with
        | none => rw [hp] at h; simp at h
        | some v =>
          rw [hp] at h
          have hd : v = data := by
            have := congrArg JsonValidationResult.data h
            simpa using this
          rw [hd]

/-- C4: for every valid JSON text, `minifyJson` serializes the parsed value
with no replacer and no gap (so sorting is never applied and key order is
untouched), and parsing the minified string returns exactly the value
parsed from the original text, field order included. -/
theorem minify_parse_roundtrip :
    ∀ (s : String) (e : Option ValidationError) (data : Json),
      validateJson (some s) = ⟨true, e, some data⟩ →
      minifyJson (some s) = some (jsonStringifyF (textFuel s) none 0 data) ∧
      jsonParse (jsonStringifyF (textFuel s) none 0 data) = some data := by
  intro s e data h
  constructor
  · unfold minifyJson
    rw [h]
  · have hwf := jsonParse_wf _ _ (validateJson_ok_parse s e data h)
    have hsz := validateJson_data_size s e data h
    have hst : jsonStringifyF (textFuel s) none 0 data =
        String.mk (serializeCharsF (textFuel s) none 0 0 data) := rfl
    rw [hst]
    unfold jsonParse
    have hd : (String.mk (serializeCharsF (textFuel s) none 0 0 data)).data =
        serializeCharsF (textFuel s) none 0 0 data := rfl
    rw [hd]
    have hlen := ser_length_ge (textFuel s) data 0 (by unfold textFuel at *; omega)
    have hrt := (roundtrip_main (jsize data)).1 data le_rfl hwf (textFuel s)
      (by unfold textFuel at *; omega)
      (3 * (serializeCharsF (textFuel s) none 0 0 data).length + 1)
      (by omega)
      0 [] rfl
    rw [List.append_nil] at hrt
    rw [hrt]
    rfl

theorem minify_parse_roundtrip_witness :
    validateJson (some "\x7b\"a\":[1,2]\x7d") =
      ⟨true, none, some (Json.obj [("a", Json.arr [Json.num 1, Json.num 2])])⟩ ∧
    (minifyJson (some "\x7b\"a\":[1,2]\x7d") =
        some (jsonStringifyF (textFuel "\x7b\"a\":[1,2]\x7d") none 0
          (Json.obj [("a", Json.arr [Json.num 1, Json.num 2])])) ∧
      jsonParse (jsonStringifyF (textFuel "\x7b\"a\":[1,2]\x7d") none 0
          (Json.obj [("a", Json.arr [Json.num 1, Json.num 2])])) =
        some (Json.obj [("a", Json.arr [Json.num 1, Json.num 2])])) :=
  ⟨by rfl, minify_parse_roundtrip "\x7b\"a\":[1,2]\x7d" none
    (Json.obj [("a", Json.arr [Json.num 1, Json.num 2])]) (by rfl)⟩
